import Mathlib

/-!
Verification of the Last.fm music-library sync engine.

A shallow embedding, in Lean, of the sync core of the Obsidian Last.fm
music-library plugin (`main.ts` / `settings.ts`), together with proofs and
refutations of the behavioural properties stated in the accompanying
specification.

Modelling conventions, fixed once and used throughout:

* **Timestamps / local ISO strings.**  The plugin converts epoch seconds to a
  local-time ISO string (`timestampToLocalISO`) and back
  (`localISOToTimestamp`), using the environment's `Date` and timezone.  The
  codec is modelled as the identity: a local-ISO string is represented by the
  epoch timestamp (a `Nat`) it renders.  `localISOToTimestamp` is then exact
  parsing, and its "falsy" failure case corresponds to the timestamp `0`
  (which the source skips via `if (ts)`).
* **The calendar year of a timestamp.**  The source derives the year of a
  history entry with `iso.slice(0, 4)`.  Under the identity codec this is an
  (environment-determined, monotone) function of the timestamp; it is passed
  around explicitly as a parameter `yearOf : Nat → Nat`.
* **File contents.**  Track-record files and history-log files are modelled
  as lists of structured lines.  The regular-expression operations of the
  source (`play_count: "N"` matching, `- <iso> — [[name]]` matching, the
  `# History` heading test) anchor on whole generated lines; the structured
  constructors represent exactly the lines those patterns match, and free-form
  lines (constructor `otherT` / `otherH`) are modelled as never matching.
* **The vault.**  `getAbstractFileByPath` distinguishes files and folders;
  the vault is an association list from paths to an entry kind.  Track
  records and history logs are kept in their own association lists keyed by
  path-determining data (record path, history year), which is equivalent
  because the source derives those paths injectively.  `normalizePath` is
  modelled as the identity.
* **The remote.**  The Last.fm endpoint is modelled as a script: the list of
  responses the remote gives to the successive requests the fetch loop makes.
-/

namespace LastFmSync

/-! ## Generic association lists (JS `Map` / keyed vault paths) -/

/-- Look up a key in an association list (first match, like `Map.get`). -/
def alookup {κ α : Type} [DecidableEq κ] (l : List (κ × α)) (k : κ) : Option α :=
  (l.find? (fun p => p.1 = k)).map (fun p => p.2)

/-- Whether a key is present. -/
def ahas {κ α : Type} [DecidableEq κ] (l : List (κ × α)) (k : κ) : Bool :=
  l.any (fun p => p.1 = k)

/-- Set a key: overwrite the (first) entry in place if the key is present
(keeping insertion order, like a JS `Map`), append at the end otherwise. -/
def aset {κ α : Type} [DecidableEq κ] : List (κ × α) → κ → α → List (κ × α)
  | [], k, v => [(k, v)]
  | p :: rest, k, v => if p.1 = k then (k, v) :: rest else p :: aset rest k v

/-! ## Raw remote data (`LastFmTrack` and friends) -/

/-- One element of the `image` array of a Last.fm track payload:
`{ "#text": string, size: string }`. -/
structure ImageEntry where
  text : String
  size : String
deriving DecidableEq

/-- A raw track item from `user.getrecenttracks` (interface `LastFmTrack` of
the source).  `Option` models a missing or "falsy" JSON field:
`dateUts = some n` models `date.uts` present as a truthy numeric string with
value `n`, while `none` models an absent `date` (a now-playing item) or an
empty `uts` string.  `some 0` models the string `"0"`. -/
structure LastFmTrack where
  name : Option String
  artistText : Option String
  albumText : Option String
  dateUts : Option Nat
  image : List ImageEntry
deriving DecidableEq

/-- The whitespace characters the JS `trim()` of this model strips. -/
def isJsWhitespace (c : Char) : Bool :=
  c = ' ' ∨ c = '\t' ∨ c = '\n' ∨ c = '\r'

/-- JS `String.prototype.trim()`: drop leading and trailing whitespace. -/
def jsTrim (s : String) : String :=
  ⟨((s.data.dropWhile isJsWhitespace).reverse.dropWhile isJsWhitespace).reverse⟩

/-- `t.artist?.["#text"]?.trim() || "Unknown"` (and the same for the track
name): trim, and fall back to `"Unknown"` when the field is missing or the
trimmed string is empty. -/
def orUnknown (o : Option String) : String :=
  match o with
  | none => "Unknown"
  | some s => if jsTrim s = "" then "Unknown" else jsTrim s

/-- `t.album?.["#text"]?.trim() || ""`. -/
def albumOf (t : LastFmTrack) : String :=
  match t.albumText with
  | none => ""
  | some s => jsTrim s

/-- The characters `sanitizeFileName` replaces: `/[*"\\/<>|:?]/g`. -/
def illegalChars : List Char := ['*', '"', '\\', '/', '<', '>', '|', ':', '?']

/-- `sanitizeFileName` (source line 415): replace every illegal character with
`-`, then trim. -/
def sanitizeFileName (s : String) : String :=
  jsTrim ⟨s.data.map (fun c => if c ∈ illegalChars then '-' else c)⟩

/-- `extractBestCover` (source lines 361–368): prefer the `extralarge` image,
then `large`, then the first; return its trimmed `#text`, or `""`. -/
def extractBestCover (images : List ImageEntry) : String :=
  if images.isEmpty then ""
  else
    match ((images.find? (fun i => i.size = "extralarge")).orElse
        (fun _ => images.find? (fun i => i.size = "large"))).orElse
        (fun _ => images.head?) with
    | none => ""
    | some i => if jsTrim i.text = "" then "" else jsTrim i.text

/-- `buildLastFmUrl` (source lines 370–374).  Percent-encoding of the two
components is environmental and not modelled; the URL is the concatenation
shape of the source template. -/
def buildLastFmUrl (artist track : String) : String :=
  "https://www.last.fm/music/" ++ artist ++ "/_/" ++ track

/-! ## The watermark filter (source lines 227–230) -/

/-- The timestamp the filter uses for a fetched track:
`t.date?.uts ? Number(t.date.uts) : 0`. -/
def filterTs (t : LastFmTrack) : Nat :=
  t.dateUts.getD 0

/-- `allNewTracks.filter(t => ts > lastFetchedTimestamp)`: the events that
survive the watermark filter. -/
def trulyNewTracks (wm : Nat) (l : List LastFmTrack) : List LastFmTrack :=
  l.filter (fun t => wm < filterTs t)

/-- The timestamp the aggregator assigns to a surviving event
(source line 248): `t.date?.uts ? Number(t.date.uts) : Math.floor(Date.now()/1000)`;
`now` is the collection-time fallback. -/
def eventTs (now : Nat) (t : LastFmTrack) : Nat :=
  t.dateUts.getD now

/-! ## Aggregation (source lines 241–287) -/

/-- The grouping key: `` `${artist}|${name}` ``. -/
def trackKey (artist name : String) : String :=
  artist ++ "|" ++ name

/-- The derived file name: `` `${safeArtist} - ${safeName}.md` ``. -/
def trackFileName (artist name : String) : String :=
  sanitizeFileName artist ++ " - " ++ sanitizeFileName name ++ ".md"

/-- Per-identity aggregate for one run (interface `TrackGroup`).  The two
`Iso` fields hold the timestamp whose local-ISO rendering the source stores. -/
structure TrackGroup where
  count : Nat
  latestIso : Nat
  latestTs : Nat
  firstIso : Nat
  firstTs : Nat
  album : String
  coverUrl : String
  artist : String
  name : String
  fileName : String
deriving DecidableEq

/-- One element of `historyPlays`: `{ fileName, dateIso, ts }`. -/
structure HistPlay where
  fileName : String
  dateIso : Nat
  ts : Nat
deriving DecidableEq

/-- The fresh group inserted when a key is first seen (source lines 260–273),
before the unconditional `group.count++`. -/
def freshGroup (ts : Nat) (album coverUrl artist name fileName : String) :
    TrackGroup :=
  { count := 0, latestIso := ts, latestTs := ts, firstIso := ts, firstTs := ts
    album := album, coverUrl := coverUrl, artist := artist, name := name
    fileName := fileName }

/-- The per-event mutation of a group (source lines 276–286): `count++`, then
update the latest fields if this event is strictly later, then the first
fields if it is strictly earlier. -/
def bumpGroup (g : TrackGroup) (ts : Nat) (album coverUrl : String) :
    TrackGroup :=
  let g1 : TrackGroup := { g with count := g.count + 1 }
  let g2 : TrackGroup :=
    if g1.latestTs < ts then
      { g1 with latestIso := ts, latestTs := ts, album := album, coverUrl := coverUrl }
    else g1
  if ts < g2.firstTs then { g2 with firstIso := ts, firstTs := ts } else g2

/-- The `historyPlays` element pushed for one surviving event
(source line 257). -/
def playOf (now : Nat) (t : LastFmTrack) : HistPlay :=
  { fileName := trackFileName (orUnknown t.artistText) (orUnknown t.name)
    dateIso := eventTs now t
    ts := eventTs now t }

/-- One iteration of the aggregation loop (source lines 244–287), acting on
the pair (groups in insertion order, `historyPlays`). -/
def aggStep (now : Nat) (st : List (String × TrackGroup) × List HistPlay)
    (t : LastFmTrack) : List (String × TrackGroup) × List HistPlay :=
  let artist := orUnknown t.artistText
  let name := orUnknown t.name
  let key := trackKey artist name
  let ts := eventTs now t
  let album := albumOf t
  let coverUrl := extractBestCover t.image
  let fileName := trackFileName artist name
  let plays := st.2 ++ [playOf now t]
  let groups0 :=
    if ahas st.1 key then st.1
    else st.1 ++ [(key, freshGroup ts album coverUrl artist name fileName)]
  let groups :=
    match alookup groups0 key with
    | some g => aset groups0 key (bumpGroup g ts album coverUrl)
    | none => groups0
  (groups, plays)

/-- The whole aggregation pass over the surviving events. -/
def aggregate (now : Nat) (l : List LastFmTrack) :
    List (String × TrackGroup) × List HistPlay :=
  l.foldl (aggStep now) ([], [])

/-! ## The ascending sort of `historyPlays` (source line 289)

`historyPlays.sort((a, b) => a.ts - b.ts)` is an ascending comparison sort;
it is modelled by an insertion sort.  (The relative order of equal-timestamp
plays is irrelevant to every property proved below.) -/

/-- Insert a play into an already ts-sorted list, after all plays with a
smaller-or-equal timestamp. -/
def insertSorted (p : HistPlay) : List HistPlay → List HistPlay
  | [] => [p]
  | q :: rest => if q.ts ≤ p.ts then q :: insertSorted p rest else p :: q :: rest

/-- Ascending sort by `ts`. -/
def sortByTs (l : List HistPlay) : List HistPlay :=
  l.foldr insertSorted []

/-! ## Track-record file contents

A track record is modelled as a list of structured lines.  The three
constructors `pcLine`, `firstAtLine`, `lastAtLine` stand for exactly the lines
the source's patterns `play_count:\s*"?(\d+)"?`, `first_listened_at: …`,
`last_listened_at:\s*.+` are anchored on; every other line of the file
(front-matter delimiters, `track:`, the cover embed, a malformed play-count
line, …) is an `otherT` line, which those patterns are modelled as never
matching. -/

inductive TLine where
  | pcLine (n : Nat)
  | firstAtLine (iso : Nat)
  | lastAtLine (iso : Nat)
  | otherT (s : String)
deriving DecidableEq

/-- The parsed stored play count: the first `play_count: "N"` line, if any
(the first match of `content.match(/play_count:\s*"?(\d+)"?/)`). -/
def firstPcOf : List TLine → Option Nat
  | [] => none
  | .pcLine n :: _ => some n
  | _ :: rest => firstPcOf rest

/-- The stored `first_listened_at` value: first matching line. -/
def firstFirstAt : List TLine → Option Nat
  | [] => none
  | .firstAtLine i :: _ => some i
  | _ :: rest => firstFirstAt rest

/-- The stored `last_listened_at` value: first matching line. -/
def firstLastAt : List TLine → Option Nat
  | [] => none
  | .lastAtLine i :: _ => some i
  | _ :: rest => firstLastAt rest

/-- `content.replace(/play_count:\s*"?\d+"?/, …)`: replace the **first**
matching line (the regex has no `g` flag), leave the content unchanged when
nothing matches. -/
def replaceFirstPc (n : Nat) : List TLine → List TLine
  | [] => []
  | .pcLine _ :: rest => .pcLine n :: rest
  | l :: rest => l :: replaceFirstPc n rest

/-- `content.replace(/last_listened_at:\s*.+/, …)`: replace the first
matching line, no-op when nothing matches. -/
def replaceFirstLastAt (iso : Nat) : List TLine → List TLine
  | [] => []
  | .lastAtLine _ :: rest => .lastAtLine iso :: rest
  | l :: rest => l :: replaceFirstLastAt iso rest

/-- `updateTrackContent` (source lines 394–400): compute
`count = stored + newPlays` (or `newPlays` when no stored count parses), then
replace the first play-count line and the first last-listened line. -/
def updateTrackContent (content : List TLine) (newPlays : Nat) (latestIso : Nat) :
    List TLine :=
  let count :=
    match firstPcOf content with
    | some c => c + newPlays
    | none => newPlays
  replaceFirstLastAt latestIso (replaceFirstPc count content)

/-- `buildNewTrackContent` (source lines 376–392), as structured lines in the
template's order. -/
def buildNewTrackContent (g : TrackGroup) (url : String) : List TLine :=
  [ .otherT "---"
  , .otherT ("track: " ++ g.name)
  , .otherT ("artist: " ++ g.artist)
  , .otherT ("album: " ++ (if g.album = "" then "—" else g.album))
  , .otherT "tags: [song]"
  , .otherT ("lastfm_url: " ++ url)
  , .pcLine g.count
  , .firstAtLine g.firstIso
  , .lastAtLine g.latestIso
  , .otherT ("cover_url: " ++ g.coverUrl)
  , .otherT "---"
  , .otherT ("cover embed: " ++ g.coverUrl)
  , .otherT ("link: " ++ url)
  , .otherT "" ]

/-! ## History-log file contents -/

/-- A line of a `History-YYYY.md` file: the `# History` heading, a blank
line, an entry line `- <iso> — [[name]]` (carrying the entry's timestamp
under the identity codec), or any other line. -/
inductive HLine where
  | heading
  | blankL
  | entryL (ts : Nat) (name : String)
  | otherH (s : String)
deriving DecidableEq

def isBlankH : HLine → Bool
  | .blankL => true
  | _ => false

def isHeadingH : HLine → Bool
  | .heading => true
  | _ => false

def isEntryH : HLine → Bool
  | .entryL _ _ => true
  | _ => false

/-- `play.fileName.replace(/\.md$/, "")`. -/
def stripMd (s : String) : String :=
  if s.data.reverse.take 3 = ['d', 'm', '.'] then ⟨s.data.take (s.data.length - 3)⟩
  else s

/-- The resolver's scan of one file's lines (source lines 135–148): the first
entry line whose parsed timestamp is truthy (nonzero). -/
def firstValidEntryTs : List HLine → Option Nat
  | [] => none
  | .entryL ts _ :: rest => if ts = 0 then firstValidEntryTs rest else some ts
  | _ :: rest => firstValidEntryTs rest

/-- The index right after the heading and the blank lines that immediately
follow it (source lines 346–349); meaningful when a heading is present. -/
def insertPosOf (lines : List HLine) : Nat :=
  let i := lines.findIdx isHeadingH + 1
  i + ((lines.drop i).takeWhile isBlankH).length

/-- `appendToHistory`'s mutation of one file's lines (source lines 339–351):
return unchanged if the entry is already present; prepend a heading if none
is present (`"# History\n\n" + content.trimStart()`); then splice the entry
in right after the heading and its following blank lines. -/
def insertEntry (lines : List HLine) (ts : Nat) (name : String) : List HLine :=
  if HLine.entryL ts name ∈ lines then lines
  else
    let lines :=
      if lines.any isHeadingH then lines
      else
        HLine.heading :: HLine.blankL ::
          (let r := lines.dropWhile isBlankH
           if r.isEmpty then [HLine.blankL] else r)
    let j := insertPosOf lines
    lines.take j ++ [HLine.entryL ts name] ++ lines.drop j

/-- The history store: one file per calendar year. -/
abbrev HistStore := List (Nat × List HLine)

/-- The default content of a history file that could not be read:
`"# History\n\n"`, which splits into three lines. -/
def defaultHistFile : List HLine :=
  [HLine.heading, HLine.blankL, HLine.blankL]

/-- `appendToHistory` (source lines 321–359) for one play: pick the year file
from the play's local-ISO date, defaulting to the fresh heading content, and
insert the entry. -/
def appendToHistory (yearOf : Nat → Nat) (h : HistStore) (p : HistPlay) :
    HistStore :=
  let y := yearOf p.dateIso
  let content := (alookup h y).getD defaultHistFile
  aset h y (insertEntry content p.dateIso (stripMd p.fileName))

/-- The history phase of the Store Writer (source lines 311–314): append every
play of the sorted `historyPlays` list in order. -/
def processHistory (yearOf : Nat → Nat) (h : HistStore) (plays : List HistPlay) :
    HistStore :=
  plays.foldl (appendToHistory yearOf) h

/-! ## Resume-point resolver (source lines 120–151) -/

/-- The years scanned, newest first: `currentYear` down to `currentYear - 20`
(truncated subtraction; the source's scan of negative years never finds a
file, and neither do the repeated year‑0 checks this model produces in the
degenerate case `currentYear < 20`). -/
def yearsList (currentYear : Nat) : List Nat :=
  (List.range 21).map (fun i => currentYear - i)

/-- Scan the year files newest first and return the first valid topmost
timestamp. -/
def resolveScan (h : HistStore) : List Nat → Option Nat
  | [] => none
  | y :: rest =>
    match alookup h y with
    | some lines =>
      match firstValidEntryTs lines with
      | some ts => some ts
      | none => resolveScan h rest
    | none => resolveScan h rest

/-- The resolved watermark: `some ts` iff the source sets `found = true` with
`lastFetchedTimestamp = ts`. -/
def resolveWatermark (h : HistStore) (currentYear : Nat) : Option Nat :=
  resolveScan h (yearsList currentYear)

/-! ## Paginated fetcher (source lines 158–219) -/

/-- One response of the remote to one request: a successful page (its track
list, and the `@attr.totalPages` field when present), an out-of-band HTTP
error status, or an in-band API error (`data.error` set, which the source
turns into a status-less thrown `Error`). -/
inductive FetchResp where
  | okPage (tracks : List LastFmTrack) (totalPages : Option Nat)
  | errStatus (status : Nat)
  | errInBand
deriving DecidableEq

/-- The outcome of the fetch loop: the accumulated `allNewTracks`, a fatal
failure (the `return` at source line 217), or a starved script (the model ran
out of scripted responses while the source loop would still request). -/
inductive FetchOut where
  | okTracks (tracks : List LastFmTrack)
  | failed
  | starved
deriving DecidableEq

/-- The backoff delay picked at source line 209:
`err.status === 429 ? 30000 : 5000` (milliseconds). -/
def retryDelay (status : Nat) : Nat :=
  if status = 429 then 30000 else 5000

/-- The `fetchLoop` (source lines 165–219).  State: remaining script, `page`,
`totalPages`, `attempts`, accumulated tracks.  `found` caps `totalPages` to 1
when there is no watermark (source lines 191–194).  A transient status (500 or
429) with `attempts < maxAttempts - 1` retries the same page; anything else
fails the run. -/
def fetchLoop (found : Bool) :
    List FetchResp → Nat → Nat → Nat → List LastFmTrack → FetchOut
  | [], page, totalPages, attempts, acc =>
    if page ≤ totalPages ∧ attempts < 3 then .starved else .okTracks acc
  | resp :: rest, page, totalPages, attempts, acc =>
    if page ≤ totalPages ∧ attempts < 3 then
      match resp with
      | .errInBand => .failed
      | .errStatus st =>
        if (st = 500 ∨ st = 429) ∧ attempts < 2 then
          fetchLoop found rest page totalPages (attempts + 1) acc
        else .failed
      | .okPage tracks tp =>
        let totalPages :=
          if page = 1 then
            match tp with
            | some n => if found then n else 1
            | none => totalPages
          else totalPages
        if tracks.isEmpty then .okTracks acc
        else fetchLoop found rest (page + 1) totalPages attempts (acc ++ tracks)
    else .okTracks acc

/-- The whole fetch phase: `page = 1`, `totalPages = 1`, `attempts = 0`. -/
def fetchAll (found : Bool) (script : List FetchResp) : FetchOut :=
  fetchLoop found script 1 1 0 []

/-! ## Settings, vault, and the sync run (source lines 91–319) -/

/-- The kind of a vault entry `getAbstractFileByPath` can return. -/
inductive VKind where
  | vfile
  | vfolder
deriving DecidableEq

/-- The persisted settings the sync engine reads (interface `LastFmSettings`;
`autoSyncEnabled` does not affect the sync run and is omitted). -/
structure Settings where
  apiKey : String
  username : String
  folder : String
  historyFolderPath : String
deriving DecidableEq

/-- The persistent state a sync run touches: the vault's path table (used for
folder existence checks and folder creation), the track-record files keyed by
path, the history-log files keyed by year, and the settings store. -/
structure SyncState where
  vaultDirs : List (String × VKind)
  records : List (String × List TLine)
  history : HistStore
  settings : Settings
deriving DecidableEq

/-- The exit points of `syncTracks`, in source order: missing credentials
(line 97), missing history folder (line 111), fetch failure (line 217), no
fetched tracks (line 224), all tracks filtered (line 236), or the completed
summary (line 318) with its `created` / `updated` counts. -/
inductive Outcome where
  | missingCreds
  | historyFolderMissing
  | syncFailed
  | starvedScript
  | noNewTracks
  | allFiltered
  | completed (created updated : Nat)
deriving DecidableEq

/-- `vault.createFolder(path).catch(() => ...)`: create the folder if nothing
exists at the path, swallow the error otherwise. -/
def ensureFolder (v : List (String × VKind)) (path : String) :
    List (String × VKind) :=
  if ahas v path then v else v ++ [(path, VKind.vfolder)]

/-- The per-group write of the Store Writer (source lines 294–308): create the
record file when absent, update it otherwise. -/
def writeGroup (folder : String)
    (st : List (String × List TLine) × Nat × Nat) (g : TrackGroup) :
    List (String × List TLine) × Nat × Nat :=
  let path := folder ++ "/" ++ g.fileName
  match alookup st.1 path with
  | none =>
    (st.1 ++ [(path, buildNewTrackContent g (buildLastFmUrl g.artist g.name))],
      st.2.1 + 1, st.2.2)
  | some content =>
    (aset st.1 path (updateTrackContent content g.count g.latestIso),
      st.2.1, st.2.2 + 1)

/-- The record phase of the Store Writer over all groups in insertion order. -/
def writeGroups (folder : String) (records : List (String × List TLine))
    (groups : List (String × TrackGroup)) :
    List (String × List TLine) × Nat × Nat :=
  groups.foldl (fun st kg => writeGroup folder st kg.2) (records, 0, 0)

/-- The sync pipeline after the folder checks (source lines 120–319):
resolve the watermark, fetch, filter, aggregate, write records, write
history. -/
def syncCore (s : SyncState) (script : List FetchResp)
    (currentYear now : Nat) (yearOf : Nat → Nat) : Outcome × SyncState :=
  let wmO := resolveWatermark s.history currentYear
  let found := wmO.isSome
  let wm := wmO.getD 0
  match fetchAll found script with
  | .failed => (.syncFailed, s)
  | .starved => (.starvedScript, s)
  | .okTracks allNew =>
    if allNew.isEmpty then (.noNewTracks, s)
    else
      let truly := trulyNewTracks wm allNew
      if truly.isEmpty then (.allFiltered, s)
      else
        let agg := aggregate now truly
        let sortedPlays := sortByTs agg.2
        let written := writeGroups s.settings.folder s.records (agg.1)
        let hist := processHistory yearOf s.history sortedPlays
        (.completed written.2.1 written.2.2,
          { s with records := written.1, history := hist })

/-- `syncTracks` (source lines 91–319): credential check, notes-folder
creation, history-folder resolution (early return when a configured history
folder path has no vault entry; otherwise derive `folder/History`, create it
and persist it into the settings), then the sync pipeline. -/
def syncTracks (s : SyncState) (script : List FetchResp)
    (currentYear now : Nat) (yearOf : Nat → Nat) : Outcome × SyncState :=
  if s.settings.apiKey = "" ∨ s.settings.username = "" then (.missingCreds, s)
  else
    let v1 := ensureFolder s.vaultDirs s.settings.folder
    if jsTrim s.settings.historyFolderPath ≠ "" then
      if ahas v1 s.settings.historyFolderPath then
        syncCore { s with vaultDirs := v1 } script currentYear now yearOf
      else (.historyFolderMissing, { s with vaultDirs := v1 })
    else
      let hf := s.settings.folder ++ "/History"
      syncCore
        { s with vaultDirs := ensureFolder v1 hf
                 settings := { s.settings with historyFolderPath := hf } }
        script currentYear now yearOf

/-! ## Derived notions used in the statements -/

/-- The grouping key the aggregation loop computes for a fetched track. -/
def keyOf (t : LastFmTrack) : String :=
  trackKey (orUnknown t.artistText) (orUnknown t.name)

/-- The record file name the aggregation loop computes for a fetched track. -/
def fileNameOf (t : LastFmTrack) : String :=
  trackFileName (orUnknown t.artistText) (orUnknown t.name)

/-- The record path the Store Writer writes a group to. -/
def recPath (folder : String) (g : TrackGroup) : String :=
  folder ++ "/" ++ g.fileName

/-- The play count of an optional group (0 when absent). -/
def optCount (o : Option TrackGroup) : Nat :=
  match o with
  | none => 0
  | some g => g.count

/-- The total play count over all groups of a run. -/
def sumCounts (gs : List (String × TrackGroup)) : Nat :=
  (gs.map (fun kg => kg.2.count)).sum

/-- All entry lines of a history file, in file order. -/
def fileEntriesH : List HLine → List (Nat × String)
  | [] => []
  | .entryL ts n :: rest => (ts, n) :: fileEntriesH rest
  | _ :: rest => fileEntriesH rest

/-- The largest entry timestamp of a history file (0 when it has none). -/
def fileMaxTs (lines : List HLine) : Nat :=
  ((fileEntriesH lines).map (fun e => e.1)).foldr max 0

/-- The largest entry timestamp over all history files (0 when none). -/
def histMaxTs (h : HistStore) : Nat :=
  (h.map (fun p => fileMaxTs p.2)).foldr max 0

/-- Whether any history file holds at least one entry. -/
def histHasEntries (h : HistStore) : Prop :=
  ∃ p ∈ h, fileEntriesH p.2 ≠ []

instance (h : HistStore) : Decidable (histHasEntries h) := by
  unfold histHasEntries
  infer_instance

/-- A well-formed history file for year `y`: it has a heading, no entry line
precedes the first heading, and every entry belongs to year `y`, has a truthy
timestamp, and is bounded by the topmost (first) valid entry.  Files the
plugin itself writes satisfy this by construction. -/
def wfFile (yearOf : Nat → Nat) (y : Nat) (lines : List HLine) : Prop :=
  lines.any isHeadingH = true ∧
  (∀ l ∈ lines.take (lines.findIdx isHeadingH), isEntryH l = false) ∧
  (∀ e ∈ fileEntriesH lines,
    yearOf e.1 = y ∧ 1 ≤ e.1 ∧ e.1 ≤ (firstValidEntryTs lines).getD 0)

instance (yearOf : Nat → Nat) (y : Nat) (lines : List HLine) :
    Decidable (wfFile yearOf y lines) := by
  unfold wfFile
  infer_instance

/-- A well-formed history store: distinct year keys, each file well formed
for its year. -/
def wfHist (yearOf : Nat → Nat) (h : HistStore) : Prop :=
  (h.map (fun p => p.1)).Nodup ∧ ∀ p ∈ h, wfFile yearOf p.1 p.2

instance (yearOf : Nat → Nat) (h : HistStore) : Decidable (wfHist yearOf h) := by
  unfold wfHist
  infer_instance

/-- Every persisted record's `last_listened_at` is bounded by the history:
the consistency a run's own writes establish. -/
def recordsBounded (s : SyncState) : Prop :=
  ∀ p ∈ s.records, ∀ t, firstLastAt p.2 = some t → t ≤ histMaxTs s.history

instance (s : SyncState) : Decidable (recordsBounded s) := by
  unfold recordsBounded
  infer_instance

/-- The run's current year covers the newest history entry within the
resolver's 21-year lookback. -/
def windowOk (yearOf : Nat → Nat) (h : HistStore) (currentYear : Nat) : Prop :=
  histHasEntries h →
    yearOf (histMaxTs h) ≤ currentYear ∧
    currentYear ≤ yearOf (histMaxTs h) + 20

instance (yearOf : Nat → Nat) (h : HistStore) (currentYear : Nat) :
    Decidable (windowOk yearOf h currentYear) := by
  unfold windowOk
  infer_instance

/-- Every track any scripted page could deliver. -/
def scriptTracks : List FetchResp → List LastFmTrack
  | [] => []
  | .okPage ts _ :: rest => ts ++ scriptTracks rest
  | _ :: rest => scriptTracks rest

/-- The input of one sync run: the remote's response script, the run's
current year, and the run's collection time. -/
abbrev RunInput := List FetchResp × Nat × Nat

/-- The state a run leaves behind. -/
def runOne (yearOf : Nat → Nat) (s : SyncState) (i : RunInput) : SyncState :=
  (syncTracks s i.1 i.2.1 i.2.2 yearOf).2

/-- The state after a sequence of runs. -/
def runSeq (yearOf : Nat → Nat) (s : SyncState) (l : List RunInput) : SyncState :=
  l.foldl (runOne yearOf) s

/-- Every run of the sequence starts within the lookback window of the store
it sees. -/
def runsOk (yearOf : Nat → Nat) : SyncState → List RunInput → Prop
  | _, [] => True
  | s, i :: rest =>
    windowOk yearOf s.history i.2.1 ∧ runsOk yearOf (runOne yearOf s i) rest

/-- The index of the first occurrence of a line in a history file (the file
length when absent). -/
def idxOfH (lines : List HLine) (e : HLine) : Nat :=
  lines.findIdx (fun l => l = e)

/-- Whether a track-record line is the play-count line. -/
def isPcT : TLine → Bool
  | .pcLine _ => true
  | _ => false

/-- Whether a track-record line is the last-listened line. -/
def isLastAtT : TLine → Bool
  | .lastAtLine _ => true
  | _ => false

/-- Fold `insertEntry` over a list of (timestamp, link-name) pairs: the
evolution of one history file over the plays of one run that land in it. -/
def insertList (lines : List HLine) (es : List (Nat × String)) : List HLine :=
  es.foldl (fun ls e => insertEntry ls e.1 e.2) lines

/-- The (timestamp, link-name) pair `appendToHistory` derives from a play. -/
def playEntry (p : HistPlay) : Nat × String :=
  (p.dateIso, stripMd p.fileName)

/-- The shape invariant of a history file's split around its insertion point:
the prefix `P` contains the first heading, everything in `P` after that
heading is blank (so insertion lands exactly at `P.length`), and the body `B`
starts with a non-blank line (or is empty). -/
def PreOk (P B : List HLine) : Prop :=
  P.any isHeadingH = true ∧
  P.findIdx isHeadingH + 1 +
    ((P.drop (P.findIdx isHeadingH + 1)).takeWhile isBlankH).length = P.length ∧
  ∀ x, B.head? = some x → isBlankH x = false

theorem alookup_nil {κ α : Type} [DecidableEq κ] (k : κ) :
    alookup ([] : List (κ × α)) k = none := rfl

theorem alookup_cons {κ α : Type} [DecidableEq κ]
    (p : κ × α) (rest : List (κ × α)) (k : κ) :
    alookup (p :: rest) k = if p.1 = k then some p.2 else alookup rest k := by
  by_cases hp : p.1 = k <;> simp [alookup, List.find?, hp]

theorem ahas_cons {κ α : Type} [DecidableEq κ]
    (p : κ × α) (rest : List (κ × α)) (k : κ) :
    ahas (p :: rest) k = true ↔ p.1 = k ∨ ahas rest k = true := by
  simp [ahas]

theorem ahas_iff_alookup_isSome {κ α : Type} [DecidableEq κ]
    (l : List (κ × α)) (k : κ) : ahas l k = true ↔ (alookup l k).isSome := by
  induction l with
  | nil => simp [ahas, alookup]
  | cons p rest ih =>
    rw [ahas_cons, alookup_cons]
    by_cases hp : p.1 = k <;> simp [hp, ih]

theorem alookup_append {κ α : Type} [DecidableEq κ]
    (l l' : List (κ × α)) (k : κ) :
    alookup (l ++ l') k =
      match alookup l k with
      | some v => some v
      | none => alookup l' k := by
  induction l with
  | nil => simp [alookup_nil]
  | cons p rest ih =>
    rw [List.cons_append, alookup_cons, alookup_cons]
    by_cases hp : p.1 = k <;> simp [hp, ih]

theorem aset_keys {κ α : Type} [DecidableEq κ]
    (l : List (κ × α)) (k : κ) (v : α) :
    (aset l k v).map (fun p => p.1) =
      if ahas l k then l.map (fun p => p.1) else l.map (fun p => p.1) ++ [k] := by
  induction l with
  | nil => simp [aset, ahas]
  | cons p rest ih =>
    by_cases hp : p.1 = k
    · simp [aset, hp, ahas]
    · rw [aset, if_neg hp]
      by_cases h : ahas rest k
      · have : ahas (p :: rest) k = true := (ahas_cons p rest k).2 (Or.inr h)
        simp only [this, if_true, List.map_cons]
        rw [ih, if_pos h]
      · have : ¬ ahas (p :: rest) k = true := by
          intro hc
          rcases (ahas_cons p rest k).1 hc with h1 | h1
          · exact hp h1
          · exact h h1
        simp only [this, if_false, List.map_cons, List.cons_append]
        rw [ih, if_neg h]
        simp

theorem alookup_aset_self {κ α : Type} [DecidableEq κ]
    (l : List (κ × α)) (k : κ) (v : α) : alookup (aset l k v) k = some v := by
  induction l with
  | nil => simp [aset, alookup_cons]
  | cons p rest ih =>
    by_cases hp : p.1 = k
    · simp [aset, hp, alookup_cons]
    · simp [aset, hp, alookup_cons, ih]

theorem alookup_aset_ne {κ α : Type} [DecidableEq κ]
    (l : List (κ × α)) (k k' : κ) (v : α) (hne : k' ≠ k) :
    alookup (aset l k v) k' = alookup l k' := by
  induction l with
  | nil => simp [aset, alookup_cons, alookup_nil, Ne.symm hne]
  | cons p rest ih =>
    by_cases hp : p.1 = k
    · simp [aset, hp, alookup_cons, Ne.symm hne, hp ▸ Ne.symm hne]
    · simp [aset, hp, alookup_cons, ih]

/-! ## The watermark filter (claims C5 and C9) -/

theorem mem_trulyNewTracks (wm : Nat) (l : List LastFmTrack) (t : LastFmTrack) :
    t ∈ trulyNewTracks wm l ↔ t ∈ l ∧ wm < filterTs t := by
  simp [trulyNewTracks, List.mem_filter]

/-- A surviving event carries its own truthy timestamp: the aggregation
fallback timestamp is never used for an event that passed the filter. -/
theorem surviving_has_uts (wm : Nat) (l : List LastFmTrack) (t : LastFmTrack)
    (h : t ∈ trulyNewTracks wm l) :
    ∃ n, t.dateUts = some n ∧ wm < n ∧ ∀ now, eventTs now t = n := by
  rcases (mem_trulyNewTracks wm l t).1 h with ⟨-, hlt⟩
  rcases hu : t.dateUts with _ | n
  · rw [filterTs, hu] at hlt
    simp at hlt
  · refine ⟨n, rfl, ?_, fun now => by simp [eventTs, hu]⟩
    rw [filterTs, hu] at hlt
    simpa using hlt

/-! ## Aggregation lemmas -/

theorem aggStep_plays (now : Nat) (st : List (String × TrackGroup) × List HistPlay)
    (t : LastFmTrack) : (aggStep now st t).2 = st.2 ++ [playOf now t] := by
  rcases st with ⟨gs, ps⟩
  simp only [aggStep]

theorem aggFold_plays (now : Nat) (l : List LastFmTrack)
    (gs : List (String × TrackGroup)) (ps : List HistPlay) :
    (l.foldl (aggStep now) (gs, ps)).2 = ps ++ l.map (playOf now) := by
  induction l generalizing gs ps with
  | nil => simp
  | cons t rest ih =>
    rw [List.foldl_cons, List.map_cons]
    rcases hst : aggStep now (gs, ps) t with ⟨gs1, ps1⟩
    have hps1 : ps1 = ps ++ [playOf now t] := by
      have := aggStep_plays now (gs, ps) t
      rw [hst] at this
      exact this
    rw [ih gs1 ps1, hps1, List.append_assoc]
    rfl

theorem aggregate_plays (now : Nat) (l : List LastFmTrack) :
    (aggregate now l).2 = l.map (playOf now) := by
  simpa using aggFold_plays now l [] []

theorem bumpGroup_count (g : TrackGroup) (ts : Nat) (album coverUrl : String) :
    (bumpGroup g ts album coverUrl).count = g.count + 1 := by
  unfold bumpGroup
  dsimp only
  split <;> split <;> rfl

theorem sumCounts_aset (gs : List (String × TrackGroup)) (k : String)
    (v g : TrackGroup) (h : alookup gs k = some g) :
    sumCounts (aset gs k v) + g.count = sumCounts gs + v.count := by
  induction gs with
  | nil => simp [alookup_nil] at h
  | cons p rest ih =>
    rw [alookup_cons] at h
    by_cases hp : p.1 = k
    · rw [if_pos hp] at h
      injection h with h
      subst h
      simp only [aset, if_pos hp, sumCounts, List.map_cons, List.sum_cons]
      omega
    · rw [if_neg hp] at h
      simp only [aset, if_neg hp, sumCounts, List.map_cons, List.sum_cons]
      have := ih h
      simp only [sumCounts] at this
      omega

theorem aggStep_sumCounts (now : Nat)
    (st : List (String × TrackGroup) × List HistPlay) (t : LastFmTrack) :
    sumCounts (aggStep now st t).1 = sumCounts st.1 + 1 := by
  rcases st with ⟨gs, ps⟩
  unfold aggStep
  dsimp only
  by_cases hhas : ahas gs (trackKey (orUnknown t.artistText) (orUnknown t.name))
  · rw [if_pos hhas]
    rcases hl : alookup gs (trackKey (orUnknown t.artistText) (orUnknown t.name)) with _ | g
    · exact absurd ((ahas_iff_alookup_isSome gs _).1 hhas) (by simp [hl])
    · dsimp only
      have hsum := sumCounts_aset gs _ (bumpGroup g (eventTs now t) (albumOf t)
        (extractBestCover t.image)) g hl
      rw [bumpGroup_count] at hsum
      omega
  · rw [if_neg hhas]
    have hnone : alookup gs (trackKey (orUnknown t.artistText) (orUnknown t.name)) = none := by
      rcases hl : alookup gs (trackKey (orUnknown t.artistText) (orUnknown t.name)) with _ | g
      · rfl
      · exact absurd ((ahas_iff_alookup_isSome gs _).2 (by simp [hl])) hhas
    have hfresh : (freshGroup (eventTs now t) (albumOf t) (extractBestCover t.image)
        (orUnknown t.artistText) (orUnknown t.name)
        (trackFileName (orUnknown t.artistText) (orUnknown t.name))).count = 0 := rfl
    have hl2 : alookup (gs ++ [(trackKey (orUnknown t.artistText) (orUnknown t.name),
        freshGroup (eventTs now t) (albumOf t) (extractBestCover t.image)
          (orUnknown t.artistText) (orUnknown t.name)
          (trackFileName (orUnknown t.artistText) (orUnknown t.name)))])
        (trackKey (orUnknown t.artistText) (orUnknown t.name)) =
        some (freshGroup (eventTs now t) (albumOf t) (extractBestCover t.image)
          (orUnknown t.artistText) (orUnknown t.name)
          (trackFileName (orUnknown t.artistText) (orUnknown t.name))) := by
      rw [alookup_append, hnone]
      simp [alookup_cons]
    rw [hl2]
    dsimp only
    have hsum := sumCounts_aset
      (gs ++ [(trackKey (orUnknown t.artistText) (orUnknown t.name),
        freshGroup (eventTs now t) (albumOf t) (extractBestCover t.image)
          (orUnknown t.artistText) (orUnknown t.name)
          (trackFileName (orUnknown t.artistText) (orUnknown t.name)))])
      (trackKey (orUnknown t.artistText) (orUnknown t.name))
      (bumpGroup (freshGroup (eventTs now t) (albumOf t) (extractBestCover t.image)
          (orUnknown t.artistText) (orUnknown t.name)
          (trackFileName (orUnknown t.artistText) (orUnknown t.name)))
        (eventTs now t) (albumOf t) (extractBestCover t.image))
      (freshGroup (eventTs now t) (albumOf t) (extractBestCover t.image)
        (orUnknown t.artistText) (orUnknown t.name)
        (trackFileName (orUnknown t.artistText) (orUnknown t.name)))
      hl2
    rw [bumpGroup_count, hfresh] at hsum
    have happ : sumCounts (gs ++ [(trackKey (orUnknown t.artistText) (orUnknown t.name),
        freshGroup (eventTs now t) (albumOf t) (extractBestCover t.image)
          (orUnknown t.artistText) (orUnknown t.name)
          (trackFileName (orUnknown t.artistText) (orUnknown t.name)))]) =
        sumCounts gs := by
      simp [sumCounts, hfresh]
    omega

theorem aggFold_sumCounts (now : Nat) (l : List LastFmTrack)
    (gs : List (String × TrackGroup)) (ps : List HistPlay) :
    sumCounts (l.foldl (aggStep now) (gs, ps)).1 = sumCounts gs + l.length := by
  induction l generalizing gs ps with
  | nil => simp
  | cons t rest ih =>
    rw [List.foldl_cons]
    rcases hst : aggStep now (gs, ps) t with ⟨gs1, ps1⟩
    have hsum := aggStep_sumCounts now (gs, ps) t
    rw [hst] at hsum
    rw [ih gs1 ps1, hsum]
    simp only [List.length_cons]
    omega

/-- The total play count over a run's groups is exactly the number of
surviving events. -/
theorem sumCounts_aggregate (now : Nat) (l : List LastFmTrack) :
    sumCounts (aggregate now l).1 = l.length := by
  have h := aggFold_sumCounts now l [] []
  simpa [aggregate, sumCounts] using h


/-! ## Track-record update lemmas (claim C7 and the record invariants) -/

theorem replaceFirstPc_firstPcOf (n : Nat) (l : List TLine) :
    firstPcOf (replaceFirstPc n l) = (firstPcOf l).map (fun _ => n) := by
  induction l with
  | nil => rfl
  | cons a rest ih => cases a <;> simp [replaceFirstPc, firstPcOf, ih]

theorem replaceFirstPc_firstFirstAt (n : Nat) (l : List TLine) :
    firstFirstAt (replaceFirstPc n l) = firstFirstAt l := by
  induction l with
  | nil => rfl
  | cons a rest ih => cases a <;> simp [replaceFirstPc, firstFirstAt, ih]

theorem replaceFirstPc_firstLastAt (n : Nat) (l : List TLine) :
    firstLastAt (replaceFirstPc n l) = firstLastAt l := by
  induction l with
  | nil => rfl
  | cons a rest ih => cases a <;> simp [replaceFirstPc, firstLastAt, ih]

theorem replaceFirstLastAt_firstPcOf (i : Nat) (l : List TLine) :
    firstPcOf (replaceFirstLastAt i l) = firstPcOf l := by
  induction l with
  | nil => rfl
  | cons a rest ih => cases a <;> simp [replaceFirstLastAt, firstPcOf, ih]

theorem replaceFirstLastAt_firstFirstAt (i : Nat) (l : List TLine) :
    firstFirstAt (replaceFirstLastAt i l) = firstFirstAt l := by
  induction l with
  | nil => rfl
  | cons a rest ih => cases a <;> simp [replaceFirstLastAt, firstFirstAt, ih]

theorem replaceFirstLastAt_firstLastAt (i : Nat) (l : List TLine) :
    firstLastAt (replaceFirstLastAt i l) = (firstLastAt l).map (fun _ => i) := by
  induction l with
  | nil => rfl
  | cons a rest ih => cases a <;> simp [replaceFirstLastAt, firstLastAt, ih]

/-- An update turns a parsable stored count `c` into `c + newPlays` and leaves
an unparsable or missing count unparsable or missing. -/
theorem updateTrackContent_firstPcOf (c : List TLine) (n i : Nat) :
    firstPcOf (updateTrackContent c n i) = (firstPcOf c).map (· + n) := by
  unfold updateTrackContent
  rcases h : firstPcOf c with _ | c0 <;>
    simp [h, replaceFirstLastAt_firstPcOf, replaceFirstPc_firstPcOf]

/-- An update never touches `first_listened_at`. -/
theorem updateTrackContent_firstFirstAt (c : List TLine) (n i : Nat) :
    firstFirstAt (updateTrackContent c n i) = firstFirstAt c := by
  unfold updateTrackContent
  rcases h : firstPcOf c with _ | c0 <;>
    simp [h, replaceFirstLastAt_firstFirstAt, replaceFirstPc_firstFirstAt]

/-- An update overwrites a present `last_listened_at` with the group's latest
iso, and writes nothing when the line is absent. -/
theorem updateTrackContent_firstLastAt (c : List TLine) (n i : Nat) :
    firstLastAt (updateTrackContent c n i) = (firstLastAt c).map (fun _ => i) := by
  unfold updateTrackContent
  rcases h : firstPcOf c with _ | c0 <;>
    simp [h, replaceFirstLastAt_firstLastAt, replaceFirstPc_firstLastAt]

theorem replaceFirstPc_length (n : Nat) (l : List TLine) :
    (replaceFirstPc n l).length = l.length := by
  induction l with
  | nil => rfl
  | cons a rest ih => cases a <;> simp [replaceFirstPc, ih]

theorem replaceFirstLastAt_length (i : Nat) (l : List TLine) :
    (replaceFirstLastAt i l).length = l.length := by
  induction l with
  | nil => rfl
  | cons a rest ih => cases a <;> simp [replaceFirstLastAt, ih]

theorem updateTrackContent_length (c : List TLine) (n i : Nat) :
    (updateTrackContent c n i).length = c.length := by
  unfold updateTrackContent
  rcases h : firstPcOf c with _ | c0 <;>
    simp [h, replaceFirstLastAt_length, replaceFirstPc_length]

theorem replaceFirstPc_cons_pos (n m : Nat) (rest : List TLine) :
    replaceFirstPc n (TLine.pcLine m :: rest) = TLine.pcLine n :: rest := rfl

theorem replaceFirstLastAt_cons_pos (i m : Nat) (rest : List TLine) :
    replaceFirstLastAt i (TLine.lastAtLine m :: rest) =
      TLine.lastAtLine i :: rest := rfl

theorem replaceFirstPc_cons_neg (n : Nat) (a : TLine) (rest : List TLine)
    (ha : isPcT a = false) :
    replaceFirstPc n (a :: rest) = a :: replaceFirstPc n rest := by
  cases a with
  | pcLine m => simp [isPcT] at ha
  | firstAtLine m => rfl
  | lastAtLine m => rfl
  | otherT s => rfl

theorem replaceFirstLastAt_cons_neg (i : Nat) (a : TLine) (rest : List TLine)
    (ha : isLastAtT a = false) :
    replaceFirstLastAt i (a :: rest) = a :: replaceFirstLastAt i rest := by
  cases a with
  | lastAtLine m => simp [isLastAtT] at ha
  | firstAtLine m => rfl
  | pcLine m => rfl
  | otherT s => rfl

theorem replaceFirstPc_getElem (n : Nat) (l : List TLine) (k : Nat)
    (hk : k ≠ l.findIdx isPcT) :
    getElem? (replaceFirstPc n l) k = getElem? l k := by
  induction l generalizing k with
  | nil => rfl
  | cons a rest ih =>
    by_cases ha : isPcT a = true
    · have h0 : (a :: rest).findIdx isPcT = 0 := by
        rw [List.findIdx_cons, ha]
        rfl
      cases a with
      | pcLine m =>
        cases k with
        | zero => exact absurd h0.symm hk
        | succ j =>
          rw [replaceFirstPc_cons_pos]
          simp
      | firstAtLine m => simp [isPcT] at ha
      | lastAtLine m => simp [isPcT] at ha
      | otherT s => simp [isPcT] at ha
    · have ha' : isPcT a = false := by simpa using ha
      have hcons := replaceFirstPc_cons_neg n a rest ha'
      have hfi : (a :: rest).findIdx isPcT = rest.findIdx isPcT + 1 := by
        rw [List.findIdx_cons, ha']
        rfl
      cases k with
      | zero =>
        rw [hcons]
        simp
      | succ j =>
        have hj : j ≠ rest.findIdx isPcT := by
          intro h
          exact hk (by rw [hfi, h])
        rw [hcons, List.getElem?_cons_succ, List.getElem?_cons_succ]
        exact ih j hj

theorem replaceFirstLastAt_getElem (i : Nat) (l : List TLine) (k : Nat)
    (hk : k ≠ l.findIdx isLastAtT) :
    getElem? (replaceFirstLastAt i l) k = getElem? l k := by
  induction l generalizing k with
  | nil => rfl
  | cons a rest ih =>
    by_cases ha : isLastAtT a = true
    · have h0 : (a :: rest).findIdx isLastAtT = 0 := by
        rw [List.findIdx_cons, ha]
        rfl
      cases a with
      | lastAtLine m =>
        cases k with
        | zero => exact absurd h0.symm hk
        | succ j =>
          rw [replaceFirstLastAt_cons_pos]
          simp
      | firstAtLine m => simp [isLastAtT] at ha
      | pcLine m => simp [isLastAtT] at ha
      | otherT s => simp [isLastAtT] at ha
    · have ha' : isLastAtT a = false := by simpa using ha
      have hcons := replaceFirstLastAt_cons_neg i a rest ha'
      have hfi : (a :: rest).findIdx isLastAtT = rest.findIdx isLastAtT + 1 := by
        rw [List.findIdx_cons, ha']
        rfl
      cases k with
      | zero =>
        rw [hcons]
        simp
      | succ j =>
        have hj : j ≠ rest.findIdx isLastAtT := by
          intro h
          exact hk (by rw [hfi, h])
        rw [hcons, List.getElem?_cons_succ, List.getElem?_cons_succ]
        exact ih j hj

theorem replaceFirstPc_findIdx_lastAt (n : Nat) (l : List TLine) :
    (replaceFirstPc n l).findIdx isLastAtT = l.findIdx isLastAtT := by
  induction l with
  | nil => rfl
  | cons a rest ih =>
    cases a with
    | pcLine m =>
      rw [replaceFirstPc]
      simp [List.findIdx_cons, isLastAtT]
    | firstAtLine m =>
      rw [replaceFirstPc_cons_neg n (TLine.firstAtLine m) rest rfl]
      simp [List.findIdx_cons, isLastAtT, ih]
    | lastAtLine m =>
      rw [replaceFirstPc_cons_neg n (TLine.lastAtLine m) rest rfl]
      simp [List.findIdx_cons, isLastAtT]
    | otherT s =>
      rw [replaceFirstPc_cons_neg n (TLine.otherT s) rest rfl]
      simp [List.findIdx_cons, isLastAtT, ih]

/-- An update changes nothing outside the first play-count line and the first
last-listened line. -/
theorem updateTrackContent_getElem (c : List TLine) (n i k : Nat)
    (h1 : k ≠ c.findIdx isPcT) (h2 : k ≠ c.findIdx isLastAtT) :
    getElem? (updateTrackContent c n i) k = getElem? c k := by
  unfold updateTrackContent
  have hstep : ∀ m : Nat,
      getElem? (replaceFirstLastAt i (replaceFirstPc m c)) k = getElem? c k := by
    intro m
    rw [replaceFirstLastAt_getElem i (replaceFirstPc m c) k
      (by rw [replaceFirstPc_findIdx_lastAt]; exact h2)]
    exact replaceFirstPc_getElem m c k h1
  rcases h : firstPcOf c with _ | c0 <;> simpa [h] using hstep _

/-! ## Sorting lemmas -/

theorem insertSorted_perm (p : HistPlay) (l : List HistPlay) :
    (insertSorted p l).Perm (p :: l) := by
  induction l with
  | nil => exact List.Perm.refl _
  | cons q rest ih =>
    by_cases h : q.ts ≤ p.ts
    · rw [insertSorted, if_pos h]
      exact (ih.cons q).trans (List.Perm.swap p q rest)
    · rw [insertSorted, if_neg h]

theorem sortByTs_perm (l : List HistPlay) : (sortByTs l).Perm l := by
  induction l with
  | nil => exact List.Perm.refl _
  | cons p rest ih =>
    have hstep : sortByTs (p :: rest) = insertSorted p (sortByTs rest) := rfl
    rw [hstep]
    exact (insertSorted_perm p (sortByTs rest)).trans (ih.cons p)

theorem mem_sortByTs (l : List HistPlay) (p : HistPlay) :
    p ∈ sortByTs l ↔ p ∈ l :=
  (sortByTs_perm l).mem_iff

theorem insertSorted_pairwise (p : HistPlay) (l : List HistPlay)
    (h : l.Pairwise (fun a b => a.ts ≤ b.ts)) :
    (insertSorted p l).Pairwise (fun a b => a.ts ≤ b.ts) := by
  induction l with
  | nil => simp [insertSorted]
  | cons q rest ih =>
    rcases List.pairwise_cons.1 h with ⟨hq, hrest⟩
    by_cases hle : q.ts ≤ p.ts
    · rw [insertSorted, if_pos hle]
      refine List.pairwise_cons.2 ⟨?_, ih hrest⟩
      intro b hb
      rcases List.mem_cons.1 ((insertSorted_perm p rest).mem_iff.1 hb) with hb' | hb'
      · rw [hb']
        exact hle
      · exact hq b hb'
    · rw [insertSorted, if_neg hle]
      have hpq : p.ts ≤ q.ts := Nat.le_of_lt (Nat.lt_of_not_le hle)
      refine List.pairwise_cons.2 ⟨?_, h⟩
      intro b hb
      rcases List.mem_cons.1 hb with hb' | hb'
      · rw [hb']
        exact hpq
      · exact Nat.le_trans hpq (hq b hb')

theorem sortByTs_pairwise (l : List HistPlay) :
    (sortByTs l).Pairwise (fun a b => a.ts ≤ b.ts) := by
  induction l with
  | nil => simp [sortByTs]
  | cons p rest ih => exact insertSorted_pairwise p (sortByTs rest) ih

/-! ## Small list utilities -/

theorem le_listMax (l : List Nat) (x : Nat) (hx : x ∈ l) : x ≤ l.foldr max 0 := by
  induction l with
  | nil => cases hx
  | cons a rest ih =>
    rcases List.mem_cons.1 hx with h | h
    · rw [h, List.foldr_cons]
      exact Nat.le_max_left a (rest.foldr max 0)
    · rw [List.foldr_cons]
      exact Nat.le_trans (ih h) (Nat.le_max_right a (rest.foldr max 0))

theorem listMax_le (l : List Nat) (b : Nat) (h : ∀ x ∈ l, x ≤ b) :
    l.foldr max 0 ≤ b := by
  induction l with
  | nil => exact Nat.zero_le b
  | cons a rest ih =>
    rw [List.foldr_cons]
    exact Nat.max_le.2 ⟨h a (by simp), ih (fun x hx => h x (by simp [hx]))⟩

theorem listMax_mem (l : List Nat) (hne : l ≠ []) : l.foldr max 0 ∈ l := by
  induction l with
  | nil => exact absurd rfl hne
  | cons a rest ih =>
    rcases hrest : rest with _ | ⟨b, rest'⟩
    · simp
    · rw [← hrest, List.foldr_cons]
      rcases Nat.le_total (rest.foldr max 0) a with h | h
      · rw [Nat.max_eq_left h]
        exact List.mem_cons_self a rest
      · rw [Nat.max_eq_right h]
        exact List.mem_cons_of_mem a (ih (by rw [hrest]; exact List.cons_ne_nil b rest'))

theorem mem_aset {κ α : Type} [DecidableEq κ]
    (l : List (κ × α)) (k : κ) (v : α) (q : κ × α) (hq : q ∈ aset l k v) :
    q = (k, v) ∨ q ∈ l := by
  induction l with
  | nil => simpa [aset] using hq
  | cons p rest ih =>
    by_cases hp : p.1 = k
    · rw [aset, if_pos hp] at hq
      rcases List.mem_cons.1 hq with h | h
      · exact Or.inl h
      · exact Or.inr (List.mem_cons_of_mem p h)
    · rw [aset, if_neg hp] at hq
      rcases List.mem_cons.1 hq with h | h
      · rw [h]
        exact Or.inr (List.mem_cons_self p rest)
      · rcases ih h with h' | h'
        · exact Or.inl h'
        · exact Or.inr (List.mem_cons_of_mem p h')

theorem alookup_mem {κ α : Type} [DecidableEq κ]
    (l : List (κ × α)) (k : κ) (v : α) (h : alookup l k = some v) :
    (k, v) ∈ l := by
  induction l with
  | nil => simp [alookup_nil] at h
  | cons p rest ih =>
    rw [alookup_cons] at h
    by_cases hp : p.1 = k
    · rw [if_pos hp] at h
      injection h with h
      have hpe : p = (k, v) := by
        rcases p with ⟨pk, pv⟩
        simp only [] at hp h
        rw [hp, h]
      rw [← hpe]
      exact List.mem_cons_self p rest
    · rw [if_neg hp] at h
      exact List.mem_cons_of_mem p (ih h)

theorem mem_alookup_of_nodup {κ α : Type} [DecidableEq κ]
    (l : List (κ × α)) (hnd : (l.map (fun p => p.1)).Nodup)
    (k : κ) (v : α) (h : (k, v) ∈ l) : alookup l k = some v := by
  induction l with
  | nil => cases h
  | cons p rest ih =>
    rw [List.map_cons, List.nodup_cons] at hnd
    rcases List.mem_cons.1 h with h' | h'
    · rw [← h', alookup_cons, if_pos rfl]
    · have hne : p.1 ≠ k := by
        intro he
        exact hnd.1 (he ▸ (List.mem_map.2 ⟨(k, v), h', rfl⟩))
      rw [alookup_cons, if_neg hne]
      exact ih hnd.2 h'

theorem not_ahas_iff {κ α : Type} [DecidableEq κ] (l : List (κ × α)) (k : κ) :
    ¬ ahas l k = true ↔ k ∉ l.map (fun p => p.1) := by
  constructor
  · intro h hk
    rcases List.mem_map.1 hk with ⟨p, hp, hpk⟩
    exact h (List.any_eq_true.2 ⟨p, hp, by simp [hpk]⟩)
  · intro h hh
    rcases List.any_eq_true.1 hh with ⟨p, hp, hpk⟩
    exact h (List.mem_map.2 ⟨p, hp, by simpa using hpk⟩)

theorem aset_nodup_keys {κ α : Type} [DecidableEq κ]
    (l : List (κ × α)) (k : κ) (v : α) (hnd : (l.map (fun p => p.1)).Nodup) :
    ((aset l k v).map (fun p => p.1)).Nodup := by
  rw [aset_keys]
  by_cases h : ahas l k
  · rw [if_pos h]
    exact hnd
  · rw [if_neg h]
    have hk : k ∉ l.map (fun p => p.1) := (not_ahas_iff l k).1 h
    rw [List.nodup_append]
    refine ⟨hnd, List.nodup_singleton k, ?_⟩
    intro x hx hx'
    have hxk : x = k := List.mem_singleton.1 hx'
    subst hxk
    exact hk hx


/-! ## Per-key aggregation lemmas -/

theorem aggStep_optCount (now : Nat)
    (st : List (String × TrackGroup) × List HistPlay) (t : LastFmTrack)
    (k : String) :
    optCount (alookup (aggStep now st t).1 k) =
      optCount (alookup st.1 k) + (if keyOf t = k then 1 else 0) := by
  rcases st with ⟨gs, ps⟩
  have hkey : keyOf t = trackKey (orUnknown t.artistText) (orUnknown t.name) := rfl
  unfold aggStep
  dsimp only
  by_cases hhas : ahas gs (trackKey (orUnknown t.artistText) (orUnknown t.name))
  · rw [if_pos hhas]
    rcases hl : alookup gs (trackKey (orUnknown t.artistText) (orUnknown t.name)) with _ | g
    · exact absurd ((ahas_iff_alookup_isSome gs _).1 hhas) (by simp [hl])
    · dsimp only
      by_cases hk : keyOf t = k
      · rw [hkey] at hk
        rw [← hk, alookup_aset_self, hl]
        simp [optCount, bumpGroup_count, hkey, hk]
      · rw [hkey] at hk
        rw [alookup_aset_ne gs _ k _ (fun he => hk he.symm)]
        simp [optCount, if_neg (hkey ▸ hk)]
  · rw [if_neg hhas]
    have hnone : alookup gs (trackKey (orUnknown t.artistText) (orUnknown t.name)) = none := by
      rcases hl : alookup gs (trackKey (orUnknown t.artistText) (orUnknown t.name)) with _ | g
      · rfl
      · exact absurd ((ahas_iff_alookup_isSome gs _).2 (by simp [hl])) hhas
    have hl2 : alookup (gs ++ [(trackKey (orUnknown t.artistText) (orUnknown t.name),
        freshGroup (eventTs now t) (albumOf t) (extractBestCover t.image)
          (orUnknown t.artistText) (orUnknown t.name)
          (trackFileName (orUnknown t.artistText) (orUnknown t.name)))])
        (trackKey (orUnknown t.artistText) (orUnknown t.name)) =
        some (freshGroup (eventTs now t) (albumOf t) (extractBestCover t.image)
          (orUnknown t.artistText) (orUnknown t.name)
          (trackFileName (orUnknown t.artistText) (orUnknown t.name))) := by
      rw [alookup_append, hnone]
      simp [alookup_cons]
    rw [hl2]
    dsimp only
    by_cases hk : keyOf t = k
    · rw [hkey] at hk
      rw [← hk, alookup_aset_self, hnone]
      simp [optCount, bumpGroup_count, freshGroup, hkey, hk]
    · rw [hkey] at hk
      rw [alookup_aset_ne _ _ k _ (fun he => hk he.symm), alookup_append]
      rcases ho : alookup gs k with _ | v
      · rw [alookup_cons, if_neg hk, alookup_nil]
        simp [optCount, if_neg (hkey ▸ hk)]
      · simp [optCount, if_neg (hkey ▸ hk)]

theorem aggFold_optCount (now : Nat) (l : List LastFmTrack)
    (gs : List (String × TrackGroup)) (ps : List HistPlay) (k : String) :
    optCount (alookup (l.foldl (aggStep now) (gs, ps)).1 k) =
      optCount (alookup gs k) + l.countP (fun t => keyOf t = k) := by
  induction l generalizing gs ps with
  | nil => simp
  | cons t rest ih =>
    rw [List.foldl_cons]
    rcases hst : aggStep now (gs, ps) t with ⟨gs1, ps1⟩
    have hcnt := aggStep_optCount now (gs, ps) t k
    rw [hst] at hcnt
    rw [ih gs1 ps1, hcnt, List.countP_cons]
    by_cases hk : keyOf t = k <;> (simp [hk]; try omega)

/-- Events with the same grouping key are pooled into the single group stored
under that key: its count is the number of such events. -/
theorem aggregate_optCount (now : Nat) (l : List LastFmTrack) (k : String) :
    optCount (alookup (aggregate now l).1 k) =
      l.countP (fun t => keyOf t = k) := by
  have h := aggFold_optCount now l [] [] k
  simpa [aggregate, optCount, alookup_nil] using h

theorem bumpGroup_latestIso (g : TrackGroup) (ts : Nat) (album coverUrl : String) :
    (bumpGroup g ts album coverUrl).latestIso =
      if g.latestTs < ts then ts else g.latestIso := by
  unfold bumpGroup
  dsimp only
  by_cases h : g.latestTs < ts <;> simp [h] <;> split <;> rfl

theorem aggFold_latestIso_prop (now : Nat) (l : List LastFmTrack)
    (gs : List (String × TrackGroup)) (ps : List HistPlay) (Q : Nat → Prop)
    (hg : ∀ kg ∈ gs, Q kg.2.latestIso) (hl : ∀ t ∈ l, Q (eventTs now t)) :
    ∀ kg ∈ (l.foldl (aggStep now) (gs, ps)).1, Q kg.2.latestIso := by
  induction l generalizing gs ps with
  | nil => simpa using hg
  | cons t rest ih =>
    rw [List.foldl_cons]
    rcases hst : aggStep now (gs, ps) t with ⟨gs1, ps1⟩
    have hstep : ∀ kg ∈ gs1, Q kg.2.latestIso := by
      intro kg hkg
      have hgs1 : gs1 = (aggStep now (gs, ps) t).1 := by rw [hst]
      rw [hgs1] at hkg
      unfold aggStep at hkg
      dsimp only at hkg
      have hg0 : ∀ kg' ∈ (if ahas gs (trackKey (orUnknown t.artistText) (orUnknown t.name))
          then gs
          else gs ++ [(trackKey (orUnknown t.artistText) (orUnknown t.name),
            freshGroup (eventTs now t) (albumOf t) (extractBestCover t.image)
              (orUnknown t.artistText) (orUnknown t.name)
              (trackFileName (orUnknown t.artistText) (orUnknown t.name)))]),
          Q kg'.2.latestIso := by
        intro kg' hkg'
        by_cases hhas : ahas gs (trackKey (orUnknown t.artistText) (orUnknown t.name))
        · rw [if_pos hhas] at hkg'
          exact hg kg' hkg'
        · rw [if_neg hhas] at hkg'
          rcases List.mem_append.1 hkg' with h | h
          · exact hg kg' h
          · rcases List.mem_singleton.1 h with rfl
            exact hl t (List.mem_cons_self t rest)
      rcases hlk : alookup (if ahas gs (trackKey (orUnknown t.artistText) (orUnknown t.name))
          then gs
          else gs ++ [(trackKey (orUnknown t.artistText) (orUnknown t.name),
            freshGroup (eventTs now t) (albumOf t) (extractBestCover t.image)
              (orUnknown t.artistText) (orUnknown t.name)
              (trackFileName (orUnknown t.artistText) (orUnknown t.name)))])
          (trackKey (orUnknown t.artistText) (orUnknown t.name)) with _ | g
      · rw [hlk] at hkg
        exact hg0 kg hkg
      · rw [hlk] at hkg
        dsimp only at hkg
        rcases mem_aset _ _ _ kg hkg with h | h
        · rw [h]
          have hQg : Q g.latestIso := by
            have := hg0 _ (alookup_mem _ _ _ hlk)
            exact this
          rw [bumpGroup_latestIso]
          by_cases hlt : g.latestTs < eventTs now t
          · rw [if_pos hlt]
            exact hl t (List.mem_cons_self t rest)
          · rw [if_neg hlt]
            exact hQg
        · exact hg0 kg h
    exact ih gs1 ps1 hstep (fun t' ht' => hl t' (List.mem_cons_of_mem t ht'))

/-- Every group's latest iso is the aggregation timestamp of one of the
run's events. -/
theorem aggregate_latestIso_mem (now : Nat) (l : List LastFmTrack) :
    ∀ kg ∈ (aggregate now l).1, ∃ t ∈ l, eventTs now t = kg.2.latestIso := by
  intro kg hkg
  exact aggFold_latestIso_prop now l [] [] (fun iso => ∃ t ∈ l, eventTs now t = iso)
    (by intro kg' h; cases h) (fun t ht => ⟨t, ht, rfl⟩) kg hkg

/-! ## Store-Writer record lemmas -/

theorem writeGroup_lookup_ne (folder : String)
    (st : List (String × List TLine) × Nat × Nat) (g : TrackGroup)
    (path : String) (hne : path ≠ recPath folder g) :
    alookup (writeGroup folder st g).1 path = alookup st.1 path := by
  rcases st with ⟨recs, c, u⟩
  unfold writeGroup
  dsimp only
  have hne' : path ≠ folder ++ "/" ++ g.fileName := hne
  rcases hl : alookup recs (folder ++ "/" ++ g.fileName) with _ | content
  · dsimp only
    rw [alookup_append]
    rcases ho : alookup recs path with _ | v
    · rw [alookup_cons, if_neg (fun he => hne' he.symm), alookup_nil]
    · rfl
  · dsimp only
    exact alookup_aset_ne recs _ path _ hne'

theorem writeGroup_lookup_present (folder : String)
    (st : List (String × List TLine) × Nat × Nat) (g : TrackGroup)
    (content : List TLine)
    (h : alookup st.1 (recPath folder g) = some content) :
    alookup (writeGroup folder st g).1 (recPath folder g) =
      some (updateTrackContent content g.count g.latestIso) := by
  rcases st with ⟨recs, c, u⟩
  unfold writeGroup
  dsimp only
  have h' : alookup recs (folder ++ "/" ++ g.fileName) = some content := h
  rw [h']
  dsimp only
  exact alookup_aset_self recs _ _

theorem writeGroup_lookup_absent (folder : String)
    (st : List (String × List TLine) × Nat × Nat) (g : TrackGroup)
    (h : alookup st.1 (recPath folder g) = none) :
    alookup (writeGroup folder st g).1 (recPath folder g) =
      some (buildNewTrackContent g (buildLastFmUrl g.artist g.name)) := by
  rcases st with ⟨recs, c, u⟩
  unfold writeGroup
  dsimp only
  have h' : alookup recs (folder ++ "/" ++ g.fileName) = none := h
  rw [h']
  dsimp only
  have hgoal : alookup (recs ++ [(folder ++ "/" ++ g.fileName,
      buildNewTrackContent g (buildLastFmUrl g.artist g.name))])
      (folder ++ "/" ++ g.fileName) =
      some (buildNewTrackContent g (buildLastFmUrl g.artist g.name)) := by
    rw [alookup_append, h']
    simp [alookup_cons]
  exact hgoal


theorem writeFold_untouched (folder : String) (gs : List (String × TrackGroup)) :
    ∀ (recs : List (String × List TLine)) (c u : Nat) (path : String),
      (∀ kg ∈ gs, recPath folder kg.2 ≠ path) →
      alookup ((gs.foldl (fun st kg => writeGroup folder st kg.2) (recs, c, u)).1) path =
        alookup recs path := by
  induction gs with
  | nil => intro recs c u path h; rfl
  | cons kg0 rest ih =>
    intro recs c u path h
    rw [List.foldl_cons]
    rcases hst : writeGroup folder (recs, c, u) kg0.2 with ⟨recs1, c1, u1⟩
    have hne := writeGroup_lookup_ne folder (recs, c, u) kg0.2 path
      (fun he => h kg0 (List.mem_cons_self kg0 rest) he.symm)
    rw [hst] at hne
    have := ih recs1 c1 u1 path (fun kg hkg => h kg (List.mem_cons_of_mem kg0 hkg))
    rw [this, hne]

theorem writeFold_preserves (folder : String) (gs : List (String × TrackGroup)) :
    ∀ (recs : List (String × List TLine)) (c u : Nat) (path : String)
      (r0 : List TLine), alookup recs path = some r0 →
      ∃ r1, alookup ((gs.foldl (fun st kg => writeGroup folder st kg.2) (recs, c, u)).1) path =
          some r1 ∧
        firstFirstAt r1 = firstFirstAt r0 ∧
        (firstLastAt r1 = firstLastAt r0 ∨
          ∃ kg ∈ gs, firstLastAt r1 = some kg.2.latestIso ∧ (firstLastAt r0).isSome) := by
  induction gs with
  | nil =>
    intro recs c u path r0 h
    exact ⟨r0, h, rfl, Or.inl rfl⟩
  | cons kg0 rest ih =>
    intro recs c u path r0 h
    rw [List.foldl_cons]
    rcases hst : writeGroup folder (recs, c, u) kg0.2 with ⟨recs1, c1, u1⟩
    by_cases hp : path = recPath folder kg0.2
    · have hpresent := writeGroup_lookup_present folder (recs, c, u) kg0.2 r0 (hp ▸ h)
      rw [hst, ← hp] at hpresent
      rcases ih recs1 c1 u1 path (updateTrackContent r0 kg0.2.count kg0.2.latestIso)
          hpresent with ⟨r1, hr1, hfirst, hlast⟩
      refine ⟨r1, hr1, ?_, ?_⟩
      · rw [hfirst, updateTrackContent_firstFirstAt]
      · rcases hlast with hl | ⟨kg, hkg, hiso, hsome⟩
        · rw [hl, updateTrackContent_firstLastAt]
          rcases h0 : firstLastAt r0 with _ | t0
          · exact Or.inl (by simp)
          · exact Or.inr ⟨kg0, List.mem_cons_self kg0 rest, by simp, by simp⟩
        · refine Or.inr ⟨kg, List.mem_cons_of_mem kg0 hkg, hiso, ?_⟩
          rw [updateTrackContent_firstLastAt] at hsome
          rcases h0 : firstLastAt r0 with _ | t0
          · rw [h0] at hsome
            exact hsome
          · rfl
    · have hne := writeGroup_lookup_ne folder (recs, c, u) kg0.2 path hp
      rw [hst] at hne
      rcases ih recs1 c1 u1 path r0 (by rw [hne]; exact h) with ⟨r1, hr1, hfirst, hlast⟩
      refine ⟨r1, hr1, hfirst, ?_⟩
      rcases hlast with hl | ⟨kg, hkg, hiso, hsome⟩
      · exact Or.inl hl
      · exact Or.inr ⟨kg, List.mem_cons_of_mem kg0 hkg, hiso, hsome⟩

theorem writeFold_distinct (folder : String) (gs : List (String × TrackGroup))
    (hnd : (gs.map (fun kg => recPath folder kg.2)).Nodup) :
    ∀ (recs : List (String × List TLine)) (c u : Nat) (kg : String × TrackGroup),
      kg ∈ gs →
      alookup ((gs.foldl (fun st kg => writeGroup folder st kg.2) (recs, c, u)).1)
          (recPath folder kg.2) =
        some (match alookup recs (recPath folder kg.2) with
          | none => buildNewTrackContent kg.2 (buildLastFmUrl kg.2.artist kg.2.name)
          | some c0 => updateTrackContent c0 kg.2.count kg.2.latestIso) := by
  induction gs with
  | nil => intro recs c u kg h; cases h
  | cons kg0 rest ih =>
    rw [List.map_cons, List.nodup_cons] at hnd
    intro recs c u kg h
    rw [List.foldl_cons]
    rcases hst : writeGroup folder (recs, c, u) kg0.2 with ⟨recs1, c1, u1⟩
    rcases List.mem_cons.1 h with h' | h'
    · subst h'
      have hrest : ∀ kg' ∈ rest, recPath folder kg'.2 ≠ recPath folder kg.2 := by
        intro kg' hkg' he
        exact hnd.1 (he ▸ List.mem_map.2 ⟨kg', hkg', rfl⟩)
      have huntouched := writeFold_untouched folder rest recs1 c1 u1
        (recPath folder kg.2) hrest
      rw [huntouched]
      rcases h0 : alookup recs (recPath folder kg.2) with _ | c0
      · have := writeGroup_lookup_absent folder (recs, c, u) kg.2 h0
        rw [hst] at this
        rw [this]
      · have := writeGroup_lookup_present folder (recs, c, u) kg.2 c0 h0
        rw [hst] at this
        rw [this]
    · have hne : recPath folder kg.2 ≠ recPath folder kg0.2 := by
        intro he
        exact hnd.1 (he ▸ List.mem_map.2 ⟨kg, h', rfl⟩)
      have hstep := writeGroup_lookup_ne folder (recs, c, u) kg0.2
        (recPath folder kg.2) hne
      rw [hst] at hstep
      have := ih hnd.2 recs1 c1 u1 kg h'
      rw [this, hstep]

theorem mem_writeGroup (folder : String)
    (st : List (String × List TLine) × Nat × Nat) (g : TrackGroup)
    (q : String × List TLine) (hq : q ∈ (writeGroup folder st g).1) :
    q ∈ st.1 ∨
    (∃ content, alookup st.1 (recPath folder g) = some content ∧
      q.2 = updateTrackContent content g.count g.latestIso) ∨
    q.2 = buildNewTrackContent g (buildLastFmUrl g.artist g.name) := by
  rcases st with ⟨recs, c, u⟩
  unfold writeGroup at hq
  dsimp only at hq
  rcases hl : alookup recs (folder ++ "/" ++ g.fileName) with _ | content
  · rw [hl] at hq
    dsimp only at hq
    rcases List.mem_append.1 hq with h | h
    · exact Or.inl h
    · rcases List.mem_singleton.1 h with rfl
      exact Or.inr (Or.inr rfl)
  · rw [hl] at hq
    dsimp only at hq
    rcases mem_aset _ _ _ q hq with h | h
    · rcases h with rfl
      exact Or.inr (Or.inl ⟨content, hl, rfl⟩)
    · exact Or.inl h

theorem writeFold_members_prop (folder : String) (gs : List (String × TrackGroup))
    (Q : List TLine → Prop)
    (hupd : ∀ kg ∈ gs, ∀ c : List TLine,
      Q (updateTrackContent c kg.2.count kg.2.latestIso))
    (hnew : ∀ kg ∈ gs,
      Q (buildNewTrackContent kg.2 (buildLastFmUrl kg.2.artist kg.2.name))) :
    ∀ (recs : List (String × List TLine)) (c u : Nat),
      (∀ q ∈ recs, Q q.2) →
      ∀ q ∈ (gs.foldl (fun st kg => writeGroup folder st kg.2) (recs, c, u)).1,
        Q q.2 := by
  induction gs with
  | nil => intro recs c u h q hq; exact h q hq
  | cons kg0 rest ih =>
    intro recs c u h q hq
    rw [List.foldl_cons] at hq
    rcases hst : writeGroup folder (recs, c, u) kg0.2 with ⟨recs1, c1, u1⟩
    rw [hst] at hq
    have h1 : ∀ q' ∈ recs1, Q q'.2 := by
      intro q' hq'
      have hq'' : q' ∈ (writeGroup folder (recs, c, u) kg0.2).1 := by
        rw [hst]; exact hq'
      rcases mem_writeGroup folder (recs, c, u) kg0.2 q' hq'' with hm | ⟨ct, _, he⟩ | he
      · exact h q' hm
      · rw [he]
        exact hupd kg0 (List.mem_cons_self kg0 rest) ct
      · rw [he]
        exact hnew kg0 (List.mem_cons_self kg0 rest)
    exact ih (fun kg hkg => hupd kg (List.mem_cons_of_mem kg0 hkg))
      (fun kg hkg => hnew kg (List.mem_cons_of_mem kg0 hkg)) recs1 c1 u1 h1 q hq


/-! ## Generic helpers for the history-file splice -/

theorem dropWhile_first_false {α : Type} (p : α → Bool) (l : List α) (a : α)
    (rest : List α) (h : l.dropWhile p = a :: rest) : p a = false := by
  induction l with
  | nil => simp [List.dropWhile] at h
  | cons x xs ih =>
    rw [List.dropWhile_cons] at h
    by_cases hx : p x = true
    · rw [if_pos hx] at h
      exact ih h
    · rw [if_neg hx] at h
      injection h with h1 h2
      rw [← h1]
      simpa using hx

theorem takeWhile_append_all {α : Type} (p : α → Bool) (l1 l2 : List α)
    (h : ∀ x ∈ l1, p x = true) :
    (l1 ++ l2).takeWhile p = l1 ++ l2.takeWhile p := by
  induction l1 with
  | nil => rfl
  | cons x xs ih =>
    rw [List.cons_append, List.takeWhile_cons, if_pos (h x (List.mem_cons_self x xs)),
      ih (fun y hy => h y (List.mem_cons_of_mem x hy))]
    rfl

theorem take_len_takeWhile {α : Type} (p : α → Bool) (l : List α) :
    l.take (l.takeWhile p).length = l.takeWhile p := by
  calc l.take (l.takeWhile p).length
      = (l.takeWhile p ++ l.dropWhile p).take (l.takeWhile p).length := by
        rw [List.takeWhile_append_dropWhile]
    _ = l.takeWhile p := List.take_left _ _

theorem drop_len_takeWhile {α : Type} (p : α → Bool) (l : List α) :
    l.drop (l.takeWhile p).length = l.dropWhile p := by
  calc l.drop (l.takeWhile p).length
      = (l.takeWhile p ++ l.dropWhile p).drop (l.takeWhile p).length := by
        rw [List.takeWhile_append_dropWhile]
    _ = l.dropWhile p := List.drop_left _ _

theorem findIdx_append_left {α : Type} (p : α → Bool) (l1 l2 : List α)
    (h : l1.findIdx p < l1.length) :
    (l1 ++ l2).findIdx p = l1.findIdx p := by
  rw [List.findIdx_append, if_pos h]

theorem findIdx_take_eq {α : Type} (p : α → Bool) (l : List α) (n : Nat)
    (h : l.findIdx p < n) : (l.take n).findIdx p = l.findIdx p := by
  induction l generalizing n with
  | nil => simp
  | cons a rest ih =>
    rcases n with _ | m
    · cases h
    · by_cases ha : p a = true
      · rw [List.take_succ_cons, List.findIdx_cons, List.findIdx_cons, ha]
        rfl
      · have ha' : p a = false := by simpa using ha
        rw [List.findIdx_cons, ha'] at h
        simp only [cond_false] at h
        rw [List.take_succ_cons, List.findIdx_cons, List.findIdx_cons, ha']
        simp only [cond_false]
        rw [ih m (by omega)]

theorem findIdx_eq_length_of_no_match {α : Type} (p : α → Bool) (l : List α)
    (h : ∀ x ∈ l, p x = false) : l.findIdx p = l.length := by
  induction l with
  | nil => rfl
  | cons a rest ih =>
    rw [List.findIdx_cons, h a (List.mem_cons_self a rest)]
    simp only [cond_false, List.length_cons]
    rw [ih (fun x hx => h x (List.mem_cons_of_mem a hx))]

theorem findIdx_append_right {α : Type} (p : α → Bool) (l1 l2 : List α)
    (h : ∀ x ∈ l1, p x = false) :
    (l1 ++ l2).findIdx p = l1.length + l2.findIdx p := by
  rw [List.findIdx_append, findIdx_eq_length_of_no_match p l1 h]
  simp [Nat.add_comm]

theorem all_of_takeWhile_len_eq {α : Type} (p : α → Bool) (l : List α)
    (h : (l.takeWhile p).length = l.length) : ∀ x ∈ l, p x = true := by
  have hsplit := List.takeWhile_append_dropWhile p l
  have hlen : (l.takeWhile p).length + (l.dropWhile p).length = l.length := by
    rw [← List.length_append, hsplit]
  have hdw : (l.dropWhile p).length = 0 := by omega
  exact List.dropWhile_eq_nil_iff.1 (List.length_eq_zero.1 hdw)


/-! ## The insertion-point shape lemmas -/

theorem isBlankH_false_of_entry (x : HLine) (hx : isEntryH x = true) :
    isBlankH x = false := by
  cases x <;> simp [isEntryH, isBlankH] at hx ⊢

theorem len_takeWhile_le {α : Type} (p : α → Bool) (l : List α) :
    (l.takeWhile p).length ≤ l.length := by
  have h := List.takeWhile_append_dropWhile p l
  have := congrArg List.length h
  rw [List.length_append] at this
  omega

theorem takeWhile_of_all {α : Type} (p : α → Bool) (l : List α)
    (h : ∀ x ∈ l, p x = true) : l.takeWhile p = l := by
  induction l with
  | nil => rfl
  | cons a rest ih =>
    rw [List.takeWhile_cons, if_pos (h a (List.mem_cons_self a rest)),
      ih (fun x hx => h x (List.mem_cons_of_mem a hx))]

theorem insertPosOf_le_length (lines : List HLine)
    (hhead : lines.any isHeadingH = true) :
    insertPosOf lines ≤ lines.length := by
  have hlt : lines.findIdx isHeadingH < lines.length :=
    List.findIdx_lt_length.2 (List.any_eq_true.1 hhead)
  have hj : insertPosOf lines = lines.findIdx isHeadingH + 1 +
      ((lines.drop (lines.findIdx isHeadingH + 1)).takeWhile isBlankH).length := rfl
  have hb := len_takeWhile_le isBlankH (lines.drop (lines.findIdx isHeadingH + 1))
  rw [List.length_drop] at hb
  omega

/-- Splitting a heading-bearing file at its insertion point satisfies the
shape invariant. -/
theorem preOk_decomp (lines : List HLine) (hhead : lines.any isHeadingH = true) :
    PreOk (lines.take (insertPosOf lines)) (lines.drop (insertPosOf lines)) := by
  have hlt : lines.findIdx isHeadingH < lines.length :=
    List.findIdx_lt_length.2 (List.any_eq_true.1 hhead)
  have hj : insertPosOf lines = lines.findIdx isHeadingH + 1 +
      ((lines.drop (lines.findIdx isHeadingH + 1)).takeWhile isBlankH).length := rfl
  have hble := len_takeWhile_le isBlankH (lines.drop (lines.findIdx isHeadingH + 1))
  rw [List.length_drop] at hble
  have hjle : insertPosOf lines ≤ lines.length := insertPosOf_le_length lines hhead
  have hlen : (lines.take (insertPosOf lines)).length = insertPosOf lines := by
    rw [List.length_take]
    omega
  have hfi : (lines.take (insertPosOf lines)).findIdx isHeadingH =
      lines.findIdx isHeadingH := by
    apply findIdx_take_eq
    omega
  have hdroptake : (lines.take (insertPosOf lines)).drop
      (lines.findIdx isHeadingH + 1) =
      (lines.drop (lines.findIdx isHeadingH + 1)).takeWhile isBlankH := by
    rw [List.drop_take]
    have : insertPosOf lines - (lines.findIdx isHeadingH + 1) =
        ((lines.drop (lines.findIdx isHeadingH + 1)).takeWhile isBlankH).length := by
      omega
    rw [this]
    exact take_len_takeWhile isBlankH _
  refine ⟨?_, ?_, ?_⟩
  · rw [List.any_eq_true]
    refine List.findIdx_lt_length.1 ?_
    rw [hfi, hlen]
    omega
  · rw [hfi, hdroptake, hlen,
      takeWhile_of_all isBlankH _ (fun x hx => List.mem_takeWhile_imp hx)]
    exact hj.symm
  · intro x hx
    have hdw : lines.drop (insertPosOf lines) =
        (lines.drop (lines.findIdx isHeadingH + 1)).dropWhile isBlankH := by
      rw [← drop_len_takeWhile isBlankH (lines.drop (lines.findIdx isHeadingH + 1)),
        List.drop_drop]
      rw [hj]
    rw [hdw] at hx
    rcases hcase : (lines.drop (lines.findIdx isHeadingH + 1)).dropWhile isBlankH
      with _ | ⟨a, rest⟩
    · rw [hcase] at hx
      simp at hx
    · rw [hcase] at hx
      rw [List.head?_cons] at hx
      injection hx with hx
      rw [← hx]
      exact dropWhile_first_false isBlankH _ a rest hcase

/-- With the shape invariant and an entries-only stack in the middle, the
insertion point of `P ++ S ++ B` is exactly `P.length`. -/
theorem insertPosOf_shape (P B S : List HLine) (hok : PreOk P B)
    (hS : ∀ x ∈ S, isEntryH x = true) :
    insertPosOf (P ++ S ++ B) = P.length := by
  rcases hok with ⟨hany, hblank, hbody⟩
  have hlt : P.findIdx isHeadingH < P.length :=
    List.findIdx_lt_length.2 (List.any_eq_true.1 hany)
  have hfi : (P ++ (S ++ B)).findIdx isHeadingH = P.findIdx isHeadingH :=
    findIdx_append_left isHeadingH P (S ++ B) hlt
  have hallblank : ∀ x ∈ P.drop (P.findIdx isHeadingH + 1), isBlankH x = true := by
    apply all_of_takeWhile_len_eq
    rw [List.length_drop]
    omega
  have hdrop : (P ++ (S ++ B)).drop (P.findIdx isHeadingH + 1) =
      P.drop (P.findIdx isHeadingH + 1) ++ (S ++ B) :=
    List.drop_append_of_le_length (by omega)
  have htail : (S ++ B).takeWhile isBlankH = [] := by
    rcases hscase : S with _ | ⟨s, S2⟩
    · rcases hbcase : B with _ | ⟨b, B2⟩
      · rfl
      · rw [List.nil_append, List.takeWhile_cons,
          if_neg (by rw [hbody b (by rw [hbcase]; rfl)]; simp)]
    · rw [List.cons_append, List.takeWhile_cons,
        if_neg (by
          rw [isBlankH_false_of_entry s (hS s (by rw [hscase]; exact List.mem_cons_self s S2))]
          simp)]
  have hj : insertPosOf (P ++ S ++ B) =
      (P ++ S ++ B).findIdx isHeadingH + 1 +
        (((P ++ S ++ B).drop ((P ++ S ++ B).findIdx isHeadingH + 1)).takeWhile
          isBlankH).length := rfl
  have hfi' : (P ++ S ++ B).findIdx isHeadingH = P.findIdx isHeadingH := by
    rw [List.append_assoc]
    exact hfi
  have hdrop' : (P ++ S ++ B).drop (P.findIdx isHeadingH + 1) =
      P.drop (P.findIdx isHeadingH + 1) ++ (S ++ B) := by
    rw [List.append_assoc]
    exact hdrop
  rw [hj, hfi', hdrop', takeWhile_append_all isBlankH _ _ hallblank, htail,
    List.append_nil, List.length_drop]
  omega

theorem any_isHeadingH_shape (P B S : List HLine) (hok : PreOk P B) :
    (P ++ S ++ B).any isHeadingH = true := by
  rcases List.any_eq_true.1 hok.1 with ⟨x, hx, hpx⟩
  exact List.any_eq_true.2 ⟨x, by
    rw [List.append_assoc]
    exact List.mem_append.2 (Or.inl hx), hpx⟩

/-- One `insertEntry` against a shaped file: skip when present, push the entry
onto the top of the stack otherwise. -/
theorem insertEntry_shape (P B S : List HLine) (hok : PreOk P B)
    (hS : ∀ x ∈ S, isEntryH x = true) (ts : Nat) (name : String) :
    insertEntry (P ++ S ++ B) ts name =
      if HLine.entryL ts name ∈ P ++ S ++ B then P ++ S ++ B
      else P ++ (HLine.entryL ts name :: S) ++ B := by
  by_cases hmem : HLine.entryL ts name ∈ P ++ S ++ B
  · rw [if_pos hmem]
    unfold insertEntry
    rw [if_pos hmem]
  · rw [if_neg hmem]
    unfold insertEntry
    rw [if_neg hmem]
    dsimp only
    rw [if_pos (any_isHeadingH_shape P B S hok)]
    rw [insertPosOf_shape P B S hok hS]
    have h1 : List.take P.length (P ++ S ++ B) = P := by
      rw [List.append_assoc]
      exact List.take_left P (S ++ B)
    have h2 : List.drop P.length (P ++ S ++ B) = S ++ B := by
      rw [List.append_assoc]
      exact List.drop_left P (S ++ B)
    rw [h1, h2]
    simp


theorem mem_shape_mono (P B S : List HLine) (e x : HLine)
    (hx : x ∈ P ++ S ++ B) : x ∈ P ++ (e :: S) ++ B := by
  rcases List.mem_append.1 hx with h | h
  · rcases List.mem_append.1 h with h' | h'
    · exact List.mem_append.2 (Or.inl (List.mem_append.2 (Or.inl h')))
    · exact List.mem_append.2 (Or.inl (List.mem_append.2 (Or.inr
        (List.mem_cons_of_mem e h'))))
  · exact List.mem_append.2 (Or.inr h)

/-- Folding a run's entries into a shaped file builds a stack of fresh entry
lines just under the heading: the file becomes `P ++ (T ++ S) ++ B`, the new
stack `T` holds only entries of the run that were not already present, and
every processed entry not hidden in `P` or `B` ends up in the stack. -/
theorem insertList_stack (P B : List HLine) (hok : PreOk P B) :
    ∀ (es : List (Nat × String)) (S : List HLine),
      (∀ x ∈ S, isEntryH x = true) →
      ∃ T, insertList (P ++ S ++ B) es = P ++ (T ++ S) ++ B ∧
        (∀ x ∈ T, isEntryH x = true) ∧
        (∀ x ∈ T, x ∉ P ++ S ++ B) ∧
        (∀ ts n, HLine.entryL ts n ∈ T → (ts, n) ∈ es) ∧
        (∀ ts n, (ts, n) ∈ es → HLine.entryL ts n ∉ P → HLine.entryL ts n ∉ B →
          HLine.entryL ts n ∈ T ++ S) := by
  intro es
  induction es with
  | nil =>
    intro S hS
    refine ⟨[], rfl, by simp, by simp, by simp, ?_⟩
    intro ts n h
    cases h
  | cons e rest ih =>
    intro S hS
    have hstep := insertEntry_shape P B S hok hS e.1 e.2
    by_cases hmem : HLine.entryL e.1 e.2 ∈ P ++ S ++ B
    · rw [if_pos hmem] at hstep
      have hfold : insertList (P ++ S ++ B) (e :: rest) =
          insertList (P ++ S ++ B) rest := by
        unfold insertList
        rw [List.foldl_cons]
        rw [hstep]
      rcases ih S hS with ⟨T, hT, hTe, hTd, hTm, hTc⟩
      refine ⟨T, by rw [hfold]; exact hT, hTe, hTd,
        fun ts n h => List.mem_cons_of_mem e (hTm ts n h), ?_⟩
      intro ts n hin hnp hnb
      rcases List.mem_cons.1 hin with he | he
      · have he1 : ts = e.1 := congrArg Prod.fst he
        have he2 : n = e.2 := congrArg Prod.snd he
        have hentry : HLine.entryL ts n ∈ P ++ S ++ B := by
          rw [he1, he2]
          exact hmem
        rcases List.mem_append.1 hentry with h' | h'
        · rcases List.mem_append.1 h' with h'' | h''
          · exact absurd h'' hnp
          · exact List.mem_append.2 (Or.inr h'')
        · exact absurd h' hnb
      · exact hTc ts n he hnp hnb
    · rw [if_neg hmem] at hstep
      have hS' : ∀ x ∈ HLine.entryL e.1 e.2 :: S, isEntryH x = true := by
        intro x hx
        rcases List.mem_cons.1 hx with h | h
        · rw [h]
          rfl
        · exact hS x h
      rcases ih (HLine.entryL e.1 e.2 :: S) hS' with ⟨T, hT, hTe, hTd, hTm, hTc⟩
      have hfold : insertList (P ++ S ++ B) (e :: rest) =
          insertList (P ++ (HLine.entryL e.1 e.2 :: S) ++ B) rest := by
        unfold insertList
        rw [List.foldl_cons]
        rw [hstep]
      refine ⟨T ++ [HLine.entryL e.1 e.2], ?_, ?_, ?_, ?_, ?_⟩
      · rw [hfold, hT]
        simp
      · intro x hx
        rcases List.mem_append.1 hx with h | h
        · exact hTe x h
        · rw [List.mem_singleton.1 h]
          rfl
      · intro x hx hxin
        rcases List.mem_append.1 hx with h | h
        · exact hTd x h (mem_shape_mono P B S _ x hxin)
        · rw [List.mem_singleton.1 h] at hxin
          exact hmem hxin
      · intro ts n h
        rcases List.mem_append.1 h with h' | h'
        · exact List.mem_cons_of_mem e (hTm ts n h')
        · have := List.mem_singleton.1 h'
          injection this with h1 h2
          have he : (ts, n) = e := by
            rcases e with ⟨e1, e2⟩
            rw [h1, h2]
          rw [he]
          exact List.mem_cons_self e rest
      · intro ts n hin hnp hnb
        rcases List.mem_cons.1 hin with he | he
        · have he1 : ts = e.1 := congrArg Prod.fst he
          have he2 : n = e.2 := congrArg Prod.snd he
          rw [he1, he2]
          refine List.mem_append.2 (Or.inl ?_)
          exact List.mem_append.2 (Or.inr (List.mem_singleton.2 rfl))
        · have := hTc ts n he hnp hnb
          rcases List.mem_append.1 this with h' | h'
          · exact List.mem_append.2 (Or.inl (List.mem_append.2 (Or.inl h')))
          · rcases List.mem_cons.1 h' with h'' | h''
            · rw [h'']
              exact List.mem_append.2 (Or.inl (List.mem_append.2 (Or.inr
                (List.mem_singleton.2 rfl))))
            · exact List.mem_append.2 (Or.inr h'')

/-- The per-year projection of the history phase: each year file evolves by
folding exactly the run's plays of that year, starting from the stored file
or the fresh default. -/
theorem processHistory_year (yearOf : Nat → Nat) (plays : List HistPlay) :
    ∀ (h : HistStore) (y : Nat),
      alookup (processHistory yearOf h plays) y =
        if (plays.filter (fun p => yearOf p.dateIso = y)).isEmpty then alookup h y
        else some (insertList ((alookup h y).getD defaultHistFile)
          ((plays.filter (fun p => yearOf p.dateIso = y)).map playEntry)) := by
  induction plays with
  | nil =>
    intro h y
    simp [processHistory, insertList]
  | cons p rest ih =>
    intro h y
    have hfold : processHistory yearOf h (p :: rest) =
        processHistory yearOf (appendToHistory yearOf h p) rest := by
      unfold processHistory
      rw [List.foldl_cons]
    rw [hfold, ih]
    by_cases hy : yearOf p.dateIso = y
    · have hfc : (p :: rest).filter (fun q => yearOf q.dateIso = y) =
          p :: rest.filter (fun q => yearOf q.dateIso = y) := by
        simp [List.filter_cons, hy]
      have hstep : alookup (appendToHistory yearOf h p) y =
          some (insertEntry ((alookup h y).getD defaultHistFile) p.dateIso
            (stripMd p.fileName)) := by
        unfold appendToHistory
        rw [hy]
        exact alookup_aset_self h y _
      rw [hstep, hfc]
      have hcons : insertList ((alookup h y).getD defaultHistFile)
          ((p :: rest.filter (fun q => yearOf q.dateIso = y)).map playEntry) =
          insertList (insertEntry ((alookup h y).getD defaultHistFile)
            p.dateIso (stripMd p.fileName))
            ((rest.filter (fun q => yearOf q.dateIso = y)).map playEntry) := rfl
      rw [show ((p :: rest.filter (fun q => yearOf q.dateIso = y)).isEmpty) = false
        from rfl]
      simp only [Bool.false_eq_true, if_false]
      rw [hcons]
      rcases hrest : rest.filter (fun q => yearOf q.dateIso = y) with _ | ⟨q, qs⟩
      · rw [hrest]
        simp [insertList]
      · rw [hrest]
        simp only [List.isEmpty_cons, Bool.false_eq_true, if_false]
        rfl
    · have hfc : (p :: rest).filter (fun q => yearOf q.dateIso = y) =
          rest.filter (fun q => yearOf q.dateIso = y) := by
        simp [List.filter_cons, hy]
      have hstep : alookup (appendToHistory yearOf h p) y = alookup h y := by
        unfold appendToHistory
        exact alookup_aset_ne h (yearOf p.dateIso) y _ (fun he => hy he.symm)
      rw [hstep, hfc]

theorem first_split {α : Type} [DecidableEq α] (a : α) (l : List α)
    (h : a ∈ l) : ∃ u v, l = u ++ a :: v ∧ a ∉ u := by
  induction l with
  | nil => cases h
  | cons x rest ih =>
    by_cases hx : x = a
    · exact ⟨[], rest, by rw [hx]; rfl, by simp⟩
    · rcases List.mem_cons.1 h with h' | h'
      · exact absurd h'.symm hx
      · rcases ih h' with ⟨u, v, hsplit, hnot⟩
        refine ⟨x :: u, v, by rw [hsplit]; rfl, ?_⟩
        intro hmem
        rcases List.mem_cons.1 hmem with h'' | h''
        · exact hx h''.symm
        · exact hnot h''

theorem sorted_split (es : List (Nat × String))
    (hsort : es.Pairwise (fun a b => a.1 ≤ b.1)) (e1 e2 : Nat × String)
    (h1 : e1 ∈ es) (h2 : e2 ∈ es) (hlt : e1.1 < e2.1) :
    ∃ u v, es = u ++ e2 :: v ∧ e2 ∉ u ∧ e1 ∈ u := by
  induction es with
  | nil => cases h1
  | cons a rest ih =>
    rcases List.pairwise_cons.1 hsort with ⟨ha, hrest⟩
    have hane2 : a ≠ e2 := by
      intro he
      have he1r : e1 ∈ rest := by
        rcases List.mem_cons.1 h1 with h' | h'
        · exfalso
          rw [h', he] at hlt
          omega
        · exact h'
      have := ha e1 he1r
      rw [he] at this
      omega
    have h2r : e2 ∈ rest := by
      rcases List.mem_cons.1 h2 with h' | h'
      · exact absurd h'.symm hane2
      · exact h'
    rcases List.mem_cons.1 h1 with he1 | he1
    · rcases first_split e2 rest h2r with ⟨u', v', hsplit, hnot⟩
      refine ⟨a :: u', v', by rw [hsplit]; rfl, ?_, by rw [he1]; exact List.mem_cons_self a u'⟩
      intro hmem
      rcases List.mem_cons.1 hmem with h'' | h''
      · exact hane2 h''.symm
      · exact hnot h''
    · rcases ih hrest he1 h2r with ⟨u', v', hsplit, hnot, hin⟩
      refine ⟨a :: u', v', by rw [hsplit]; rfl, ?_, List.mem_cons_of_mem a hin⟩
      intro hmem
      rcases List.mem_cons.1 hmem with h'' | h''
      · exact hane2 h''.symm
      · exact hnot h''


theorem findIdx_eq_of_not_mem_append {α : Type} [DecidableEq α]
    (e : α) (l1 l2 : List α) (h : e ∉ l1) :
    (l1 ++ l2).findIdx (fun x => x = e) = l1.length + l2.findIdx (fun x => x = e) := by
  apply findIdx_append_right
  intro x hx
  by_cases hxe : x = e
  · exact absurd (hxe ▸ hx) h
  · simp [hxe]

theorem findIdx_cons_self {α : Type} [DecidableEq α] (e : α) (l : List α) :
    (e :: l).findIdx (fun x => x = e) = 0 := by
  rw [List.findIdx_cons]
  simp

theorem insertList_append (lines : List HLine) (es1 es2 : List (Nat × String)) :
    insertList lines (es1 ++ es2) = insertList (insertList lines es1) es2 := by
  unfold insertList
  rw [List.foldl_append]


/-! ## History-file well-formedness lemmas -/

theorem fileEntriesH_append (l1 l2 : List HLine) :
    fileEntriesH (l1 ++ l2) = fileEntriesH l1 ++ fileEntriesH l2 := by
  induction l1 with
  | nil => rfl
  | cons a rest ih => cases a <;> simp [fileEntriesH, ih]

theorem fileEntriesH_eq_nil (l : List HLine)
    (h : ∀ x ∈ l, isEntryH x = false) : fileEntriesH l = [] := by
  induction l with
  | nil => rfl
  | cons a rest ih =>
    have ha := h a (List.mem_cons_self a rest)
    cases a with
    | entryL ts n => simp [isEntryH] at ha
    | heading => exact ih (fun x hx => h x (List.mem_cons_of_mem _ hx))
    | blankL => exact ih (fun x hx => h x (List.mem_cons_of_mem _ hx))
    | otherH s => exact ih (fun x hx => h x (List.mem_cons_of_mem _ hx))

theorem mem_fileEntriesH_of_mem (l : List HLine) (ts : Nat) (n : String)
    (h : HLine.entryL ts n ∈ l) : (ts, n) ∈ fileEntriesH l := by
  induction l with
  | nil => cases h
  | cons a rest ih =>
    rcases List.mem_cons.1 h with h' | h'
    · rw [← h']
      exact List.mem_cons_self _ _
    · cases a with
      | entryL ts2 n2 => exact List.mem_cons_of_mem _ (ih h')
      | heading => exact ih h'
      | blankL => exact ih h'
      | otherH s => exact ih h'

theorem firstValid_append_of_no_entries (P rest : List HLine)
    (h : ∀ x ∈ P, isEntryH x = false) :
    firstValidEntryTs (P ++ rest) = firstValidEntryTs rest := by
  induction P with
  | nil => rfl
  | cons a P2 ih =>
    have ha := h a (List.mem_cons_self a P2)
    cases a with
    | entryL ts n => simp [isEntryH] at ha
    | heading => exact ih (fun x hx => h x (List.mem_cons_of_mem _ hx))
    | blankL => exact ih (fun x hx => h x (List.mem_cons_of_mem _ hx))
    | otherH s => exact ih (fun x hx => h x (List.mem_cons_of_mem _ hx))

theorem firstValid_cons_entry (ts : Nat) (n : String) (rest : List HLine)
    (h : ts ≠ 0) :
    firstValidEntryTs (HLine.entryL ts n :: rest) = some ts := by
  simp [firstValidEntryTs, h]

/-- The topmost valid timestamp of a file whose entry timestamps are all
truthy is the first entry's timestamp. -/
theorem firstValid_of_entries (lines : List HLine)
    (hpos : ∀ e ∈ fileEntriesH lines, 1 ≤ e.1) :
    firstValidEntryTs lines = (fileEntriesH lines).head?.map (fun e => e.1) := by
  induction lines with
  | nil => rfl
  | cons a rest ih =>
    cases a with
    | entryL ts n =>
      have h1 : 1 ≤ ts := hpos (ts, n) (List.mem_cons_self _ _)
      rw [show firstValidEntryTs (HLine.entryL ts n :: rest) =
        if ts = 0 then firstValidEntryTs rest else some ts from rfl]
      rw [if_neg (by omega)]
      rfl
    | heading => exact ih (fun e he => hpos e he)
    | blankL => exact ih (fun e he => hpos e he)
    | otherH s => exact ih (fun e he => hpos e he)

theorem le_fileMaxTs (lines : List HLine) (e : Nat × String)
    (h : e ∈ fileEntriesH lines) : e.1 ≤ fileMaxTs lines :=
  le_listMax _ _ (List.mem_map.2 ⟨e, h, rfl⟩)

/-- In a well-formed file the prefix up to the insertion point holds no entry
line: everything before the heading is entry-free and what follows it up to
the insertion point is blank. -/
theorem wf_prefix_no_entries (lines : List HLine)
    (hany : lines.any isHeadingH = true)
    (hpre : ∀ l ∈ lines.take (lines.findIdx isHeadingH), isEntryH l = false) :
    ∀ x ∈ lines.take (insertPosOf lines), isEntryH x = false := by
  have hlt : lines.findIdx isHeadingH < lines.length :=
    List.findIdx_lt_length.2 (List.any_eq_true.1 hany)
  have hj : insertPosOf lines = lines.findIdx isHeadingH + 1 +
      ((lines.drop (lines.findIdx isHeadingH + 1)).takeWhile isBlankH).length :=
    rfl
  intro x hx
  rw [hj, List.take_add] at hx
  rcases List.mem_append.1 hx with hx1 | hx2
  · rw [List.take_succ] at hx1
    rcases List.mem_append.1 hx1 with hx3 | hx4
    · exact hpre x hx3
    · have hsome : lines[lines.findIdx isHeadingH]? =
          some lines[lines.findIdx isHeadingH] := List.getElem?_eq_getElem hlt
      rw [hsome] at hx4
      simp only [Option.toList_some, List.mem_singleton] at hx4
      have hh : isHeadingH lines[lines.findIdx isHeadingH] = true :=
        List.findIdx_getElem
      rw [hx4]
      rcases hel : lines[lines.findIdx isHeadingH] with _ | _ | ⟨ts, n⟩ | s
      · rfl
      · rfl
      · rw [hel] at hh
        simp [isHeadingH] at hh
      · rw [hel] at hh
        simp [isHeadingH] at hh
  · rw [take_len_takeWhile] at hx2
    have hb : isBlankH x = true := List.mem_takeWhile_imp hx2
    cases x <;> simp [isBlankH, isEntryH] at hb ⊢

/-- The fresh `"# History\n\n"` content is well formed for every year. -/
theorem wfFile_default (yearOf : Nat → Nat) (y : Nat) :
    wfFile yearOf y defaultHistFile := by
  refine ⟨rfl, ?_, ?_⟩
  · intro l hl
    simp [defaultHistFile, List.findIdx_cons, isHeadingH] at hl
  · intro e he
    simp [defaultHistFile, fileEntriesH] at he

/-- Inserting an entry whose timestamp is truthy, belongs to the file's year
and is at least the file's maximum keeps a well-formed file well formed,
raises the maximum to the entry's timestamp and leaves the file non-empty. -/
theorem insertEntry_wf (yearOf : Nat → Nat) (y : Nat) (lines : List HLine)
    (ts : Nat) (name : String) (hwf : wfFile yearOf y lines)
    (hy : yearOf ts = y) (h1 : 1 ≤ ts) (hmax : fileMaxTs lines ≤ ts) :
    wfFile yearOf y (insertEntry lines ts name) ∧
    fileMaxTs (insertEntry lines ts name) = max (fileMaxTs lines) ts ∧
    fileEntriesH (insertEntry lines ts name) ≠ [] := by
  rcases hwf with ⟨hany, hpre, hent⟩
  by_cases hmem : HLine.entryL ts name ∈ lines
  · have heq : insertEntry lines ts name = lines := by
      unfold insertEntry
      rw [if_pos hmem]
    have hts : (ts, name) ∈ fileEntriesH lines :=
      mem_fileEntriesH_of_mem lines ts name hmem
    have hle : ts ≤ fileMaxTs lines := le_fileMaxTs lines (ts, name) hts
    refine ⟨by rw [heq]; exact ⟨hany, hpre, hent⟩, by rw [heq]; omega, ?_⟩
    rw [heq]
    intro hnil
    rw [hnil] at hts
    cases hts
  · have hdecomp := preOk_decomp lines hany
    have hPB : lines.take (insertPosOf lines) ++ [] ++
        lines.drop (insertPosOf lines) = lines := by
      rw [List.append_nil, List.take_append_drop]
    have hmem' : HLine.entryL ts name ∉ lines.take (insertPosOf lines) ++ [] ++
        lines.drop (insertPosOf lines) := by
      rw [hPB]
      exact hmem
    have hins : insertEntry lines ts name =
        lines.take (insertPosOf lines) ++ (HLine.entryL ts name :: []) ++
          lines.drop (insertPosOf lines) := by
      conv_lhs => rw [← hPB]
      rw [insertEntry_shape _ _ [] hdecomp (by intro x hx; cases hx) ts name,
        if_neg hmem']
    have hPno : ∀ x ∈ lines.take (insertPosOf lines), isEntryH x = false :=
      wf_prefix_no_entries lines hany hpre
    have hEP : fileEntriesH (lines.take (insertPosOf lines)) = [] :=
      fileEntriesH_eq_nil _ hPno
    have hEold : fileEntriesH lines =
        fileEntriesH (lines.drop (insertPosOf lines)) := by
      conv_lhs => rw [← List.take_append_drop (insertPosOf lines) lines]
      rw [fileEntriesH_append, hEP, List.nil_append]
    have hEnew : fileEntriesH (insertEntry lines ts name) =
        (ts, name) :: fileEntriesH (lines.drop (insertPosOf lines)) := by
      rw [hins, fileEntriesH_append, fileEntriesH_append, hEP, List.nil_append]
      rfl
    have hfvnew : firstValidEntryTs (insertEntry lines ts name) = some ts := by
      rw [hins, List.append_assoc,
        firstValid_append_of_no_entries _ _ hPno]
      rw [List.cons_append]
      exact firstValid_cons_entry ts name _ (by omega)
    have hmaxnew : fileMaxTs (insertEntry lines ts name) =
        max (fileMaxTs lines) ts := by
      rw [fileMaxTs, hEnew, List.map_cons]
      rw [show ((ts :: (fileEntriesH (lines.drop (insertPosOf lines))).map
          (fun e => e.1)).foldr max 0) = max ts
          (((fileEntriesH (lines.drop (insertPosOf lines))).map
            (fun e => e.1)).foldr max 0) from rfl]
      rw [show fileMaxTs lines = ((fileEntriesH lines).map
        (fun e => e.1)).foldr max 0 from rfl]
      rw [hEold]
      omega
    refine ⟨⟨?_, ?_, ?_⟩, hmaxnew, by rw [hEnew]; intro hc; cases hc⟩
    · rw [hins]
      exact any_isHeadingH_shape _ _ _ hdecomp
    · have hltP : (lines.take (insertPosOf lines)).findIdx isHeadingH <
          (lines.take (insertPosOf lines)).length :=
        List.findIdx_lt_length.2 (List.any_eq_true.1 hdecomp.1)
      have hfiN : (insertEntry lines ts name).findIdx isHeadingH =
          (lines.take (insertPosOf lines)).findIdx isHeadingH := by
        rw [hins, List.append_assoc]
        exact findIdx_append_left isHeadingH _ _ hltP
      intro l hl
      rw [hfiN, hins, List.append_assoc,
        List.take_append_of_le_length (by omega)] at hl
      have hfiT : (lines.take (insertPosOf lines)).findIdx isHeadingH =
          lines.findIdx isHeadingH := by
        apply findIdx_take_eq
        have hlt0 : lines.findIdx isHeadingH < lines.length :=
          List.findIdx_lt_length.2 (List.any_eq_true.1 hany)
        have hj : insertPosOf lines = lines.findIdx isHeadingH + 1 +
            ((lines.drop (lines.findIdx isHeadingH + 1)).takeWhile
              isBlankH).length := rfl
        omega
      rw [hfiT, List.take_take] at hl
      have hmin : min (lines.findIdx isHeadingH) (insertPosOf lines) =
          lines.findIdx isHeadingH := by
        have hj : insertPosOf lines = lines.findIdx isHeadingH + 1 +
            ((lines.drop (lines.findIdx isHeadingH + 1)).takeWhile
              isBlankH).length := rfl
        omega
      rw [hmin] at hl
      exact hpre l hl
    · intro e he
      rw [hEnew] at he
      rcases List.mem_cons.1 he with he1 | he2
      · rw [he1]
        refine ⟨hy, h1, ?_⟩
        rw [hfvnew]
        exact Nat.le_refl ts
      · have heold : e ∈ fileEntriesH lines := by
          rw [hEold]
          exact he2
        have h3 := hent e heold
        refine ⟨h3.1, h3.2.1, ?_⟩
        rw [hfvnew]
        have hle := le_fileMaxTs lines e heold
        show e.1 ≤ ts
        omega

/-! ## History-store well-formedness lemmas -/

theorem aset_absent {κ α : Type} [DecidableEq κ] (l : List (κ × α)) (k : κ)
    (v : α) (h : alookup l k = none) : aset l k v = l ++ [(k, v)] := by
  induction l with
  | nil => rfl
  | cons p rest ih =>
    rw [alookup_cons] at h
    by_cases hp : p.1 = k
    · rw [if_pos hp] at h
      cases h
    · rw [if_neg hp] at h
      simp only [aset, if_neg hp]
      rw [ih h]
      rfl

theorem histMaxTs_cons (p : Nat × List HLine) (rest : HistStore) :
    histMaxTs (p :: rest) = max (fileMaxTs p.2) (histMaxTs rest) := rfl

theorem histMaxTs_append_one (h : HistStore) (y : Nat) (c : List HLine) :
    histMaxTs (h ++ [(y, c)]) = max (histMaxTs h) (fileMaxTs c) := by
  induction h with
  | nil =>
    show max (fileMaxTs c) (histMaxTs []) = max (histMaxTs []) (fileMaxTs c)
    show max (fileMaxTs c) 0 = max 0 (fileMaxTs c)
    omega
  | cons p rest ih =>
    show max (fileMaxTs p.2) (histMaxTs (rest ++ [(y, c)])) = _
    rw [ih, histMaxTs_cons]
    omega

theorem histMaxTs_aset_present (h : HistStore) (y : Nat) (c c2 : List HLine)
    (v : Nat) (hl : alookup h y = some c)
    (hc : fileMaxTs c2 = max (fileMaxTs c) v) :
    histMaxTs (aset h y c2) = max (histMaxTs h) v := by
  induction h with
  | nil => cases hl
  | cons p rest ih =>
    rw [alookup_cons] at hl
    by_cases hp : p.1 = y
    · rw [if_pos hp] at hl
      injection hl with hl
      have ha : aset (p :: rest) y c2 = (y, c2) :: rest := by
        simp only [aset, if_pos hp]
      rw [ha, histMaxTs_cons, histMaxTs_cons]
      dsimp only
      rw [hc, ← hl]
      omega
    · rw [if_neg hp] at hl
      have ha : aset (p :: rest) y c2 = p :: aset rest y c2 := by
        simp only [aset, if_neg hp]
      rw [ha, histMaxTs_cons, histMaxTs_cons, ih hl]
      omega

theorem fileMax_le_histMax (h : HistStore) (p : Nat × List HLine) (hp : p ∈ h) :
    fileMaxTs p.2 ≤ histMaxTs h :=
  le_listMax _ _ (List.mem_map.2 ⟨p, hp, rfl⟩)

theorem histMaxTs_zero_of_no_entries (h : HistStore)
    (hne : ¬ histHasEntries h) : histMaxTs h = 0 := by
  unfold histHasEntries at hne
  push_neg at hne
  apply Nat.le_antisymm ?_ (Nat.zero_le _)
  apply listMax_le
  intro x hx
  rcases List.mem_map.1 hx with ⟨p, hp, rfl⟩
  have hE := hne p hp
  simp [fileMaxTs, hE]

theorem histHasEntries_of_max_pos (h : HistStore) (hpos : 0 < histMaxTs h) :
    histHasEntries h := by
  by_contra hne
  rw [histMaxTs_zero_of_no_entries h hne] at hpos
  exact Nat.lt_irrefl 0 hpos

theorem foldl_max_ge_init (l : List Nat) (a : Nat) : a ≤ l.foldl max a := by
  induction l generalizing a with
  | nil => exact Nat.le_refl a
  | cons x rest ih =>
    rw [List.foldl_cons]
    exact Nat.le_trans (Nat.le_max_left a x) (ih (max a x))

/-- One history append of a play whose timestamp is truthy and at least the
store's maximum: the store stays well formed, its maximum becomes the play's
timestamp, and it now has at least one entry. -/
theorem appendToHistory_wf (yearOf : Nat → Nat) (h : HistStore) (p : HistPlay)
    (hwf : wfHist yearOf h) (hiso : p.dateIso = p.ts) (h1 : 1 ≤ p.ts)
    (hmax : histMaxTs h ≤ p.ts) :
    wfHist yearOf (appendToHistory yearOf h p) ∧
    histMaxTs (appendToHistory yearOf h p) = max (histMaxTs h) p.ts ∧
    histHasEntries (appendToHistory yearOf h p) := by
  rcases hwf with ⟨hnd, hfiles⟩
  have hcwf : wfFile yearOf (yearOf p.dateIso)
      ((alookup h (yearOf p.dateIso)).getD defaultHistFile) := by
    rcases hl : alookup h (yearOf p.dateIso) with _ | c
    · exact wfFile_default yearOf _
    · have hmem := alookup_mem h (yearOf p.dateIso) c hl
      simpa using hfiles _ hmem
  have hcmax : fileMaxTs ((alookup h (yearOf p.dateIso)).getD defaultHistFile) ≤
      p.dateIso := by
    rcases hl : alookup h (yearOf p.dateIso) with _ | c
    · show fileMaxTs defaultHistFile ≤ p.dateIso
      show (0 : Nat) ≤ p.dateIso
      omega
    · have hle : fileMaxTs c ≤ histMaxTs h :=
        fileMax_le_histMax h _ (alookup_mem h _ c hl)
      simp only [Option.getD_some]
      omega
  have hins := insertEntry_wf yearOf (yearOf p.dateIso)
    ((alookup h (yearOf p.dateIso)).getD defaultHistFile) p.dateIso
    (stripMd p.fileName) hcwf rfl (by omega) hcmax
  have happ : appendToHistory yearOf h p =
      aset h (yearOf p.dateIso)
        (insertEntry ((alookup h (yearOf p.dateIso)).getD defaultHistFile)
          p.dateIso (stripMd p.fileName)) := rfl
  refine ⟨⟨?_, ?_⟩, ?_, ?_⟩
  · rw [happ]
    exact aset_nodup_keys h _ _ hnd
  · intro q hq
    rw [happ] at hq
    rcases mem_aset _ _ _ q hq with hq1 | hq2
    · rw [hq1]
      exact hins.1
    · exact hfiles q hq2
  · rw [happ]
    rcases hl : alookup h (yearOf p.dateIso) with _ | c
    · rw [aset_absent h _ _ hl, histMaxTs_append_one]
      have hfm : fileMaxTs (insertEntry
          ((alookup h (yearOf p.dateIso)).getD defaultHistFile) p.dateIso
          (stripMd p.fileName)) = max 0 p.dateIso := by
        rw [hins.2.1, hl]
        rfl
      rw [hl] at hfm
      rw [hfm, hiso]
      omega
    · apply histMaxTs_aset_present h _ c _ p.ts hl
      have hthis := hins.2.1
      rw [hl] at hthis
      simp only [Option.getD_some] at hthis ⊢
      rw [hthis, hiso]
  · rw [happ]
    have hself := alookup_aset_self h (yearOf p.dateIso)
      (insertEntry ((alookup h (yearOf p.dateIso)).getD defaultHistFile)
        p.dateIso (stripMd p.fileName))
    exact ⟨_, alookup_mem _ _ _ hself, hins.2.2⟩

/-- The history phase over an ascending run of truly-new plays: the store
stays well formed and its maximum absorbs every play's timestamp. -/
theorem processHistory_wf (yearOf : Nat → Nat) (plays : List HistPlay) :
    ∀ h : HistStore, wfHist yearOf h →
      plays.Pairwise (fun a b => a.ts ≤ b.ts) →
      (∀ p ∈ plays, p.dateIso = p.ts ∧ 1 ≤ p.ts ∧ histMaxTs h ≤ p.ts) →
      wfHist yearOf (processHistory yearOf h plays) ∧
      histMaxTs (processHistory yearOf h plays) =
        (plays.map (fun p => p.ts)).foldl max (histMaxTs h) ∧
      (plays = [] ∨ histHasEntries (processHistory yearOf h plays)) := by
  induction plays with
  | nil =>
    intro h hwf _ _
    exact ⟨hwf, rfl, Or.inl rfl⟩
  | cons p rest ih =>
    intro h hwf hsort hall
    have hp := hall p (List.mem_cons_self p rest)
    have happ := appendToHistory_wf yearOf h p hwf hp.1 hp.2.1 hp.2.2
    have hfold : processHistory yearOf h (p :: rest) =
        processHistory yearOf (appendToHistory yearOf h p) rest := by
      unfold processHistory
      rw [List.foldl_cons]
    have hrest : ∀ q ∈ rest, q.dateIso = q.ts ∧ 1 ≤ q.ts ∧
        histMaxTs (appendToHistory yearOf h p) ≤ q.ts := by
      intro q hq
      have hq2 := hall q (List.mem_cons_of_mem p hq)
      have hpq : p.ts ≤ q.ts := (List.pairwise_cons.1 hsort).1 q hq
      refine ⟨hq2.1, hq2.2.1, ?_⟩
      rw [happ.2.1]
      omega
    have hih := ih (appendToHistory yearOf h p) happ.1
      (List.pairwise_cons.1 hsort).2 hrest
    refine ⟨by rw [hfold]; exact hih.1, ?_, ?_⟩
    · rw [hfold, hih.2.1, happ.2.1, List.map_cons, List.foldl_cons]
    · refine Or.inr (histHasEntries_of_max_pos _ ?_)
      rw [hfold, hih.2.1, happ.2.1]
      have hge := foldl_max_ge_init (rest.map (fun q => q.ts))
        (max (histMaxTs h) p.ts)
      omega

/-! ## Resume-point resolver lemmas -/

/-- In a well-formed file with at least one entry, the topmost valid entry is
the file's maximum: ascending-run insertion always lands the latest play on
top. -/
theorem wfFile_firstValid_eq_max (yearOf : Nat → Nat) (y : Nat)
    (lines : List HLine) (hwf : wfFile yearOf y lines)
    (hne : fileEntriesH lines ≠ []) :
    firstValidEntryTs lines = some (fileMaxTs lines) := by
  rcases hwf with ⟨-, -, hent⟩
  have hfv := firstValid_of_entries lines (fun e he => (hent e he).2.1)
  rcases hE : fileEntriesH lines with _ | ⟨e0, es⟩
  · exact absurd hE hne
  · rw [hE] at hfv
    have hfv2 : firstValidEntryTs lines = some e0.1 := hfv
    have hle : e0.1 ≤ fileMaxTs lines :=
      le_fileMaxTs lines e0 (by rw [hE]; exact List.mem_cons_self _ _)
    have hge : fileMaxTs lines ≤ e0.1 := by
      apply listMax_le
      intro x hx
      rcases List.mem_map.1 hx with ⟨e, he, rfl⟩
      have h3 := (hent e he).2.2
      rw [hfv2] at h3
      simpa using h3
    rw [hfv2]
    have heq : e0.1 = fileMaxTs lines := Nat.le_antisymm hle hge
    rw [heq]

theorem resolveScan_skip (h : HistStore) (y : Nat) (rest : List Nat)
    (hskip : ∀ lines, alookup h y = some lines →
      firstValidEntryTs lines = none) :
    resolveScan h (y :: rest) = resolveScan h rest := by
  show (match alookup h y with
    | some lines =>
      match firstValidEntryTs lines with
      | some ts => some ts
      | none => resolveScan h rest
    | none => resolveScan h rest) = resolveScan h rest
  rcases hl : alookup h y with _ | lines
  · rfl
  · dsimp only
    rw [hskip lines hl]

theorem resolveScan_hit (h : HistStore) (y : Nat) (rest : List Nat)
    (lines : List HLine) (v : Nat) (hl : alookup h y = some lines)
    (hv : firstValidEntryTs lines = some v) :
    resolveScan h (y :: rest) = some v := by
  show (match alookup h y with
    | some lines =>
      match firstValidEntryTs lines with
      | some ts => some ts
      | none => resolveScan h rest
    | none => resolveScan h rest) = some v
  rw [hl]
  dsimp only
  rw [hv]

theorem resolveScan_skip_all (h : HistStore) (ys1 ys2 : List Nat)
    (hskip : ∀ y ∈ ys1, ∀ lines, alookup h y = some lines →
      firstValidEntryTs lines = none) :
    resolveScan h (ys1 ++ ys2) = resolveScan h ys2 := by
  induction ys1 with
  | nil => rfl
  | cons y ys ih =>
    rw [List.cons_append,
      resolveScan_skip h y _ (hskip y (List.mem_cons_self _ _)),
      ih (fun y2 hy2 => hskip y2 (List.mem_cons_of_mem _ hy2))]

/-- When the newest year with data sits inside the 21-year lookback, the
scanned year list splits at it, every year scanned earlier being strictly
newer. -/
theorem yearsList_split (cy yM : Nat) (hle : yM ≤ cy) (hwin : cy ≤ yM + 20) :
    ∃ ys1 ys2, yearsList cy = ys1 ++ yM :: ys2 ∧ ∀ y ∈ ys1, yM < y := by
  have hi0 : cy - yM ≤ 20 := by omega
  have hpos : 21 - (cy - yM) = (20 - (cy - yM)) + 1 := by omega
  have hsucc : List.range (21 - (cy - yM)) =
      0 :: (List.range (20 - (cy - yM))).map (fun j => j + 1) := by
    rw [hpos, List.range_succ_eq_map]
  have hsplit : List.range 21 = List.range (cy - yM) ++ (cy - yM) ::
      (List.range (20 - (cy - yM))).map (fun j => (cy - yM) + (j + 1)) := by
    have h21 : (cy - yM) + (21 - (cy - yM)) = 21 := by omega
    conv_lhs => rw [← h21]
    rw [List.range_add, hsucc, List.map_cons, List.map_map]
    rfl
  refine ⟨(List.range (cy - yM)).map (fun i => cy - i),
    ((List.range (20 - (cy - yM))).map (fun j => (cy - yM) + (j + 1))).map
      (fun i => cy - i), ?_, ?_⟩
  · rw [yearsList, hsplit, List.map_append, List.map_cons]
    have hyM : cy - (cy - yM) = yM := by omega
    rw [hyM]
  · intro y hy
    rcases List.mem_map.1 hy with ⟨i, hi, rfl⟩
    have hilt : i < cy - yM := List.mem_range.1 hi
    omega

/-- The resume-point resolver finds exactly the store's maximum timestamp
when the store is well formed, has an entry, and its newest entry's year is
within the 21-year lookback window. -/
theorem resolveWatermark_eq_histMax (yearOf : Nat → Nat) (h : HistStore)
    (cy : Nat) (hwf : wfHist yearOf h)
    (hmono : ∀ a b, a ≤ b → yearOf a ≤ yearOf b)
    (hhe : histHasEntries h)
    (hw1 : yearOf (histMaxTs h) ≤ cy)
    (hw2 : cy ≤ yearOf (histMaxTs h) + 20) :
    resolveWatermark h cy = some (histMaxTs h) := by
  rcases hwf with ⟨hnd, hfiles⟩
  rcases hhe with ⟨p0, hp0, hp0e⟩
  have hMpos : 0 < histMaxTs h := by
    rcases hE0 : fileEntriesH p0.2 with _ | ⟨e0, es0⟩
    · exact absurd hE0 hp0e
    · have hmem0 : e0 ∈ fileEntriesH p0.2 := by
        rw [hE0]
        exact List.mem_cons_self _ _
      have h1 : 1 ≤ e0.1 := ((hfiles p0 hp0).2.2 e0 hmem0).2.1
      have h2 : e0.1 ≤ fileMaxTs p0.2 :=
        le_fileMaxTs p0.2 e0 (by rw [hE0]; exact List.mem_cons_self _ _)
      have h3 : fileMaxTs p0.2 ≤ histMaxTs h := fileMax_le_histMax h p0 hp0
      omega
  have hattain : histMaxTs h ∈ h.map (fun q => fileMaxTs q.2) := by
    apply listMax_mem
    intro hc
    rw [List.map_eq_nil_iff] at hc
    rw [hc] at hp0
    cases hp0
  rcases List.mem_map.1 hattain with ⟨q, hq, hqmax⟩
  have hqwf := hfiles q hq
  have hqne : fileEntriesH q.2 ≠ [] := by
    intro hE
    have : fileMaxTs q.2 = 0 := by simp [fileMaxTs, hE]
    omega
  have hqfv : firstValidEntryTs q.2 = some (histMaxTs h) := by
    rw [wfFile_firstValid_eq_max yearOf q.1 q.2 hqwf hqne, hqmax]
  have hqyear : q.1 = yearOf (histMaxTs h) := by
    have hfv2 := firstValid_of_entries q.2
      (fun e he => ((hqwf.2.2) e he).2.1)
    rcases hE : fileEntriesH q.2 with _ | ⟨e0, es0⟩
    · exact absurd hE hqne
    · rw [hE] at hfv2
      have hfv3 : firstValidEntryTs q.2 = some e0.1 := hfv2
      rw [hqfv] at hfv3
      have he0 : e0.1 = histMaxTs h := by
        injection hfv3 with hfv3
        omega
      have := (hqwf.2.2 e0 (by rw [hE]; exact List.mem_cons_self _ _)).1
      rw [he0] at this
      omega
  have hlook : alookup h q.1 = some q.2 :=
    mem_alookup_of_nodup h hnd q.1 q.2 hq
  rcases yearsList_split cy (yearOf (histMaxTs h)) hw1 hw2 with
    ⟨ys1, ys2, hsplit, hys1⟩
  have hskip : ∀ y ∈ ys1, ∀ lines, alookup h y = some lines →
      firstValidEntryTs lines = none := by
    intro y hy lines hl
    have hlwf := hfiles (y, lines) (alookup_mem h y lines hl)
    have hE : fileEntriesH lines = [] := by
      rcases hE2 : fileEntriesH lines with _ | ⟨e0, es0⟩
      · rfl
      · have hey : yearOf e0.1 = y :=
          (hlwf.2.2 e0 (by rw [hE2]; exact List.mem_cons_self _ _)).1
        have hle : e0.1 ≤ histMaxTs h := by
          have h2 : e0.1 ≤ fileMaxTs lines :=
            le_fileMaxTs lines e0 (by rw [hE2]; exact List.mem_cons_self _ _)
          have h3 : fileMaxTs lines ≤ histMaxTs h :=
            fileMax_le_histMax h (y, lines) (alookup_mem h y lines hl)
          omega
        have := hmono e0.1 (histMaxTs h) hle
        have hy2 := hys1 y hy
        omega
    rw [firstValid_of_entries lines
      (fun e he => ((hlwf.2.2) e he).2.1), hE]
    rfl
  rw [resolveWatermark, hsplit, resolveScan_skip_all h ys1 _ hskip]
  exact resolveScan_hit h _ ys2 q.2 _ (hqyear ▸ hlook) hqfv

/-! ## Sync-run lemmas -/

theorem foldl_max_ge_mem (l : List Nat) (a x : Nat) (hx : x ∈ l) :
    x ≤ l.foldl max a := by
  induction l generalizing a with
  | nil => cases hx
  | cons y rest ih =>
    rcases List.mem_cons.1 hx with rfl | h
    · rw [List.foldl_cons]
      exact Nat.le_trans (Nat.le_max_right a x) (foldl_max_ge_init rest _)
    · rw [List.foldl_cons]
      exact ih (max a y) h

theorem firstPcOf_build (g : TrackGroup) (url : String) :
    firstPcOf (buildNewTrackContent g url) = some g.count := rfl

theorem firstFirstAt_build (g : TrackGroup) (url : String) :
    firstFirstAt (buildNewTrackContent g url) = some g.firstIso := rfl

theorem firstLastAt_build (g : TrackGroup) (url : String) :
    firstLastAt (buildNewTrackContent g url) = some g.latestIso := rfl

theorem aggregate_plays_facts (now : Nat) (l : List LastFmTrack) :
    ∀ p ∈ (aggregate now l).2,
      p.dateIso = p.ts ∧ ∃ t ∈ l, eventTs now t = p.ts := by
  intro p hp
  rw [aggregate_plays] at hp
  rcases List.mem_map.1 hp with ⟨t, ht, rfl⟩
  exact ⟨rfl, t, ht, rfl⟩

theorem resolveScan_none (h : HistStore) (ys : List Nat)
    (hne : ∀ p ∈ h, fileEntriesH p.2 = []) : resolveScan h ys = none := by
  have hx : resolveScan h (ys ++ []) = resolveScan h [] := by
    apply resolveScan_skip_all
    intro y hy lines hl
    have hE := hne (y, lines) (alookup_mem h y lines hl)
    rw [firstValid_of_entries lines (by intro e he; rw [hE] at he; cases he),
      hE]
    rfl
  rw [List.append_nil] at hx
  exact hx

/-- Under the window hypothesis the run's effective watermark
(`lastFetchedTimestamp`, 0 when nothing was found) is the history maximum. -/
theorem resolveWatermark_getD (yearOf : Nat → Nat) (h : HistStore) (cy : Nat)
    (hwf : wfHist yearOf h)
    (hmono : ∀ a b, a ≤ b → yearOf a ≤ yearOf b)
    (hwin : windowOk yearOf h cy) :
    (resolveWatermark h cy).getD 0 = histMaxTs h := by
  by_cases hhe : histHasEntries h
  · rw [resolveWatermark_eq_histMax yearOf h cy hwf hmono hhe
      (hwin hhe).1 (hwin hhe).2]
    rfl
  · have h0 := histMaxTs_zero_of_no_entries h hhe
    have hnone : resolveWatermark h cy = none := by
      unfold resolveWatermark
      apply resolveScan_none
      intro p hp
      by_contra hne
      exact hhe ⟨p, hp, hne⟩
    rw [hnone, h0]
    rfl

/-- Case analysis of the sync pipeline: either nothing is written and the
run exits with one of the four non-writing outcomes, or the fetch delivered
tracks, some survived the filter, and the run completes with exactly the
Store Writer's output on records and history. -/
theorem syncCore_cases (s : SyncState) (script : List FetchResp)
    (cy now : Nat) (yearOf : Nat → Nat) :
    ((syncCore s script cy now yearOf).2 = s ∧
      ((syncCore s script cy now yearOf).1 = Outcome.syncFailed ∨
       (syncCore s script cy now yearOf).1 = Outcome.starvedScript ∨
       (syncCore s script cy now yearOf).1 = Outcome.noNewTracks ∨
       (syncCore s script cy now yearOf).1 = Outcome.allFiltered)) ∨
    (∃ allNew, fetchAll (resolveWatermark s.history cy).isSome script =
        FetchOut.okTracks allNew ∧
      allNew.isEmpty = false ∧
      (trulyNewTracks ((resolveWatermark s.history cy).getD 0) allNew).isEmpty
        = false ∧
      syncCore s script cy now yearOf =
        (Outcome.completed
          (writeGroups s.settings.folder s.records
            (aggregate now (trulyNewTracks
              ((resolveWatermark s.history cy).getD 0) allNew)).1).2.1
          (writeGroups s.settings.folder s.records
            (aggregate now (trulyNewTracks
              ((resolveWatermark s.history cy).getD 0) allNew)).1).2.2,
         { s with
            records := (writeGroups s.settings.folder s.records
              (aggregate now (trulyNewTracks
                ((resolveWatermark s.history cy).getD 0) allNew)).1).1,
            history := processHistory yearOf s.history
              (sortByTs (aggregate now (trulyNewTracks
                ((resolveWatermark s.history cy).getD 0) allNew)).2) })) := by
  unfold syncCore
  dsimp only
  rcases hf : fetchAll (resolveWatermark s.history cy).isSome script with
    allNew | _ | _
  · dsimp only
    by_cases hne : allNew.isEmpty = true
    · rw [if_pos hne]
      exact Or.inl ⟨rfl, Or.inr (Or.inr (Or.inl rfl))⟩
    · rw [if_neg hne]
      by_cases ht : (trulyNewTracks ((resolveWatermark s.history cy).getD 0)
          allNew).isEmpty = true
      · rw [if_pos ht]
        exact Or.inl ⟨rfl, Or.inr (Or.inr (Or.inr rfl))⟩
      · rw [if_neg ht]
        exact Or.inr ⟨allNew, rfl, by simpa using hne, by simpa using ht, rfl⟩
  · exact Or.inl ⟨rfl, Or.inl rfl⟩
  · exact Or.inl ⟨rfl, Or.inr (Or.inl rfl)⟩

/-- The pipeline never touches the vault's folder table or the settings. -/
theorem syncCore_frame (s : SyncState) (script : List FetchResp)
    (cy now : Nat) (yearOf : Nat → Nat) :
    (syncCore s script cy now yearOf).2.vaultDirs = s.vaultDirs ∧
    (syncCore s script cy now yearOf).2.settings = s.settings := by
  rcases syncCore_cases s script cy now yearOf with ⟨hs, -⟩ |
    ⟨allNew, -, -, -, heq⟩
  · rw [hs]
    exact ⟨rfl, rfl⟩
  · rw [heq]
    exact ⟨rfl, rfl⟩

/-- When every fetched event is at or below the watermark the run exits with
`allFiltered` leaving the state untouched. -/
theorem syncCore_allFiltered (s : SyncState) (script : List FetchResp)
    (cy now : Nat) (yearOf : Nat → Nat) (allNew : List LastFmTrack)
    (hf : fetchAll (resolveWatermark s.history cy).isSome script =
      FetchOut.okTracks allNew)
    (hne : allNew.isEmpty = false)
    (ht : (trulyNewTracks ((resolveWatermark s.history cy).getD 0)
      allNew).isEmpty = true) :
    syncCore s script cy now yearOf = (Outcome.allFiltered, s) := by
  unfold syncCore
  dsimp only
  rw [hf]
  dsimp only
  rw [if_neg (by rw [hne]; exact Bool.false_ne_true), if_pos ht]

/-- The joint facts of a completed run's history phase, at watermark
`histMaxTs h`: well-formedness survives, the maximum absorbs every surviving
event, every group's latest timestamp lies strictly above the old maximum and
at most at the new one, and the new store has entries. -/
theorem history_phase_facts (yearOf : Nat → Nat) (h : HistStore) (now : Nat)
    (allNew : List LastFmTrack) (hwf : wfHist yearOf h) :
    wfHist yearOf (processHistory yearOf h
      (sortByTs (aggregate now (trulyNewTracks (histMaxTs h) allNew)).2)) ∧
    histMaxTs h ≤ histMaxTs (processHistory yearOf h
      (sortByTs (aggregate now (trulyNewTracks (histMaxTs h) allNew)).2)) ∧
    (∀ t ∈ trulyNewTracks (histMaxTs h) allNew,
      filterTs t ≤ histMaxTs (processHistory yearOf h
        (sortByTs (aggregate now (trulyNewTracks (histMaxTs h) allNew)).2))) ∧
    (∀ kg ∈ (aggregate now (trulyNewTracks (histMaxTs h) allNew)).1,
      histMaxTs h < kg.2.latestIso ∧
      kg.2.latestIso ≤ histMaxTs (processHistory yearOf h
        (sortByTs (aggregate now (trulyNewTracks (histMaxTs h) allNew)).2))) ∧
    (trulyNewTracks (histMaxTs h) allNew ≠ [] →
      histHasEntries (processHistory yearOf h
        (sortByTs (aggregate now (trulyNewTracks (histMaxTs h) allNew)).2))) := by
  have hTfacts : ∀ t ∈ trulyNewTracks (histMaxTs h) allNew,
      ∃ n, t.dateUts = some n ∧ histMaxTs h < n ∧
        (∀ now2, eventTs now2 t = n) ∧ filterTs t = n := by
    intro t htm
    rcases surviving_has_uts _ _ t htm with ⟨n, hu, hlt2, he⟩
    refine ⟨n, hu, hlt2, he, ?_⟩
    rw [filterTs, hu]
    rfl
  have hplays : ∀ p ∈ (aggregate now (trulyNewTracks (histMaxTs h)
      allNew)).2, p.dateIso = p.ts ∧ 1 ≤ p.ts ∧ histMaxTs h < p.ts := by
    intro p hp
    rcases aggregate_plays_facts now _ p hp with ⟨hiso, t, htm, hts⟩
    rcases hTfacts t htm with ⟨n, -, hlt2, he, -⟩
    have : p.ts = n := by rw [← hts, he now]
    exact ⟨hiso, by omega, by omega⟩
  have hPL : ∀ p ∈ sortByTs (aggregate now (trulyNewTracks (histMaxTs h)
      allNew)).2, p.dateIso = p.ts ∧ 1 ≤ p.ts ∧ histMaxTs h ≤ p.ts := by
    intro p hp
    have := hplays p ((mem_sortByTs _ p).1 hp)
    exact ⟨this.1, this.2.1, by omega⟩
  have hproc := processHistory_wf yearOf
    (sortByTs (aggregate now (trulyNewTracks (histMaxTs h) allNew)).2) h hwf
    (sortByTs_pairwise _) hPL
  have hgrow : histMaxTs h ≤ histMaxTs (processHistory yearOf h
      (sortByTs (aggregate now (trulyNewTracks (histMaxTs h) allNew)).2)) := by
    rw [hproc.2.1]
    exact foldl_max_ge_init _ _
  have hmemmax : ∀ t ∈ trulyNewTracks (histMaxTs h) allNew,
      eventTs now t ≤ histMaxTs (processHistory yearOf h
        (sortByTs (aggregate now (trulyNewTracks (histMaxTs h) allNew)).2)) := by
    intro t htm
    have hpmem : playOf now t ∈ (aggregate now (trulyNewTracks (histMaxTs h)
        allNew)).2 := by
      rw [aggregate_plays]
      exact List.mem_map.2 ⟨t, htm, rfl⟩
    have hsmem : playOf now t ∈ sortByTs (aggregate now
        (trulyNewTracks (histMaxTs h) allNew)).2 :=
      (mem_sortByTs _ _).2 hpmem
    have hts : (playOf now t).ts ∈ (sortByTs (aggregate now
        (trulyNewTracks (histMaxTs h) allNew)).2).map (fun p => p.ts) :=
      List.mem_map.2 ⟨playOf now t, hsmem, rfl⟩
    rw [hproc.2.1]
    exact foldl_max_ge_mem _ _ _ hts
  refine ⟨hproc.1, hgrow, ?_, ?_, ?_⟩
  · intro t htm
    rcases hTfacts t htm with ⟨n, -, -, he, hft⟩
    rw [hft, ← he now]
    exact hmemmax t htm
  · intro kg hkg
    rcases aggregate_latestIso_mem now _ kg hkg with ⟨t, htm, hts⟩
    rcases hTfacts t htm with ⟨n, -, hlt2, he, -⟩
    have h1 : kg.2.latestIso = n := by rw [← hts, he now]
    refine ⟨by omega, ?_⟩
    rw [← hts]
    exact hmemmax t htm
  · intro hne
    rcases hproc.2.2 with hnil | hhe
    · exfalso
      rcases hcase : trulyNewTracks (histMaxTs h) allNew with _ | ⟨t, ts⟩
      · exact hne hcase
      · have hpmem : playOf now t ∈ (aggregate now (trulyNewTracks
            (histMaxTs h) allNew)).2 := by
          rw [aggregate_plays]
          refine List.mem_map.2 ⟨t, ?_, rfl⟩
          rw [hcase]
          exact List.mem_cons_self _ _
        have hsmem := (mem_sortByTs _ _).2 hpmem
        rw [hnil] at hsmem
        cases hsmem
    · exact hhe

/-- One pipeline run preserves the store invariants: the history stays well
formed with a non-decreasing maximum, records never lose their
`first_listened_at`, no record's `last_listened_at` moves backwards, and
every record's `last_listened_at` stays bounded by the history maximum. -/
theorem syncCore_run (yearOf : Nat → Nat) (s : SyncState)
    (script : List FetchResp) (cy now : Nat)
    (hmono : ∀ a b, a ≤ b → yearOf a ≤ yearOf b)
    (hwf : wfHist yearOf s.history)
    (hbound : recordsBounded s)
    (hwin : windowOk yearOf s.history cy) :
    wfHist yearOf (syncCore s script cy now yearOf).2.history ∧
    recordsBounded (syncCore s script cy now yearOf).2 ∧
    histMaxTs s.history ≤
      histMaxTs (syncCore s script cy now yearOf).2.history ∧
    (∀ path c, alookup s.records path = some c →
      ∃ c2, alookup (syncCore s script cy now yearOf).2.records path =
          some c2 ∧
        firstFirstAt c2 = firstFirstAt c ∧
        (firstLastAt c2 = firstLastAt c ∨
          ∃ t t2, firstLastAt c = some t ∧ firstLastAt c2 = some t2 ∧
            t ≤ t2)) := by
  rcases syncCore_cases s script cy now yearOf with ⟨hs, -⟩ |
    ⟨allNew, hf, hne, ht, heq⟩
  · rw [hs]
    exact ⟨hwf, hbound, Nat.le_refl _,
      fun path c hc => ⟨c, hc, rfl, Or.inl rfl⟩⟩
  · have hgd := resolveWatermark_getD yearOf s.history cy hwf hmono hwin
    rw [hgd] at ht heq
    have hfacts := history_phase_facts yearOf s.history now allNew hwf
    rw [heq]
    dsimp only
    refine ⟨hfacts.1, ?_, hfacts.2.1, ?_⟩
    · unfold recordsBounded
      dsimp only
      refine writeFold_members_prop s.settings.folder
        (aggregate now (trulyNewTracks (histMaxTs s.history) allNew)).1
        (fun c2 => ∀ t2, firstLastAt c2 = some t2 → t2 ≤ histMaxTs
          (processHistory yearOf s.history (sortByTs (aggregate now
            (trulyNewTracks (histMaxTs s.history) allNew)).2)))
        ?_ ?_ s.records 0 0 ?_
      · intro kg hkg c2 t2 ht2
        rw [updateTrackContent_firstLastAt] at ht2
        rcases hc0 : firstLastAt c2 with _ | t0
        · rw [hc0] at ht2
          cases ht2
        · rw [hc0] at ht2
          injection ht2 with ht2
          have ht3 : kg.2.latestIso = t2 := ht2
          have := (hfacts.2.2.2.1 kg hkg).2
          omega
      · intro kg hkg t2 ht2
        rw [firstLastAt_build] at ht2
        injection ht2 with ht2
        have := (hfacts.2.2.2.1 kg hkg).2
        omega
      · intro q hq t2 ht2
        have := hbound q hq t2 ht2
        have hgrow := hfacts.2.1
        omega
    · intro path c hc
      rcases writeFold_preserves s.settings.folder _ s.records 0 0 path c hc
        with ⟨c2, hlook, hfirst, hlast⟩
      refine ⟨c2, hlook, hfirst, ?_⟩
      rcases hlast with hl | ⟨kg, hkg, hiso2, hsome⟩
      · exact Or.inl hl
      · rcases hc0 : firstLastAt c with _ | t0
        · rw [hc0] at hsome
          cases hsome
        · have hble := hbound (path, c) (alookup_mem _ _ _ hc) t0 hc0
          have hlt2 := (hfacts.2.2.2.1 kg hkg).1
          exact Or.inr ⟨t0, kg.2.latestIso, rfl, hiso2, by omega⟩

theorem ahas_ensureFolder_self (v : List (String × VKind)) (p : String) :
    ahas (ensureFolder v p) p = true := by
  unfold ensureFolder
  by_cases h : ahas v p
  · rw [if_pos h]
    exact h
  · rw [if_neg h]
    refine List.any_eq_true.2 ⟨(p, VKind.vfolder),
      List.mem_append.2 (Or.inr (List.mem_singleton.2 rfl)), by simp⟩

/-- The full entry point preserves the same run invariants as the pipeline:
the folder bookkeeping before the pipeline never touches records or
history. -/
theorem syncTracks_run (yearOf : Nat → Nat) (s : SyncState)
    (script : List FetchResp) (cy now : Nat)
    (hmono : ∀ a b, a ≤ b → yearOf a ≤ yearOf b)
    (hwf : wfHist yearOf s.history)
    (hbound : recordsBounded s)
    (hwin : windowOk yearOf s.history cy) :
    wfHist yearOf (syncTracks s script cy now yearOf).2.history ∧
    recordsBounded (syncTracks s script cy now yearOf).2 ∧
    histMaxTs s.history ≤
      histMaxTs (syncTracks s script cy now yearOf).2.history ∧
    (∀ path c, alookup s.records path = some c →
      ∃ c2, alookup (syncTracks s script cy now yearOf).2.records path =
          some c2 ∧
        firstFirstAt c2 = firstFirstAt c ∧
        (firstLastAt c2 = firstLastAt c ∨
          ∃ t t2, firstLastAt c = some t ∧ firstLastAt c2 = some t2 ∧
            t ≤ t2)) := by
  unfold syncTracks
  by_cases hcred : s.settings.apiKey = "" ∨ s.settings.username = ""
  · rw [if_pos hcred]
    exact ⟨hwf, hbound, Nat.le_refl _,
      fun path c hc => ⟨c, hc, rfl, Or.inl rfl⟩⟩
  · rw [if_neg hcred]
    dsimp only
    by_cases htrim : jsTrim s.settings.historyFolderPath ≠ ""
    · rw [if_pos htrim]
      by_cases hhas : ahas (ensureFolder s.vaultDirs s.settings.folder)
          s.settings.historyFolderPath = true
      · rw [if_pos hhas]
        exact syncCore_run yearOf
          { s with vaultDirs := ensureFolder s.vaultDirs s.settings.folder }
          script cy now hmono hwf hbound hwin
      · rw [if_neg hhas]
        exact ⟨hwf, hbound, Nat.le_refl _,
          fun path c hc => ⟨c, hc, rfl, Or.inl rfl⟩⟩
    · rw [if_neg htrim]
      exact syncCore_run yearOf
        { s with
            vaultDirs := ensureFolder
              (ensureFolder s.vaultDirs s.settings.folder)
              (s.settings.folder ++ "/History")
            settings := { s.settings with
              historyFolderPath := s.settings.folder ++ "/History" } }
        script cy now hmono hwf hbound hwin

/-- Record monotonicity across any sequence of runs, each within its lookback
window. -/
theorem runSeq_invariants (yearOf : Nat → Nat)
    (hmono : ∀ a b, a ≤ b → yearOf a ≤ yearOf b) :
    ∀ (l : List RunInput) (s : SyncState),
      wfHist yearOf s.history → recordsBounded s →
      runsOk yearOf s l →
      wfHist yearOf (runSeq yearOf s l).history ∧
      recordsBounded (runSeq yearOf s l) ∧
      histMaxTs s.history ≤ histMaxTs (runSeq yearOf s l).history ∧
      (∀ path c, alookup s.records path = some c →
        ∃ c2, alookup (runSeq yearOf s l).records path = some c2 ∧
          firstFirstAt c2 = firstFirstAt c ∧
          (firstLastAt c2 = firstLastAt c ∨
            ∃ t t2, firstLastAt c = some t ∧ firstLastAt c2 = some t2 ∧
              t ≤ t2)) := by
  intro l
  induction l with
  | nil =>
    intro s hwf hbound _
    exact ⟨hwf, hbound, Nat.le_refl _,
      fun path c hc => ⟨c, hc, rfl, Or.inl rfl⟩⟩
  | cons i rest ih =>
    intro s hwf hbound hok
    rcases hok with ⟨hwin, hok2⟩
    have h1 := syncTracks_run yearOf s i.1 i.2.1 i.2.2 hmono hwf hbound hwin
    have h2 := ih (runOne yearOf s i) h1.1 h1.2.1 hok2
    have hfold : runSeq yearOf s (i :: rest) =
        runSeq yearOf (runOne yearOf s i) rest := rfl
    rw [hfold]
    refine ⟨h2.1, h2.2.1, ?_, ?_⟩
    · have ha := h2.2.2.1
      have hb : histMaxTs s.history ≤
          histMaxTs (runOne yearOf s i).history := h1.2.2.1
      omega
    · intro path c hc
      rcases h1.2.2.2 path c hc with ⟨c1, hc1, hf1, hl1⟩
      rcases h2.2.2.2 path c1 hc1 with ⟨c2, hc2, hf2, hl2⟩
      refine ⟨c2, hc2, by rw [hf2, hf1], ?_⟩
      rcases hl1 with he1 | ⟨t, t1, ha1, hb1, hle1⟩
      · rcases hl2 with he2 | ⟨t1, t2, ha2, hb2, hle2⟩
        · exact Or.inl (by rw [he2, he1])
        · refine Or.inr ⟨t1, t2, ?_, hb2, hle2⟩
          rw [← he1]
          exact ha2
      · rcases hl2 with he2 | ⟨t1b, t2, ha2, hb2, hle2⟩
        · refine Or.inr ⟨t, t1, ha1, ?_, hle1⟩
          rw [he2]
          exact hb1
        · rw [hb1] at ha2
          injection ha2 with ha2
          exact Or.inr ⟨t, t2, ha1, hb2, by omega⟩

/-- **C4** — Ordering: within any single HistoryLog file, of two entries
inserted during the same run, the one with the strictly larger timestamp ends
up strictly above (closer to the heading) than the one with the smaller
timestamp.  The run's history phase is `processHistory` applied to the
ts-sorted `historyPlays` list; run-produced plays carry `dateIso = ts`, and a
pre-existing year file is heading-bearing, as every file the plugin writes
is.  "Inserted during the run" is the hypothesis that neither entry was
already present in the file. -/
theorem claim_C4 (yearOf : Nat → Nat) (h : HistStore) (plays : List HistPlay)
    (p q : HistPlay) (y : Nat)
    (hwf : ∀ lines, alookup h y = some lines → lines.any isHeadingH = true)
    (hiso : ∀ r ∈ plays, r.dateIso = r.ts)
    (hp : p ∈ plays) (hq : q ∈ plays)
    (hpy : yearOf p.dateIso = y) (hqy : yearOf q.dateIso = y)
    (hlt : p.ts < q.ts)
    (hpabs : HLine.entryL p.ts (stripMd p.fileName) ∉
      (alookup h y).getD defaultHistFile)
    (hqabs : HLine.entryL q.ts (stripMd q.fileName) ∉
      (alookup h y).getD defaultHistFile) :
    ∃ lines, alookup (processHistory yearOf h (sortByTs plays)) y = some lines ∧
      idxOfH lines (HLine.entryL q.ts (stripMd q.fileName)) <
        idxOfH lines (HLine.entryL p.ts (stripMd p.fileName)) := by
  have hhead : ((alookup h y).getD defaultHistFile).any isHeadingH = true := by
    rcases hl : alookup h y with _ | lines
    · decide
    · exact hwf lines hl
  have hfp : p ∈ (sortByTs plays).filter (fun r => yearOf r.dateIso = y) :=
    List.mem_filter.2 ⟨(mem_sortByTs plays p).2 hp, by simp [hpy]⟩
  have hfq : q ∈ (sortByTs plays).filter (fun r => yearOf r.dateIso = y) :=
    List.mem_filter.2 ⟨(mem_sortByTs plays q).2 hq, by simp [hqy]⟩
  have hsorted : ((sortByTs plays).filter (fun r => yearOf r.dateIso = y)).Pairwise
      (fun a b => a.ts ≤ b.ts) := (sortByTs_pairwise plays).filter _
  have hes_sorted : (((sortByTs plays).filter (fun r => yearOf r.dateIso = y)).map
      playEntry).Pairwise (fun a b => a.1 ≤ b.1) := by
    rw [List.pairwise_map]
    refine hsorted.imp_of_mem ?_
    intro a b ha hb hab
    have hai : a.dateIso = a.ts :=
      hiso a ((mem_sortByTs plays a).1 (List.mem_filter.1 ha).1)
    have hbi : b.dateIso = b.ts :=
      hiso b ((mem_sortByTs plays b).1 (List.mem_filter.1 hb).1)
    show (playEntry a).1 ≤ (playEntry b).1
    unfold playEntry
    dsimp only
    rw [hai, hbi]
    exact hab
  have he1 : playEntry p = (p.ts, stripMd p.fileName) := by
    unfold playEntry
    rw [hiso p hp]
  have he2 : playEntry q = (q.ts, stripMd q.fileName) := by
    unfold playEntry
    rw [hiso q hq]
  have h1mem : (p.ts, stripMd p.fileName) ∈
      ((sortByTs plays).filter (fun r => yearOf r.dateIso = y)).map playEntry := by
    rw [← he1]
    exact List.mem_map.2 ⟨p, hfp, rfl⟩
  have h2mem : (q.ts, stripMd q.fileName) ∈
      ((sortByTs plays).filter (fun r => yearOf r.dateIso = y)).map playEntry := by
    rw [← he2]
    exact List.mem_map.2 ⟨q, hfq, rfl⟩
  rcases sorted_split _ hes_sorted (p.ts, stripMd p.fileName)
      (q.ts, stripMd q.fileName) h1mem h2mem hlt with ⟨u, v, hsplit, hqnotu, hpu⟩
  have hyeareq := processHistory_year yearOf (sortByTs plays) h y
  have hne : ¬ ((sortByTs plays).filter (fun r => yearOf r.dateIso = y)).isEmpty = true := by
    intro hie
    exact List.ne_nil_of_mem hfp (List.isEmpty_iff.1 hie)
  rw [if_neg hne] at hyeareq
  have hok := preOk_decomp ((alookup h y).getD defaultHistFile) hhead
  have hstartPB : (alookup h y).getD defaultHistFile =
      ((alookup h y).getD defaultHistFile).take
        (insertPosOf ((alookup h y).getD defaultHistFile)) ++ ([] : List HLine) ++
      ((alookup h y).getD defaultHistFile).drop
        (insertPosOf ((alookup h y).getD defaultHistFile)) := by
    rw [List.append_nil, List.take_append_drop]
  have hpP : HLine.entryL p.ts (stripMd p.fileName) ∉
      ((alookup h y).getD defaultHistFile).take
        (insertPosOf ((alookup h y).getD defaultHistFile)) := by
    intro hmem
    exact hpabs (by
      rw [← List.take_append_drop (insertPosOf ((alookup h y).getD defaultHistFile))
        ((alookup h y).getD defaultHistFile)]
      exact List.mem_append.2 (Or.inl hmem))
  have hpB : HLine.entryL p.ts (stripMd p.fileName) ∉
      ((alookup h y).getD defaultHistFile).drop
        (insertPosOf ((alookup h y).getD defaultHistFile)) := by
    intro hmem
    exact hpabs (by
      rw [← List.take_append_drop (insertPosOf ((alookup h y).getD defaultHistFile))
        ((alookup h y).getD defaultHistFile)]
      exact List.mem_append.2 (Or.inr hmem))
  have hqP : HLine.entryL q.ts (stripMd q.fileName) ∉
      ((alookup h y).getD defaultHistFile).take
        (insertPosOf ((alookup h y).getD defaultHistFile)) := by
    intro hmem
    exact hqabs (by
      rw [← List.take_append_drop (insertPosOf ((alookup h y).getD defaultHistFile))
        ((alookup h y).getD defaultHistFile)]
      exact List.mem_append.2 (Or.inl hmem))
  have hqB : HLine.entryL q.ts (stripMd q.fileName) ∉
      ((alookup h y).getD defaultHistFile).drop
        (insertPosOf ((alookup h y).getD defaultHistFile)) := by
    intro hmem
    exact hqabs (by
      rw [← List.take_append_drop (insertPosOf ((alookup h y).getD defaultHistFile))
        ((alookup h y).getD defaultHistFile)]
      exact List.mem_append.2 (Or.inr hmem))
  rcases insertList_stack _ _ hok u [] (by simp)
    with ⟨Tu, hTu, hTue, hTud, hTum, hTuc⟩
  have hlinesu : insertList ((alookup h y).getD defaultHistFile) u =
      ((alookup h y).getD defaultHistFile).take
        (insertPosOf ((alookup h y).getD defaultHistFile)) ++ Tu ++
      ((alookup h y).getD defaultHistFile).drop
        (insertPosOf ((alookup h y).getD defaultHistFile)) := by
    conv =>
      lhs
      rw [hstartPB]
    rw [hTu, List.append_nil]
  have he1Tu : HLine.entryL p.ts (stripMd p.fileName) ∈ Tu := by
    have := hTuc p.ts (stripMd p.fileName) hpu hpP hpB
    simpa using this
  have he2Tu : HLine.entryL q.ts (stripMd q.fileName) ∉ Tu := by
    intro hmem
    exact hqnotu (hTum q.ts (stripMd q.fileName) hmem)
  have he2mem : HLine.entryL q.ts (stripMd q.fileName) ∉
      ((alookup h y).getD defaultHistFile).take
        (insertPosOf ((alookup h y).getD defaultHistFile)) ++ Tu ++
      ((alookup h y).getD defaultHistFile).drop
        (insertPosOf ((alookup h y).getD defaultHistFile)) := by
    intro hmem
    rcases List.mem_append.1 hmem with h' | h'
    · rcases List.mem_append.1 h' with h'' | h''
      · exact hqP h''
      · exact he2Tu h''
    · exact hqB h'
  have hstep := insertEntry_shape _ _ Tu hok hTue q.ts (stripMd q.fileName)
  rw [if_neg he2mem] at hstep
  have hScons : ∀ x ∈ HLine.entryL q.ts (stripMd q.fileName) :: Tu,
      isEntryH x = true := by
    intro x hx
    rcases List.mem_cons.1 hx with h' | h'
    · rw [h']
      rfl
    · exact hTue x h'
  rcases insertList_stack _ _ hok v (HLine.entryL q.ts (stripMd q.fileName) :: Tu)
      hScons with ⟨Tv, hTv, hTve, hTvd, hTvm, hTvc⟩
  have hfinal : insertList ((alookup h y).getD defaultHistFile)
      (((sortByTs plays).filter (fun r => yearOf r.dateIso = y)).map playEntry) =
      ((alookup h y).getD defaultHistFile).take
        (insertPosOf ((alookup h y).getD defaultHistFile)) ++
      (Tv ++ HLine.entryL q.ts (stripMd q.fileName) :: Tu) ++
      ((alookup h y).getD defaultHistFile).drop
        (insertPosOf ((alookup h y).getD defaultHistFile)) := by
    rw [hsplit, insertList_append]
    have hconsv : insertList (insertList ((alookup h y).getD defaultHistFile) u)
        ((q.ts, stripMd q.fileName) :: v) =
        insertList (insertEntry (insertList ((alookup h y).getD defaultHistFile) u)
          q.ts (stripMd q.fileName)) v := rfl
    rw [hconsv, hlinesu, hstep, hTv]
  have hqTv : HLine.entryL q.ts (stripMd q.fileName) ∉ Tv := by
    intro hmem
    exact hTvd _ hmem (List.mem_append.2 (Or.inl (List.mem_append.2 (Or.inr
      (List.mem_cons_self _ _)))))
  have hpTv : HLine.entryL p.ts (stripMd p.fileName) ∉ Tv := by
    intro hmem
    exact hTvd _ hmem (List.mem_append.2 (Or.inl (List.mem_append.2 (Or.inr
      (List.mem_cons_of_mem _ he1Tu)))))
  refine ⟨_, hyeareq, ?_⟩
  rw [hfinal]
  unfold idxOfH
  have hPlen : ∀ (e : HLine) (M : List HLine),
      e ∉ ((alookup h y).getD defaultHistFile).take
        (insertPosOf ((alookup h y).getD defaultHistFile)) →
      (((alookup h y).getD defaultHistFile).take
        (insertPosOf ((alookup h y).getD defaultHistFile)) ++ M ++
      ((alookup h y).getD defaultHistFile).drop
        (insertPosOf ((alookup h y).getD defaultHistFile))).findIdx
          (fun x => x = e) =
      (((alookup h y).getD defaultHistFile).take
        (insertPosOf ((alookup h y).getD defaultHistFile))).length +
        (M ++ ((alookup h y).getD defaultHistFile).drop
          (insertPosOf ((alookup h y).getD defaultHistFile))).findIdx
            (fun x => x = e) := by
    intro e M hnot
    rw [List.append_assoc]
    exact findIdx_eq_of_not_mem_append e _ _ hnot
  rw [hPlen _ _ hqP, hPlen _ _ hpP]
  have hMassoc : (Tv ++ HLine.entryL q.ts (stripMd q.fileName) :: Tu) ++
      ((alookup h y).getD defaultHistFile).drop
        (insertPosOf ((alookup h y).getD defaultHistFile)) =
      Tv ++ (HLine.entryL q.ts (stripMd q.fileName) ::
        (Tu ++ ((alookup h y).getD defaultHistFile).drop
          (insertPosOf ((alookup h y).getD defaultHistFile)))) := by
    rw [List.append_assoc, List.cons_append]
  rw [hMassoc]
  rw [findIdx_eq_of_not_mem_append _ Tv _ hqTv,
    findIdx_eq_of_not_mem_append _ Tv _ hpTv]
  rw [findIdx_cons_self]
  have hne12 : HLine.entryL p.ts (stripMd p.fileName) ≠
      HLine.entryL q.ts (stripMd q.fileName) := by
    intro he
    injection he with hts hn
    omega
  rw [List.findIdx_cons]
  have hcond : decide (HLine.entryL q.ts (stripMd q.fileName) =
      HLine.entryL p.ts (stripMd p.fileName)) = false := by
    simp only [decide_eq_false_iff_not]
    exact fun he => hne12 he.symm
  rw [hcond]
  simp only [cond_false]
  omega

/-- Closed instantiation of the C4 ordering theorem: two fresh plays with
timestamps 5 < 7 are inserted into an existing year-0 file, and the ts-7
entry lands strictly above the ts-5 entry. -/
theorem claim_C4_witness :
    ∃ lines,
      alookup (processHistory (fun ts => ts / 100) [(0, defaultHistFile)]
        (sortByTs [⟨"A - B.md", 5, 5⟩, ⟨"C - D.md", 7, 7⟩])) 0 = some lines ∧
      idxOfH lines (HLine.entryL 7 (stripMd "C - D.md")) <
        idxOfH lines (HLine.entryL 5 (stripMd "A - B.md")) :=
  claim_C4 (fun ts => ts / 100) [(0, defaultHistFile)]
    [⟨"A - B.md", 5, 5⟩, ⟨"C - D.md", 7, 7⟩]
    ⟨"A - B.md", 5, 5⟩ ⟨"C - D.md", 7, 7⟩ 0
    (fun lines hl => Option.some.inj hl ▸
      (by decide : defaultHistFile.any isHeadingH = true))
    (by decide) (by decide) (by decide) rfl rfl (by decide)
    (by decide) (by decide)

/-- **C5** — Boundary: a fetched event survives the watermark filter exactly
when its filter timestamp is strictly greater than the watermark `W`; an
event at exactly `W` is dropped and one at `W + 1` is kept. -/
theorem claim_C5 (wm : Nat) (l : List LastFmTrack) (t : LastFmTrack)
    (ht : t ∈ l) :
    (t ∈ trulyNewTracks wm l ↔ wm < filterTs t) ∧
    (filterTs t = wm → t ∉ trulyNewTracks wm l) ∧
    (filterTs t = wm + 1 → t ∈ trulyNewTracks wm l) := by
  refine ⟨⟨fun h => ((mem_trulyNewTracks wm l t).1 h).2,
    fun h => (mem_trulyNewTracks wm l t).2 ⟨ht, h⟩⟩, ?_, ?_⟩
  · intro he hmem
    have := ((mem_trulyNewTracks wm l t).1 hmem).2
    omega
  · intro he
    exact (mem_trulyNewTracks wm l t).2 ⟨ht, by omega⟩

/-- Closed instantiation of C5 at watermark 5 with an event at timestamp 6. -/
theorem claim_C5_witness :
    ((⟨some "B", some "A", none, some 6, []⟩ : LastFmTrack) ∈
        trulyNewTracks 5 [⟨some "B", some "A", none, some 6, []⟩] ↔
      5 < filterTs ⟨some "B", some "A", none, some 6, []⟩) ∧
    (filterTs (⟨some "B", some "A", none, some 6, []⟩ : LastFmTrack) = 5 →
      (⟨some "B", some "A", none, some 6, []⟩ : LastFmTrack) ∉
        trulyNewTracks 5 [⟨some "B", some "A", none, some 6, []⟩]) ∧
    (filterTs (⟨some "B", some "A", none, some 6, []⟩ : LastFmTrack) = 5 + 1 →
      (⟨some "B", some "A", none, some 6, []⟩ : LastFmTrack) ∈
        trulyNewTracks 5 [⟨some "B", some "A", none, some 6, []⟩]) :=
  claim_C5 5 [⟨some "B", some "A", none, some 6, []⟩]
    ⟨some "B", some "A", none, some 6, []⟩ (by decide)

/-- **C7** (amended) — When the stored record's play-count line parses, the
update writes stored + group count into it, overwrites the first
`last_listened_at` line with the group's latest iso, and leaves
`first_listened_at`, the length, and every other line unchanged.  The
original claim's missing/unparsable-count case is refuted separately: the
computed count is then never written back, because the replacement regex
finds nothing to replace. -/
theorem claim_C7 (c : List TLine) (n i c0 : Nat)
    (hpc : firstPcOf c = some c0) :
    firstPcOf (updateTrackContent c n i) = some (c0 + n) ∧
    firstLastAt (updateTrackContent c n i) =
      (firstLastAt c).map (fun _ => i) ∧
    firstFirstAt (updateTrackContent c n i) = firstFirstAt c ∧
    (updateTrackContent c n i).length = c.length ∧
    (∀ k, k ≠ c.findIdx isPcT → k ≠ c.findIdx isLastAtT →
      getElem? (updateTrackContent c n i) k = getElem? c k) := by
  refine ⟨?_, updateTrackContent_firstLastAt c n i,
    updateTrackContent_firstFirstAt c n i, updateTrackContent_length c n i,
    fun k h1 h2 => updateTrackContent_getElem c n i k h1 h2⟩
  rw [updateTrackContent_firstPcOf, hpc]
  rfl

/-- Closed instantiation of the amended C7 on a four-line record with stored
count 3, updated by 2 new plays at iso 9. -/
theorem claim_C7_witness :
    firstPcOf (updateTrackContent [TLine.otherT "x", TLine.pcLine 3,
      TLine.firstAtLine 1, TLine.lastAtLine 5] 2 9) = some (3 + 2) ∧
    firstLastAt (updateTrackContent [TLine.otherT "x", TLine.pcLine 3,
      TLine.firstAtLine 1, TLine.lastAtLine 5] 2 9) =
      (firstLastAt [TLine.otherT "x", TLine.pcLine 3,
        TLine.firstAtLine 1, TLine.lastAtLine 5]).map (fun _ => 9) ∧
    firstFirstAt (updateTrackContent [TLine.otherT "x", TLine.pcLine 3,
      TLine.firstAtLine 1, TLine.lastAtLine 5] 2 9) =
      firstFirstAt [TLine.otherT "x", TLine.pcLine 3,
        TLine.firstAtLine 1, TLine.lastAtLine 5] ∧
    (updateTrackContent [TLine.otherT "x", TLine.pcLine 3,
      TLine.firstAtLine 1, TLine.lastAtLine 5] 2 9).length =
      ([TLine.otherT "x", TLine.pcLine 3, TLine.firstAtLine 1,
        TLine.lastAtLine 5] : List TLine).length ∧
    (∀ k, k ≠ ([TLine.otherT "x", TLine.pcLine 3, TLine.firstAtLine 1,
        TLine.lastAtLine 5] : List TLine).findIdx isPcT →
      k ≠ ([TLine.otherT "x", TLine.pcLine 3, TLine.firstAtLine 1,
        TLine.lastAtLine 5] : List TLine).findIdx isLastAtT →
      getElem? (updateTrackContent [TLine.otherT "x", TLine.pcLine 3,
        TLine.firstAtLine 1, TLine.lastAtLine 5] 2 9) k =
      getElem? ([TLine.otherT "x", TLine.pcLine 3, TLine.firstAtLine 1,
        TLine.lastAtLine 5] : List TLine) k) :=
  claim_C7 [TLine.otherT "x", TLine.pcLine 3, TLine.firstAtLine 1,
    TLine.lastAtLine 5] 2 9 3 rfl

/-- Counterexample to C7 as stated: with the play-count line missing or
unparsable, the updated record still has no play-count line — the computed
count (0 + 2 = 2) is silently lost — while `last_listened_at` is still
overwritten. -/
theorem claim_C7_cex :
    firstPcOf (updateTrackContent [TLine.lastAtLine 5] 2 9) = none ∧
    updateTrackContent [TLine.lastAtLine 5] 2 9 = [TLine.lastAtLine 9] := by
  decide

/-- **C9** (amended) — An event without an epoch timestamp never survives the
watermark filter (its filter timestamp is 0, never strictly greater than the
watermark), so the collection-time fallback of the aggregation phase is dead
for filtered events: every surviving event carries its own timestamp and its
aggregation timestamp equals that value for every collection time. -/
theorem claim_C9 (wm : Nat) (l : List LastFmTrack) (t : LastFmTrack) :
    (t.dateUts = none → t ∉ trulyNewTracks wm l) ∧
    (t ∈ trulyNewTracks wm l →
      ∃ n, t.dateUts = some n ∧ wm < n ∧ ∀ now, eventTs now t = n) := by
  refine ⟨?_, surviving_has_uts wm l t⟩
  intro hu hmem
  have hlt := ((mem_trulyNewTracks wm l t).1 hmem).2
  rw [filterTs, hu] at hlt
  simp only [Option.getD_none] at hlt
  omega

/-- Counterexample to C9 as stated: a fetched event with no timestamp is
dropped by the filter even in a bootstrap run (watermark 0), so it is never
grouped, counted, or written downstream. -/
theorem claim_C9_cex :
    trulyNewTracks 0 [⟨some "B", some "A", none, none, []⟩] = [] ∧
    aggregate 7 (trulyNewTracks 0 [⟨some "B", some "A", none, none, []⟩]) =
      ([], []) := by
  decide

/-- **C8** (amended) — The identity-to-identifier mapping is stable: it
depends only on the normalized (artist, name) pair, for both the grouping
key and the file identifier; and events are pooled exactly by the grouping
key `artist|name`: a key's group count is the number of events carrying that
key.  The original claim's collision-resistance is refuted separately:
sanitization and the un-escaped `|` separator both let distinct identities
collide. -/
theorem claim_C8 (now : Nat) (l : List LastFmTrack) (k : String)
    (t1 t2 : LastFmTrack)
    (ha : orUnknown t1.artistText = orUnknown t2.artistText)
    (hn : orUnknown t1.name = orUnknown t2.name) :
    fileNameOf t1 = fileNameOf t2 ∧ keyOf t1 = keyOf t2 ∧
    optCount (alookup (aggregate now l).1 k) =
      l.countP (fun t => keyOf t = k) := by
  refine ⟨?_, ?_, aggregate_optCount now l k⟩
  · unfold fileNameOf trackFileName
    rw [ha, hn]
  · unfold keyOf trackKey
    rw [ha, hn]

/-- Closed instantiation of the amended C8: two raw events normalizing to
the identity ("A", "B") share key and file name, and the key "A|B" pools
both events into one group of count 2. -/
theorem claim_C8_witness :
    fileNameOf ⟨some " B ", some "A", none, some 1, []⟩ =
      fileNameOf ⟨some "B", some "A ", none, some 2, []⟩ ∧
    keyOf ⟨some " B ", some "A", none, some 1, []⟩ =
      keyOf ⟨some "B", some "A ", none, some 2, []⟩ ∧
    optCount (alookup
      (aggregate 0 [⟨some " B ", some "A", none, some 1, []⟩,
        ⟨some "B", some "A ", none, some 2, []⟩]).1 "A|B") =
      [(⟨some " B ", some "A", none, some 1, []⟩ : LastFmTrack),
        ⟨some "B", some "A ", none, some 2, []⟩].countP
        (fun t => keyOf t = "A|B") :=
  claim_C8 0 [⟨some " B ", some "A", none, some 1, []⟩,
      ⟨some "B", some "A ", none, some 2, []⟩] "A|B"
    ⟨some " B ", some "A", none, some 1, []⟩
    ⟨some "B", some "A ", none, some 2, []⟩ (by decide) (by decide)

/-- Counterexample to C8 as stated: distinct identities collide after
sanitization ("A*" and "A?" both yield file "A- - B.md"); the un-escaped
`|` separator makes distinct identities ("A|B", "C") and ("A", "B|C") share
one grouping key, and two events of those distinct identities are pooled
into a single group of count 2. -/
theorem claim_C8_cex :
    trackFileName "A*" "B" = trackFileName "A?" "B" ∧
    ("A*", "B") ≠ (("A?", "B") : String × String) ∧
    trackKey "A|B" "C" = trackKey "A" "B|C" ∧
    ("A|B", "C") ≠ (("A", "B|C") : String × String) ∧
    optCount (alookup (aggregate 0
      [⟨some "C", some "A|B", none, some 1, []⟩,
       ⟨some "B|C", some "A", none, some 2, []⟩]).1 "A|B|C") = 2 := by
  decide

/-- **C6** — Transient failures (status 500 or 429) below the per-run
ceiling of 3 attempts retry the same page after a backoff that is longer for
rate limits (30 s) than for server errors (5 s); a transient failure at the
ceiling, or any other error, fails the whole fetch, upon which the pipeline
returns `syncFailed` with the state untouched — all fetched pages are
discarded; and Scenario B holds: totalPages = 3 with two rate-limit failures
on page 2 still completes with all three pages' events. -/
theorem claim_C6 (s : SyncState) (script : List FetchResp)
    (cy now : Nat) (yearOf : Nat → Nat) (found : Bool)
    (rest : List FetchResp) (page totalPages attempts st : Nat)
    (acc p1 p2 p3 : List LastFmTrack)
    (h1 : p1.isEmpty = false) (h2 : p2.isEmpty = false)
    (h3 : p3.isEmpty = false) :
    retryDelay 429 = 30000 ∧ retryDelay 500 = 5000 ∧
    retryDelay 500 < retryDelay 429 ∧
    (page ≤ totalPages → attempts < 3 → (st = 500 ∨ st = 429) →
      attempts < 2 →
      fetchLoop found (FetchResp.errStatus st :: rest) page totalPages
        attempts acc =
      fetchLoop found rest page totalPages (attempts + 1) acc) ∧
    (page ≤ totalPages → attempts < 3 →
      ¬((st = 500 ∨ st = 429) ∧ attempts < 2) →
      fetchLoop found (FetchResp.errStatus st :: rest) page totalPages
        attempts acc = FetchOut.failed) ∧
    (fetchAll (resolveWatermark s.history cy).isSome script =
        FetchOut.failed →
      syncCore s script cy now yearOf = (Outcome.syncFailed, s)) ∧
    fetchAll true [FetchResp.okPage p1 (some 3), FetchResp.errStatus 429,
      FetchResp.errStatus 429, FetchResp.okPage p2 none,
      FetchResp.okPage p3 none] = FetchOut.okTracks (p1 ++ p2 ++ p3) := by
  have hredux : fetchLoop found (FetchResp.errStatus st :: rest) page
      totalPages attempts acc =
      if page ≤ totalPages ∧ attempts < 3 then
        (if (st = 500 ∨ st = 429) ∧ attempts < 2 then
          fetchLoop found rest page totalPages (attempts + 1) acc
        else FetchOut.failed)
      else FetchOut.okTracks acc := rfl
  refine ⟨rfl, rfl, by decide, ?_, ?_, ?_, ?_⟩
  · intro hp ha htr ha2
    rw [hredux, if_pos ⟨hp, ha⟩, if_pos ⟨htr, ha2⟩]
  · intro hp ha hnot
    rw [hredux, if_pos ⟨hp, ha⟩, if_neg hnot]
  · intro hfail
    unfold syncCore
    dsimp only
    rw [hfail]
  · simp [fetchAll, fetchLoop, h1, h2, h3]

/-- Closed instantiation of C6 with one-track pages and the transient status
500 at the first retry slot. -/
theorem claim_C6_witness :
    retryDelay 429 = 30000 ∧ retryDelay 500 = 5000 ∧
    retryDelay 500 < retryDelay 429 ∧
    ((1 : Nat) ≤ 1 → (0 : Nat) < 3 → ((500 : Nat) = 500 ∨ (500 : Nat) = 429) →
      (0 : Nat) < 2 →
      fetchLoop false [FetchResp.errStatus 500] 1 1 0 [] =
      fetchLoop false [] 1 1 (0 + 1) []) ∧
    ((1 : Nat) ≤ 1 → (0 : Nat) < 3 →
      ¬(((500 : Nat) = 500 ∨ (500 : Nat) = 429) ∧ (0 : Nat) < 2) →
      fetchLoop false [FetchResp.errStatus 500] 1 1 0 [] =
        FetchOut.failed) ∧
    (fetchAll (resolveWatermark
        (⟨[], [], [], ⟨"k", "u", "F", "H"⟩⟩ : SyncState).history 0).isSome
        [FetchResp.errInBand] = FetchOut.failed →
      syncCore ⟨[], [], [], ⟨"k", "u", "F", "H"⟩⟩ [FetchResp.errInBand]
        0 0 (fun ts => ts / 100) =
        (Outcome.syncFailed, ⟨[], [], [], ⟨"k", "u", "F", "H"⟩⟩)) ∧
    fetchAll true [FetchResp.okPage [⟨some "B", some "A", none, some 1, []⟩]
        (some 3), FetchResp.errStatus 429, FetchResp.errStatus 429,
      FetchResp.okPage [⟨some "B", some "A", none, some 2, []⟩] none,
      FetchResp.okPage [⟨some "B", some "A", none, some 3, []⟩] none] =
      FetchOut.okTracks ([⟨some "B", some "A", none, some 1, []⟩] ++
        [⟨some "B", some "A", none, some 2, []⟩] ++
        [⟨some "B", some "A", none, some 3, []⟩]) :=
  claim_C6 ⟨[], [], [], ⟨"k", "u", "F", "H"⟩⟩ [FetchResp.errInBand] 0 0
    (fun ts => ts / 100) false [] 1 1 0 500 []
    [⟨some "B", some "A", none, some 1, []⟩]
    [⟨some "B", some "A", none, some 2, []⟩]
    [⟨some "B", some "A", none, some 3, []⟩] rfl rfl rfl

/-- **C10** (amended) — With credentials set and a non-empty configured
history-folder path, the run returns `historyFolderMissing` — records,
history, and settings untouched, for every remote script — exactly when no
vault entry at all (file or folder alike: the check is bare truthiness of
`getAbstractFileByPath`) exists at that path once the notes folder was
ensured; with the setting empty, the derived `<folder>/History` path is
created as a folder and persisted into the settings.  The original claim's
"no folder exists" is refuted separately: a plain file at the path passes
the check. -/
theorem claim_C10 (s : SyncState) (script : List FetchResp)
    (cy now : Nat) (yearOf : Nat → Nat)
    (hkey : s.settings.apiKey ≠ "") (huser : s.settings.username ≠ "") :
    (jsTrim s.settings.historyFolderPath ≠ "" →
      ahas (ensureFolder s.vaultDirs s.settings.folder)
        s.settings.historyFolderPath = false →
      syncTracks s script cy now yearOf =
        (Outcome.historyFolderMissing,
         { s with vaultDirs := ensureFolder s.vaultDirs s.settings.folder })) ∧
    (jsTrim s.settings.historyFolderPath = "" →
      (syncTracks s script cy now yearOf).2.settings.historyFolderPath =
        s.settings.folder ++ "/History" ∧
      ahas (syncTracks s script cy now yearOf).2.vaultDirs
        (s.settings.folder ++ "/History") = true) := by
  have hcred : ¬(s.settings.apiKey = "" ∨ s.settings.username = "") := by
    intro hc
    rcases hc with hc | hc
    · exact hkey hc
    · exact huser hc
  constructor
  · intro htrim hmiss
    unfold syncTracks
    rw [if_neg hcred]
    dsimp only
    rw [if_pos htrim, if_neg (by rw [hmiss]; exact Bool.false_ne_true)]
  · intro htrim
    unfold syncTracks
    rw [if_neg hcred]
    dsimp only
    rw [if_neg (fun hc => hc htrim)]
    constructor
    · rw [(syncCore_frame _ script cy now yearOf).2]
    · rw [(syncCore_frame _ script cy now yearOf).1]
      exact ahas_ensureFolder_self _ _

/-- Closed instantiation of the amended C10: with no vault entry at the
configured path "H" the run stops at `historyFolderMissing`; with the
setting empty the derived "F/History" folder is created and persisted. -/
theorem claim_C10_witness :
    (jsTrim (⟨[], [], [], ⟨"k", "u", "F", "H"⟩⟩ :
        SyncState).settings.historyFolderPath ≠ "" →
      ahas (ensureFolder (⟨[], [], [], ⟨"k", "u", "F", "H"⟩⟩ :
          SyncState).vaultDirs
          (⟨[], [], [], ⟨"k", "u", "F", "H"⟩⟩ : SyncState).settings.folder)
        (⟨[], [], [], ⟨"k", "u", "F", "H"⟩⟩ :
          SyncState).settings.historyFolderPath = false →
      syncTracks ⟨[], [], [], ⟨"k", "u", "F", "H"⟩⟩ [] 0 0 (fun ts => ts) =
        (Outcome.historyFolderMissing,
         { (⟨[], [], [], ⟨"k", "u", "F", "H"⟩⟩ : SyncState) with
            vaultDirs := ensureFolder (⟨[], [], [], ⟨"k", "u", "F", "H"⟩⟩ :
                SyncState).vaultDirs
              (⟨[], [], [], ⟨"k", "u", "F", "H"⟩⟩ :
                SyncState).settings.folder })) ∧
    (jsTrim (⟨[], [], [], ⟨"k", "u", "F", "H"⟩⟩ :
        SyncState).settings.historyFolderPath = "" →
      (syncTracks ⟨[], [], [], ⟨"k", "u", "F", "H"⟩⟩ [] 0 0
          (fun ts => ts)).2.settings.historyFolderPath =
        (⟨[], [], [], ⟨"k", "u", "F", "H"⟩⟩ :
          SyncState).settings.folder ++ "/History" ∧
      ahas (syncTracks ⟨[], [], [], ⟨"k", "u", "F", "H"⟩⟩ [] 0 0
          (fun ts => ts)).2.vaultDirs
        ((⟨[], [], [], ⟨"k", "u", "F", "H"⟩⟩ :
          SyncState).settings.folder ++ "/History") = true) :=
  claim_C10 ⟨[], [], [], ⟨"k", "u", "F", "H"⟩⟩ [] 0 0 (fun ts => ts)
    (by decide) (by decide)

/-- Counterexample to C10 as stated: a plain FILE at the configured history
path — no folder exists there — passes the truthiness check and the run
proceeds to the remote fetch instead of returning `historyFolderMissing`. -/
theorem claim_C10_cex :
    alookup ([("H", VKind.vfile)] : List (String × VKind)) "H" =
      some VKind.vfile ∧
    (syncTracks ⟨[("H", VKind.vfile)], [], [], ⟨"k", "u", "F", "H"⟩⟩
      [FetchResp.okPage [] none] 0 0 (fun ts => ts / 100)).1 =
      Outcome.noNewTracks := by
  decide

/-- **C3** (amended) — Conservation holds at group level: the run's group
counts sum to the number of surviving events; and with distinct record
paths the Store Writer persists, per group, exactly the fresh template (its
play-count line holding the group count) when no record existed, and the old
content with stored-plus-count written into the play-count line otherwise.
The persisted play_counts therefore sum to the survivors only net of
previously stored counts — the original claim is refuted separately with a
record that already holds a count. -/
theorem claim_C3 (now wm : Nat) (l : List LastFmTrack) (folder : String)
    (recs : List (String × List TLine))
    (hnd : ((aggregate now (trulyNewTracks wm l)).1.map
      (fun kg => recPath folder kg.2)).Nodup) :
    sumCounts (aggregate now (trulyNewTracks wm l)).1 =
      (trulyNewTracks wm l).length ∧
    (∀ kg ∈ (aggregate now (trulyNewTracks wm l)).1,
      alookup (writeGroups folder recs
          (aggregate now (trulyNewTracks wm l)).1).1 (recPath folder kg.2) =
        some (match alookup recs (recPath folder kg.2) with
          | none => buildNewTrackContent kg.2
              (buildLastFmUrl kg.2.artist kg.2.name)
          | some c0 => updateTrackContent c0 kg.2.count kg.2.latestIso)) := by
  refine ⟨sumCounts_aggregate now _, ?_⟩
  intro kg hkg
  exact writeFold_distinct folder _ hnd recs 0 0 kg hkg

/-- Closed instantiation of the amended C3: one surviving event, empty
record store. -/
theorem claim_C3_witness :
    sumCounts (aggregate 0 (trulyNewTracks 0
      [⟨some "B", some "A", none, some 1, []⟩])).1 =
      (trulyNewTracks 0 [⟨some "B", some "A", none, some 1, []⟩]).length ∧
    (∀ kg ∈ (aggregate 0 (trulyNewTracks 0
        [⟨some "B", some "A", none, some 1, []⟩])).1,
      alookup (writeGroups "F" []
          (aggregate 0 (trulyNewTracks 0
            [⟨some "B", some "A", none, some 1, []⟩])).1).1
          (recPath "F" kg.2) =
        some (match alookup ([] : List (String × List TLine))
            (recPath "F" kg.2) with
          | none => buildNewTrackContent kg.2
              (buildLastFmUrl kg.2.artist kg.2.name)
          | some c0 => updateTrackContent c0 kg.2.count kg.2.latestIso)) :=
  claim_C3 0 0 [⟨some "B", some "A", none, some 1, []⟩] "F" [] (by decide)

/-- Counterexample to C3 as stated: a run with exactly one surviving event
that updates a record already storing play count 5 leaves the records with a
total persisted play_count of 6, not 1. -/
theorem claim_C3_cex :
    (syncCore ⟨[], [("F/A - B.md", [TLine.pcLine 5, TLine.firstAtLine 1,
        TLine.lastAtLine 1])],
        [(0, [HLine.heading, HLine.blankL, HLine.entryL 3 "A - B"])],
        ⟨"k", "u", "F", "H"⟩⟩
      [FetchResp.okPage [⟨some "B", some "A", none, some 10, []⟩] (some 1)]
      15 0 (fun ts => ts / 100)).1 = Outcome.completed 0 1 ∧
    ((syncCore ⟨[], [("F/A - B.md", [TLine.pcLine 5, TLine.firstAtLine 1,
        TLine.lastAtLine 1])],
        [(0, [HLine.heading, HLine.blankL, HLine.entryL 3 "A - B"])],
        ⟨"k", "u", "F", "H"⟩⟩
      [FetchResp.okPage [⟨some "B", some "A", none, some 10, []⟩] (some 1)]
      15 0 (fun ts => ts / 100)).2.records.map
        (fun p => (firstPcOf p.2).getD 0)).sum = 6 ∧
    (trulyNewTracks 3 [⟨some "B", some "A", none, some 10, []⟩]).length
      = 1 := by
  decide

/-- **C2** (amended) — Across any sequence of runs each started within its
lookback window, over a well-formed store whose records are bounded by the
history maximum, every persisted record survives with `first_listened_at`
unchanged and `last_listened_at` never decreased.  The original
unconditional claim is refuted separately: a run outside the lookback
window resolves a stale watermark and rewrites `last_listened_at`
backwards. -/
theorem claim_C2 (yearOf : Nat → Nat) (s : SyncState) (l : List RunInput)
    (hmono : ∀ a b, a ≤ b → yearOf a ≤ yearOf b)
    (hwf : wfHist yearOf s.history) (hbound : recordsBounded s)
    (hok : runsOk yearOf s l) :
    ∀ path c, alookup s.records path = some c →
      ∃ c2, alookup (runSeq yearOf s l).records path = some c2 ∧
        firstFirstAt c2 = firstFirstAt c ∧
        (firstLastAt c2 = firstLastAt c ∨
          ∃ t t2, firstLastAt c = some t ∧ firstLastAt c2 = some t2 ∧
            t ≤ t2) :=
  (runSeq_invariants yearOf hmono l s hwf hbound hok).2.2.2

/-- Closed instantiation of the amended C2: one in-window run over a store
holding one record at path "F/A - B.md". -/
theorem claim_C2_witness :
    ∃ c2, alookup (runSeq (fun ts => ts / 100)
        ⟨[], [("F/A - B.md", [TLine.pcLine 1, TLine.firstAtLine 3,
          TLine.lastAtLine 3])],
        [(0, [HLine.heading, HLine.blankL, HLine.entryL 3 "A - B"])],
        ⟨"k", "u", "F", "H"⟩⟩
        [([FetchResp.okPage [⟨some "B", some "A", none, some 10, []⟩]
          (some 1)], 0, 0)]).records "F/A - B.md" = some c2 ∧
      firstFirstAt c2 = firstFirstAt [TLine.pcLine 1, TLine.firstAtLine 3,
        TLine.lastAtLine 3] ∧
      (firstLastAt c2 = firstLastAt [TLine.pcLine 1, TLine.firstAtLine 3,
          TLine.lastAtLine 3] ∨
        ∃ t t2, firstLastAt [TLine.pcLine 1, TLine.firstAtLine 3,
            TLine.lastAtLine 3] = some t ∧ firstLastAt c2 = some t2 ∧
          t ≤ t2) :=
  claim_C2 (fun ts => ts / 100)
    ⟨[], [("F/A - B.md", [TLine.pcLine 1, TLine.firstAtLine 3,
      TLine.lastAtLine 3])],
      [(0, [HLine.heading, HLine.blankL, HLine.entryL 3 "A - B"])],
      ⟨"k", "u", "F", "H"⟩⟩
    [([FetchResp.okPage [⟨some "B", some "A", none, some 10, []⟩]
      (some 1)], 0, 0)]
    (fun a b h => Nat.div_le_div_right h)
    (by decide) (by decide) ⟨by decide, trivial⟩
    "F/A - B.md" [TLine.pcLine 1, TLine.firstAtLine 3, TLine.lastAtLine 3]
    rfl

/-- Counterexample to C2 as stated: after a 24-year gap in running the
plugin, the resolver finds no watermark within its 21-year lookback, an old
remote event (timestamp 50) survives the filter, and the update rewrites the
record's `last_listened_at` backwards from 100 to 50 in a completed run. -/
theorem claim_C2_cex :
    (syncCore ⟨[], [("F/A - B.md", [TLine.pcLine 1, TLine.firstAtLine 100,
        TLine.lastAtLine 100])],
        [(1, [HLine.heading, HLine.blankL, HLine.entryL 100 "A - B"])],
        ⟨"k", "u", "F", "H"⟩⟩
      [FetchResp.okPage [⟨some "B", some "A", none, some 50, []⟩] (some 1)]
      25 0 (fun ts => ts / 100)).1 = Outcome.completed 0 1 ∧
    firstLastAt ((alookup (syncCore ⟨[], [("F/A - B.md", [TLine.pcLine 1,
        TLine.firstAtLine 100, TLine.lastAtLine 100])],
        [(1, [HLine.heading, HLine.blankL, HLine.entryL 100 "A - B"])],
        ⟨"k", "u", "F", "H"⟩⟩
      [FetchResp.okPage [⟨some "B", some "A", none, some 50, []⟩] (some 1)]
      25 0 (fun ts => ts / 100)).2.records "F/A - B.md").getD []) =
      some 50 ∧
    firstLastAt [TLine.pcLine 1, TLine.firstAtLine 100,
      TLine.lastAtLine 100] = some 100 := by
  decide

/-- **C1** (amended) — Idempotence within the lookback window: over a
well-formed store that already has history entries, with the run year inside
the window both before and after the first run, a completed run followed by
a second run over the identical remote script makes the second run filter
out every fetched event and return `allFiltered` with the state exactly
unchanged — zero new history entries and zero play-count change.  The
original unconditional claim is refuted separately: an event dated outside
the lookback window escapes the resolver and is re-counted by the second
run. -/
theorem claim_C1 (yearOf : Nat → Nat) (s s1 : SyncState)
    (script : List FetchResp) (cy now1 now2 c u : Nat)
    (hmono : ∀ a b, a ≤ b → yearOf a ≤ yearOf b)
    (hwf : wfHist yearOf s.history)
    (hhe : histHasEntries s.history)
    (hwin1 : windowOk yearOf s.history cy)
    (hrun1 : syncCore s script cy now1 yearOf = (Outcome.completed c u, s1))
    (hwin2 : windowOk yearOf s1.history cy) :
    syncCore s1 script cy now2 yearOf = (Outcome.allFiltered, s1) := by
  rcases syncCore_cases s script cy now1 yearOf with ⟨hs, hout⟩ |
    ⟨allNew, hf, hne, ht, heq⟩
  · exfalso
    rw [hrun1] at hout
    rcases hout with h | h | h | h <;> exact Outcome.noConfusion h
  · have hgd := resolveWatermark_getD yearOf s.history cy hwf hmono hwin1
    rw [hgd] at ht heq
    rw [heq] at hrun1
    injection hrun1 with hout1 hst1
    have hfound1 : resolveWatermark s.history cy =
        some (histMaxTs s.history) :=
      resolveWatermark_eq_histMax yearOf s.history cy hwf hmono hhe
        (hwin1 hhe).1 (hwin1 hhe).2
    have hfacts := history_phase_facts yearOf s.history now1 allNew hwf
    have hTne : trulyNewTracks (histMaxTs s.history) allNew ≠ [] := by
      intro hnil
      rw [hnil] at ht
      simp at ht
    have hH := hfacts.2.2.2.2 hTne
    have hh1 : s1.history = processHistory yearOf s.history
        (sortByTs (aggregate now1 (trulyNewTracks (histMaxTs s.history)
          allNew)).2) := by
      rw [← hst1]
    have hH1 : histHasEntries s1.history := by
      rw [hh1]
      exact hH
    have hwfH1 : wfHist yearOf s1.history := by
      rw [hh1]
      exact hfacts.1
    have hfound2 : resolveWatermark s1.history cy =
        some (histMaxTs s1.history) :=
      resolveWatermark_eq_histMax yearOf s1.history cy hwfH1 hmono hH1
        (hwin2 hH1).1 (hwin2 hH1).2
    have hallx : ∀ t ∈ allNew, filterTs t ≤ histMaxTs s1.history := by
      intro t htm
      rw [hh1]
      by_cases hlt : histMaxTs s.history < filterTs t
      · exact hfacts.2.2.1 t ((mem_trulyNewTracks _ _ t).2 ⟨htm, hlt⟩)
      · have := hfacts.2.1
        omega
    have hnil : trulyNewTracks (histMaxTs s1.history) allNew = [] := by
      unfold trulyNewTracks
      rw [List.filter_eq_nil_iff]
      intro t htm
      have := hallx t htm
      simp only [decide_eq_true_eq]
      omega
    refine syncCore_allFiltered s1 script cy now2 yearOf allNew ?_ hne ?_
    · rw [hfound2]
      rw [hfound1] at hf
      exact hf
    · rw [hfound2]
      simp only [Option.getD_some]
      rw [hnil]
      rfl

/-- Closed instantiation of the amended C1: in-window store with an entry at
timestamp 3, one remote event at timestamp 10; the first run completes
creating one record, the second filters everything. -/
theorem claim_C1_witness :
    syncCore (syncCore ⟨[], [],
        [(0, [HLine.heading, HLine.blankL, HLine.entryL 3 "A - B"])],
        ⟨"k", "u", "F", "H"⟩⟩
      [FetchResp.okPage [⟨some "B", some "A", none, some 10, []⟩] (some 1)]
      15 0 (fun ts => ts / 100)).2
      [FetchResp.okPage [⟨some "B", some "A", none, some 10, []⟩] (some 1)]
      15 7 (fun ts => ts / 100) =
    (Outcome.allFiltered, (syncCore ⟨[], [],
        [(0, [HLine.heading, HLine.blankL, HLine.entryL 3 "A - B"])],
        ⟨"k", "u", "F", "H"⟩⟩
      [FetchResp.okPage [⟨some "B", some "A", none, some 10, []⟩] (some 1)]
      15 0 (fun ts => ts / 100)).2) :=
  claim_C1 (fun ts => ts / 100)
    ⟨[], [], [(0, [HLine.heading, HLine.blankL, HLine.entryL 3 "A - B"])],
      ⟨"k", "u", "F", "H"⟩⟩
    (syncCore ⟨[], [],
        [(0, [HLine.heading, HLine.blankL, HLine.entryL 3 "A - B"])],
        ⟨"k", "u", "F", "H"⟩⟩
      [FetchResp.okPage [⟨some "B", some "A", none, some 10, []⟩] (some 1)]
      15 0 (fun ts => ts / 100)).2
    [FetchResp.okPage [⟨some "B", some "A", none, some 10, []⟩] (some 1)]
    15 0 7 1 0
    (fun a b h => Nat.div_le_div_right h)
    (by decide) (by decide) (by decide) (by decide) (by decide)

/-- Counterexample to C1 as stated: an event dated in year 27 (timestamp
2700) with the run's year at 25 escapes the 21-year lookback, so the second
identical run finds no watermark again, re-counts the same event, and bumps
the record's play count from 1 to 2. -/
theorem claim_C1_cex :
    (syncCore ⟨[], [], [], ⟨"k", "u", "F", "H"⟩⟩
      [FetchResp.okPage [⟨some "B", some "A", none, some 2700, []⟩]
        (some 1)] 25 0 (fun ts => ts / 100)).1 = Outcome.completed 1 0 ∧
    (syncCore (syncCore ⟨[], [], [], ⟨"k", "u", "F", "H"⟩⟩
        [FetchResp.okPage [⟨some "B", some "A", none, some 2700, []⟩]
          (some 1)] 25 0 (fun ts => ts / 100)).2
      [FetchResp.okPage [⟨some "B", some "A", none, some 2700, []⟩]
        (some 1)] 25 0 (fun ts => ts / 100)).1 = Outcome.completed 0 1 ∧
    firstPcOf ((alookup (syncCore (syncCore
        ⟨[], [], [], ⟨"k", "u", "F", "H"⟩⟩
        [FetchResp.okPage [⟨some "B", some "A", none, some 2700, []⟩]
          (some 1)] 25 0 (fun ts => ts / 100)).2
      [FetchResp.okPage [⟨some "B", some "A", none, some 2700, []⟩]
        (some 1)] 25 0 (fun ts => ts / 100)).2.records
      "F/A - B.md").getD []) = some 2 := by
  decide

end LastFmSync
